import Mathlib

/-! # advanced-vector: `RawMemory<T>` and `Vector<T>` (vector.h)

A shallow embedding of the two class templates of `vector.h`.

* A storage block is a list of slots. A slot is either raw (uninitialised
  memory holding no object) or live (it holds a constructed `T`).
* A `T*` into a block is the slot offset from the start of the block;
  `GetAddress()` is offset `0`. The null pointer of an empty `RawMemory` is
  the empty slot list.
* The element type `T` is a template parameter: what its constructors and
  assignments do (whether they throw, what a move leaves behind) and whether
  `operator new` fails are supplied by an `Env`.
* An operation either returns, or leaves by a C++ exception (the state it
  leaves behind is recorded), or has undefined behaviour (`Fault`): a read,
  assignment or destruction of a slot holding no object, an access outside the
  block, a failed `assert` of `RawMemory`, a pointer formed before the block.
* Every run of `~RawMemory` on a local block is recorded with the slots of the
  block as they are when it is released (`freed`).
* `size_t` has 64 bits. The byte count `n * sizeof(T)` that `Allocate(n)`
  passes to `operator new` (line 78) is a product in `size_t`: it wraps around
  `2^64`, and the block that is returned then has fewer than `n` slots.
  `sizeof(T)` is supplied by the `Env`. Where a theorem needs a block of `n`
  slots, a hypothesis says that `n * sizeof(T) < 2^64` and that `operator new`
  does not throw (`Env.allocFails n = false` says both).
* The subtractions `size_ - 1`, `--size_` and `size_ - i` wrap around `2^64`
  as in C++ when they go below zero. In the memory model the sums and
  products of sizes (`size_ + 1`, `size_ * 2`) are natural numbers: for a
  consistent vector (`Vector.Valid`) they are bounded by twice the slot count
  of its block, and stay below `2^64` unless the block has `2^63` bytes or
  more.
* The members `capacity_` and `size_` are also followed on their own, in
  `size_t` arithmetic, through every path of the source, including the paths
  on which the memory model stops: a read of an uninitialised slot, a write
  to a block whose byte count has wrapped (`Fields`).
* Arguments are passed by value: a `value` that aliases an element of the
  vector itself is not modelled. The two vectors of a binary operation are
  distinct objects (`this != &other` holds).
* A vector owns its block (`RawMemory` cannot be copied, lines 13-14), so a
  `Vector` carries the slots of its block. Where a claim is about two objects
  and their blocks, the blocks are kept in a free store indexed by address and
  an object holds the address of its block (`Store`, `VectorRef`).
-/

namespace AdvancedVector

/-! ## Memory -/

/-- One element-sized location of a storage block. -/
inductive Slot (T : Type) where
  | raw : Slot T
  | live (v : T) : Slot T
  deriving DecidableEq, Repr

/-- The slots of one allocated region; the empty list is `nullptr`. -/
abbrev Buf (T : Type) := List (Slot T)

/-- Undefined behaviour (or a failed debug assertion). -/
inductive Fault where
  /-- Failed `assert(offset <= capacity_)` of `RawMemory::operator+` -/
  | assertOffset (offset : Nat)
  /-- Failed `assert(index < capacity_)` of `RawMemory::operator[]` -/
  | assertIndex (index : Nat)
  /-- access through a pointer that is outside the allocated block -/
  | outOfBlock (p : Nat)
  /-- read, assignment to, or destruction of a slot that holds no object -/
  | notLive (p : Nat)
  /-- a pointer moved before the start of the block -/
  | beforeBlock
  /-- an iterator range whose end precedes its start -/
  | badRange
  deriving DecidableEq, Repr

/-- The exceptions that can leave an operation. -/
inductive Exc where
  /-- thrown by `operator new` -/
  | bad_alloc
  /-- thrown by a constructor or an assignment of `T` -/
  | element
  deriving DecidableEq, Repr

/-- The behaviour of the template parameter `T` and of `operator new`. -/
structure Env (T : Type) where
  /-- Size of an element in bytes: `sizeof(T)` -/
  sizeof_T : Nat
  /-- An object type has at least one byte -/
  sizeof_pos : 0 < sizeof_T
  /-- Trait `std::is_nothrow_move_constructible_v<T>` -/
  is_nothrow_move_constructible : Bool
  /-- Trait `std::is_copy_constructible_v<T>` -/
  is_copy_constructible : Bool
  /-- Whether `T(const T&)` throws when copying this value -/
  copyThrows : T → Bool
  /-- Whether `T(T&&)` throws when moving this value (ignored for a nothrow move) -/
  moveThrows : T → Bool
  /-- Whether `operator=(const T&)` throws when assigning this value -/
  copyAssignThrows : T → Bool
  /-- Whether `operator=(T&&)` throws when assigning this value -/
  moveAssignThrows : T → Bool
  /-- what a move (construction or assignment) leaves in its source -/
  movedFrom : T → T
  /-- Result of `T()`: the value-initialised element, `none` when `T()` throws -/
  valueInit : Option T
  /-- Whether `operator new(bytes)` throws `std::bad_alloc` -/
  newThrows : Nat → Bool

/-- The constructor call `T(args...)` that builds a new element. -/
inductive Init (T : Type) where
  /-- Call of `T(const T&)` from a caller's value -/
  | copy (v : T) : Init T
  /-- Call of `T(T&&)` from a caller's value -/
  | move (v : T) : Init T
  /-- any other constructor: the value it builds, `none` when it throws -/
  | args (r : Option T) : Init T
  deriving DecidableEq, Repr

/-- Result of a memory primitive that can be left by an exception. -/
inductive Step (β : Type) where
  | done (b : β) : Step β
  /-- an element operation threw; `b` is the memory the primitive leaves -/
  | threw (b : β) : Step β
  | ub (f : Fault) : Step β
  deriving DecidableEq, Repr

/-- Result of a constructor or member function: `s` is the object state
(`*this`), `a` the returned value, `freed` the local blocks released. -/
inductive Outcome (T σ α : Type) where
  | ok (s : σ) (a : α) (freed : List (Buf T)) : Outcome T σ α
  | throw (e : Exc) (s : σ) (freed : List (Buf T)) : Outcome T σ α
  | ub (f : Fault) : Outcome T σ α
  deriving DecidableEq, Repr

/-- Subtraction of two `size_t` values: `a - b`, wrapping around
`2^64` when `b` exceeds `a`. -/
def size_sub (a b : Nat) : Nat := if b ≤ a then a - b else a + 2 ^ 64 - b

/-- Multiplication of two `size_t` values: `a * b`, wrapping around `2^64`. -/
def size_mul (a b : Nat) : Nat := if a * b < 2 ^ 64 then a * b else (a * b) % 2 ^ 64

/-- Pointer arithmetic `p - k` on a `T*`: a pointer before the block is undefined. -/
def ptr_sub (p k : Nat) : Except Fault Nat :=
  if k ≤ p then .ok (p - k) else .error .beforeBlock

/-- Distance `last - first` of an iterator range `[first, last)`. -/
def distance (first last : Nat) : Except Fault Nat :=
  if first ≤ last then .ok (last - first) else .error .badRange

/-- Reading the object a pointer refers to. -/
def Buf.read {T : Type} (b : Buf T) (p : Nat) : Except Fault T :=
  match b[p]? with
  | none => .error (.outOfBlock p)
  | some .raw => .error (.notLive p)
  | some (.live v) => .ok v

/-- Placement new of an already built value: `new (p) T(...)`. -/
def construct_at {T : Type} (b : Buf T) (p : Nat) (v : T) : Except Fault (Buf T) :=
  if p < b.length then .ok (b.set p (.live v)) else .error (.outOfBlock p)

/-- Destructor call `p->~T()`. -/
def destroy_at {T : Type} (b : Buf T) (p : Nat) : Except Fault (Buf T) :=
  match b.read p with
  | .error f => .error f
  | .ok _ => .ok (b.set p .raw)

/-- Embedding of `std::destroy_n(p, n)` -/
def destroy_n {T : Type} (b : Buf T) (p : Nat) : Nat → Except Fault (Buf T)
  | 0 => .ok b
  | n + 1 =>
    match destroy_at b p with
    | .error f => .error f
    | .ok b1 => destroy_n b1 (p + 1) n

/-- The constructor `T(args...)`: the value built, `none` when it throws. -/
def Env.construct {T : Type} (E : Env T) : Init T → Option T
  | .copy v => if E.copyThrows v then none else some v
  | .move v => if !E.is_nothrow_move_constructible && E.moveThrows v then none else some v
  | .args r => r

/-- Loop of `std::uninitialized_copy_n` between two blocks, `k` elements
already copied: on a throw the `k` copies are destroyed. -/
def uninitCopyLoop {T : Type} (E : Env T) (src : Buf T) (first d : Nat) :
    Nat → Nat → Buf T → Step (Buf T)
  | 0, _, dst => .done dst
  | n + 1, k, dst =>
    match src.read (first + k) with
    | .error f => .ub f
    | .ok v =>
      if E.copyThrows v then
        match destroy_n dst d k with
        | .error f => .ub f
        | .ok dst1 => .threw dst1
      else
        match construct_at dst (d + k) v with
        | .error f => .ub f
        | .ok dst1 => uninitCopyLoop E src first d n (k + 1) dst1

/-- Embedding of `std::uninitialized_copy_n(first, n, d)` from block `src` into block `dst`. -/
def uninitialized_copy_n {T : Type} (E : Env T) (src : Buf T) (first n : Nat)
    (dst : Buf T) (d : Nat) : Step (Buf T) :=
  uninitCopyLoop E src first d n 0 dst

/-- Loop of `std::uninitialized_copy_n` when source and destination lie in the
same block. -/
def uninitCopyWithinLoop {T : Type} (E : Env T) (first d : Nat) :
    Nat → Nat → Buf T → Step (Buf T)
  | 0, _, b => .done b
  | n + 1, k, b =>
    match b.read (first + k) with
    | .error f => .ub f
    | .ok v =>
      if E.copyThrows v then
        match destroy_n b d k with
        | .error f => .ub f
        | .ok b1 => .threw b1
      else
        match construct_at b (d + k) v with
        | .error f => .ub f
        | .ok b1 => uninitCopyWithinLoop E first d n (k + 1) b1

/-- Embedding of `std::uninitialized_copy_n(first, n, d)` with both pointers in block `b`. -/
def uninitialized_copy_n_within {T : Type} (E : Env T) (b : Buf T) (first n d : Nat) :
    Step (Buf T) :=
  uninitCopyWithinLoop E first d n 0 b

/-- Loop of `std::uninitialized_move_n` between two blocks: each source is
left moved-from; on a throw the `k` constructed elements are destroyed. -/
def uninitMoveLoop {T : Type} (E : Env T) (first d : Nat) :
    Nat → Nat → Buf T → Buf T → Step (Buf T × Buf T)
  | 0, _, src, dst => .done (src, dst)
  | n + 1, k, src, dst =>
    match src.read (first + k) with
    | .error f => .ub f
    | .ok v =>
      if !E.is_nothrow_move_constructible && E.moveThrows v then
        match destroy_n dst d k with
        | .error f => .ub f
        | .ok dst1 => .threw (src, dst1)
      else
        match construct_at dst (d + k) v with
        | .error f => .ub f
        | .ok dst1 =>
          uninitMoveLoop E first d n (k + 1) (src.set (first + k) (.live (E.movedFrom v))) dst1

/-- Embedding of `std::uninitialized_move_n(first, n, d)` from block `src` into block `dst`. -/
def uninitialized_move_n {T : Type} (E : Env T) (src : Buf T) (first n : Nat)
    (dst : Buf T) (d : Nat) : Step (Buf T × Buf T) :=
  uninitMoveLoop E first d n 0 src dst

/-- Loop of `std::uninitialized_value_construct_n`. -/
def valueConstructLoop {T : Type} (E : Env T) (d : Nat) : Nat → Nat → Buf T → Step (Buf T)
  | 0, _, b => .done b
  | n + 1, k, b =>
    match E.valueInit with
    | none =>
      match destroy_n b d k with
      | .error f => .ub f
      | .ok b1 => .threw b1
    | some v =>
      match construct_at b (d + k) v with
      | .error f => .ub f
      | .ok b1 => valueConstructLoop E d n (k + 1) b1

/-- Embedding of `std::uninitialized_value_construct_n(d, n)` -/
def uninitialized_value_construct_n {T : Type} (E : Env T) (b : Buf T) (d n : Nat) :
    Step (Buf T) :=
  valueConstructLoop E d n 0 b

/-- Move assignment `*dst = std::move(*src)` inside one block. -/
def move_assign {T : Type} (E : Env T) (b : Buf T) (src dst : Nat) : Step (Buf T) :=
  match b.read src with
  | .error f => .ub f
  | .ok v =>
    match b.read dst with
    | .error f => .ub f
    | .ok _ =>
      if E.moveAssignThrows v then .threw b
      else .done ((b.set dst (.live v)).set src (.live (E.movedFrom v)))

/-- Loop of the algorithm `std::move(first, last, d)`: `n` elements, low to high. -/
def moveLoop {T : Type} (E : Env T) : Nat → Nat → Nat → Buf T → Step (Buf T)
  | 0, _, _, b => .done b
  | n + 1, first, d, b =>
    match move_assign E b first d with
    | .ub f => .ub f
    | .threw b1 => .threw b1
    | .done b1 => moveLoop E n (first + 1) (d + 1) b1

/-- The algorithm `std::move(first, last, d_first)` inside one block. -/
def move_range {T : Type} (E : Env T) (b : Buf T) (first last d_first : Nat) : Step (Buf T) :=
  match distance first last with
  | .error f => .ub f
  | .ok n => moveLoop E n first d_first b

/-- Loop of `std::move_backward`: `*(--d_last) = std::move(*(--last))`, `n` times. -/
def moveBackwardLoop {T : Type} (E : Env T) : Nat → Nat → Nat → Buf T → Step (Buf T)
  | 0, _, _, b => .done b
  | n + 1, last, d_last, b =>
    match ptr_sub d_last 1 with
    | .error f => .ub f
    | .ok d1 =>
      match ptr_sub last 1 with
      | .error f => .ub f
      | .ok l1 =>
        match move_assign E b l1 d1 with
        | .ub f => .ub f
        | .threw b1 => .threw b1
        | .done b1 => moveBackwardLoop E n l1 d1 b1

/-- The algorithm `std::move_backward(first, last, d_last)` inside one block. -/
def move_backward {T : Type} (E : Env T) (b : Buf T) (first last d_last : Nat) : Step (Buf T) :=
  match distance first last with
  | .error f => .ub f
  | .ok n => moveBackwardLoop E n last d_last b

/-! ## `RawMemory<T>` -/

/-- The class `RawMemory<T>`: an owned block and its slot count. -/
structure RawMemory (T : Type) where
  buffer_ : Buf T := []
  capacity_ : Nat := 0
  deriving DecidableEq, Repr

/-- The byte count `n * sizeof(T)` that `Allocate(n)` passes to `operator new`
(line 78): the product is taken in `size_t`. -/
def Env.bytes {T : Type} (E : Env T) (n : Nat) : Nat := size_mul n E.sizeof_T

/-- Embedding of `RawMemory::Allocate(n)` when `operator new` returns: the block
has `n * sizeof(T)` bytes, the product taken in `size_t`, hence room for that
many bytes divided by `sizeof(T)` raw slots (fewer than `n` when the product
wraps); `nullptr` for `n = 0`. -/
def RawMemory.Allocate {T : Type} (E : Env T) (n : Nat) : Buf T :=
  if n ≠ 0 then List.replicate (E.bytes n / E.sizeof_T) Slot.raw else []

/-- Embedding of `explicit RawMemory(size_t capacity)`; `none` when `operator new` throws
(it is called only for a non-zero capacity). -/
def RawMemory.create {T : Type} (E : Env T) (capacity : Nat) : Option (RawMemory T) :=
  if capacity ≠ 0 ∧ E.newThrows (E.bytes capacity) = true then none
  else some { buffer_ := RawMemory.Allocate E capacity, capacity_ := capacity }

/-- The byte count of `n` elements fits `size_t`: `n * sizeof(T) < 2^64`. -/
def Env.fits {T : Type} (E : Env T) (n : Nat) : Prop := n * E.sizeof_T < 2 ^ 64

instance {T : Type} (E : Env T) (n : Nat) : Decidable (E.fits n) := by
  unfold Env.fits
  infer_instance

/-- Whether `Allocate(n)` fails to provide a block of `n` slots: the byte count
`n * sizeof(T)` does not fit `size_t` (line 78 lets it wrap, and the block is
too small), or `operator new` throws `std::bad_alloc`. -/
def Env.allocFails {T : Type} (E : Env T) (n : Nat) : Bool :=
  decide (2 ^ 64 ≤ n * E.sizeof_T) || E.newThrows (n * E.sizeof_T)

/-- Embedding of `T* operator+(size_t offset)` -/
def RawMemory.add {T : Type} (m : RawMemory T) (offset : Nat) : Except Fault Nat :=
  if offset ≤ m.capacity_ then .ok offset else .error (.assertOffset offset)

/-- Embedding of `T& operator[](size_t index)`: the slot referred to. -/
def RawMemory.index {T : Type} (m : RawMemory T) (index : Nat) : Except Fault Nat :=
  if index < m.capacity_ then .ok index else .error (.assertIndex index)

/-- Embedding of `void Swap(RawMemory& other)`: the pair (`*this`, `other`) afterwards. -/
def RawMemory.Swap {T : Type} (m other : RawMemory T) : RawMemory T × RawMemory T :=
  ({ buffer_ := other.buffer_, capacity_ := other.capacity_ },
   { buffer_ := m.buffer_, capacity_ := m.capacity_ })

/-- Embedding of `RawMemory& operator=(RawMemory&& input)` for `this != &input`: the pair
(`*this`, `input`) afterwards. -/
def RawMemory.moveAssign {T : Type} (m input : RawMemory T) : RawMemory T × RawMemory T :=
  ({ buffer_ := input.buffer_, capacity_ := input.capacity_ },
   { buffer_ := m.buffer_, capacity_ := m.capacity_ })

/-- Embedding of `T* GetAddress()`: the start of the block. -/
def RawMemory.GetAddress {T : Type} (_m : RawMemory T) : Nat := 0

/-- Embedding of `size_t Capacity() const` -/
def RawMemory.Capacity {T : Type} (m : RawMemory T) : Nat := m.capacity_

/-! ## `Vector<T>` -/

/-- The class `Vector<T>`. -/
structure Vector (T : Type) where
  data_ : RawMemory T := {}
  capacity_ : Nat := 0
  size_ : Nat := 0
  deriving DecidableEq, Repr

/-- State after a call that returned or threw; `none` after undefined behaviour. -/
def Outcome.after {T σ α : Type} : Outcome T σ α → Option σ
  | .ok s _ _ => some s
  | .throw _ s _ => some s
  | .ub _ => none

/-- The blocks released by a call that returned or threw. -/
def Outcome.released {T σ α : Type} : Outcome T σ α → List (Buf T)
  | .ok _ _ l => l
  | .throw _ _ l => l
  | .ub _ => []

/-- Forgetting the returned value. -/
def Outcome.void {T σ α : Type} : Outcome T σ α → Outcome T σ Unit
  | .ok s _ l => .ok s () l
  | .throw e s l => .throw e s l
  | .ub f => .ub f

/-- Embedding of `Vector() = default` -/
def Vector.empty {T : Type} : Vector T := {}

/-- Embedding of `void CopyMove(T* start, size_t size, T* dest)` from block `src` into
block `dst`: the pair of blocks afterwards. -/
def CopyMove {T : Type} (E : Env T) (src : Buf T) (start size : Nat) (dst : Buf T) (dest : Nat) :
    Step (Buf T × Buf T) :=
  if E.is_nothrow_move_constructible || !E.is_copy_constructible then
    uninitialized_move_n E src start size dst dest
  else
    match uninitialized_copy_n E src start size dst dest with
    | .ub f => .ub f
    | .threw d1 => .threw (src, d1)
    | .done d1 => .done (src, d1)

/-- Embedding of `explicit Vector(size_t size)` -/
def Vector.sized {T : Type} (E : Env T) (size : Nat) : Outcome T Unit (Vector T) :=
  match RawMemory.create E size with
  | none => .throw .bad_alloc () []
  | some data_ =>
    match uninitialized_value_construct_n E data_.buffer_ data_.GetAddress size with
    | .ub f => .ub f
    | .threw b => .throw .element () [b]
    | .done b =>
      .ok () { data_ := { data_ with buffer_ := b }, capacity_ := size, size_ := size } []

/-- Embedding of `Vector(const Vector& other)` -/
def Vector.copy {T : Type} (E : Env T) (other : Vector T) : Outcome T Unit (Vector T) :=
  match RawMemory.create E other.size_ with
  | none => .throw .bad_alloc () []
  | some data_ =>
    match uninitialized_copy_n E other.data_.buffer_ other.data_.GetAddress other.size_
        data_.buffer_ data_.GetAddress with
    | .ub f => .ub f
    | .threw b => .throw .element () [b]
    | .done b =>
      .ok () { data_ := { data_ with buffer_ := b }, capacity_ := other.size_,
               size_ := other.size_ } []

/-- Embedding of `void Swap(Vector& input)`: the pair (`*this`, `input`) afterwards. -/
def Vector.Swap {T : Type} (self input : Vector T) : Vector T × Vector T :=
  ({ data_ := (self.data_.Swap input.data_).1, capacity_ := input.capacity_, size_ := input.size_ },
   { data_ := (self.data_.Swap input.data_).2, capacity_ := self.capacity_, size_ := self.size_ })

/-- Embedding of `~Vector()` followed by `~RawMemory()`: the block as it is released. -/
def Vector.dtor {T : Type} (self : Vector T) : Except Fault (Buf T) :=
  destroy_n self.data_.buffer_ self.data_.GetAddress self.size_

/-- The loop `for (; i < other.size_ && i < size_; ++i) data_[i] = other.data_[i];`
with `n` iterations left; returns the block and the final `i`. -/
def copyAssignLoop {T : Type} (E : Env T) (cap : Nat) (other : RawMemory T) :
    Nat → Nat → Buf T → Step (Buf T × Nat)
  | 0, i, b => .done (b, i)
  | n + 1, i, b =>
    match other.index i with
    | .error f => .ub f
    | .ok si =>
      match RawMemory.index { buffer_ := b, capacity_ := cap } i with
      | .error f => .ub f
      | .ok di =>
        match other.buffer_.read si with
        | .error f => .ub f
        | .ok v =>
          match b.read di with
          | .error f => .ub f
          | .ok _ =>
            if E.copyAssignThrows v then .threw (b, i)
            else copyAssignLoop E cap other n (i + 1) (b.set di (.live v))

/-- Embedding of `Vector& operator=(const Vector& other)` for `this != &other`. -/
def Vector.copyAssign {T : Type} (E : Env T) (self other : Vector T) :
    Outcome T (Vector T) Unit :=
  if self.capacity_ < other.capacity_ then
    match Vector.copy E other with
    | .ub f => .ub f
    | .throw e _ fr => .throw e self fr
    | .ok _ copy fr =>
      match (self.Swap copy).2.dtor with
      | .error f => .ub f
      | .ok b => .ok (self.Swap copy).1 () (fr ++ [b])
  else
    match copyAssignLoop E self.data_.capacity_ other.data_ (min other.size_ self.size_) 0
        self.data_.buffer_ with
    | .ub f => .ub f
    | .threw (b, _) => .throw .element { self with data_ := { self.data_ with buffer_ := b } } []
    | .done (b, i) =>
      if self.size_ > other.size_ then
        match destroy_n b (self.data_.GetAddress + i) (size_sub self.size_ i) with
        | .error f => .ub f
        | .ok b1 =>
          .ok { self with data_ := { self.data_ with buffer_ := b1 }, size_ := other.size_ } () []
      else
        match uninitialized_copy_n_within E b (self.data_.GetAddress + i) (size_sub other.size_ i)
            (self.data_.GetAddress + i) with
        | .ub f => .ub f
        | .threw b1 =>
          .throw .element { self with data_ := { self.data_ with buffer_ := b1 } } []
        | .done b1 =>
          .ok { self with data_ := { self.data_ with buffer_ := b1 }, size_ := other.size_ } () []

/-- Embedding of `Vector(Vector&& input) noexcept`: the pair (new vector, `input`) afterwards. -/
def Vector.moveCtor {T : Type} (input : Vector T) : Vector T × Vector T :=
  ({ data_ := ((Vector.empty : Vector T).data_.moveAssign input.data_).1,
     capacity_ := input.capacity_, size_ := input.size_ },
   { data_ := ((Vector.empty : Vector T).data_.moveAssign input.data_).2,
     capacity_ := 0, size_ := 0 })

/-- Embedding of `Vector& operator=(Vector&& input) noexcept` for `this != &input`: the pair
(`*this`, `input`) afterwards. -/
def Vector.moveAssign {T : Type} (self input : Vector T) : Vector T × Vector T :=
  ({ data_ := (self.data_.moveAssign input.data_).1,
     capacity_ := input.capacity_, size_ := input.size_ },
   { data_ := (self.data_.moveAssign input.data_).2, capacity_ := 0, size_ := 0 })

/-- Embedding of `iterator begin()` -/
def Vector.begin {T : Type} (self : Vector T) : Nat := self.data_.GetAddress

/-- Embedding of `iterator end()` -/
def Vector.end {T : Type} (self : Vector T) : Nat := self.data_.GetAddress + self.size_

/-- Embedding of `size_t Size() const` -/
def Vector.Size {T : Type} (self : Vector T) : Nat := self.size_

/-- Embedding of `size_t Capacity() const` -/
def Vector.Capacity {T : Type} (self : Vector T) : Nat := self.capacity_

/-- Embedding of `T& operator[](size_t index)`, read: `assert(index < size_)`, then
`data_[index]`. -/
def Vector.at {T : Type} (self : Vector T) (index : Nat) : Except Fault T :=
  if index < self.size_ then
    match self.data_.index index with
    | .error f => .error f
    | .ok p => self.data_.buffer_.read p
  else .error (.assertIndex index)

/-- Embedding of `void Reserve(size_t new_capacity)` -/
def Vector.Reserve {T : Type} (E : Env T) (self : Vector T) (new_capacity : Nat) :
    Outcome T (Vector T) Unit :=
  if new_capacity ≤ self.capacity_ then .ok self () []
  else
    match RawMemory.create E new_capacity with
    | none => .throw .bad_alloc self []
    | some new_data =>
      match CopyMove E self.data_.buffer_ self.data_.GetAddress self.size_
          new_data.buffer_ new_data.GetAddress with
      | .ub f => .ub f
      | .threw (ob, nb) =>
        .throw .element { self with data_ := { self.data_ with buffer_ := ob } } [nb]
      | .done (ob, nb) =>
        match destroy_n ob self.data_.GetAddress self.size_ with
        | .error f => .ub f
        | .ok ob1 =>
          .ok { data_ := (RawMemory.Swap { self.data_ with buffer_ := ob1 }
                            { new_data with buffer_ := nb }).1,
                capacity_ := new_capacity, size_ := self.size_ } ()
              [(RawMemory.Swap { self.data_ with buffer_ := ob1 }
                  { new_data with buffer_ := nb }).2.buffer_]

/-- The loop `for (size_t i = new_size; i < size_; ++i) (data_ + i)->~T();`
with `n` iterations left. -/
def resizeDestroyLoop {T : Type} (cap : Nat) : Nat → Nat → Buf T → Except Fault (Buf T)
  | 0, _, b => .ok b
  | n + 1, i, b =>
    match RawMemory.add { buffer_ := b, capacity_ := cap } i with
    | .error f => .error f
    | .ok p =>
      match destroy_at b p with
      | .error f => .error f
      | .ok b1 => resizeDestroyLoop cap n (i + 1) b1

/-- Embedding of `void Resize(size_t new_size)` -/
def Vector.Resize {T : Type} (E : Env T) (self : Vector T) (new_size : Nat) :
    Outcome T (Vector T) Unit :=
  if new_size = self.size_ then .ok self () []
  else if new_size < self.size_ then
    match resizeDestroyLoop self.data_.capacity_ (self.size_ - new_size) new_size
        self.data_.buffer_ with
    | .error f => .ub f
    | .ok b => .ok { self with data_ := { self.data_ with buffer_ := b }, size_ := new_size } () []
  else
    match self.Reserve E new_size with
    | .ub f => .ub f
    | .throw e s fr => .throw e s fr
    | .ok s _ fr =>
      match s.data_.add s.size_ with
      | .error f => .ub f
      | .ok p =>
        match uninitialized_value_construct_n E s.data_.buffer_ p (size_sub new_size s.size_) with
        | .ub f => .ub f
        | .threw b => .throw .element { s with data_ := { s.data_ with buffer_ := b } } fr
        | .done b =>
          .ok { s with data_ := { s.data_ with buffer_ := b }, size_ := new_size } () fr

/-- Embedding of `void PushBack(const T& value)` -/
def Vector.PushBack {T : Type} (E : Env T) (self : Vector T) (value : T) :
    Outcome T (Vector T) Unit :=
  if self.size_ = self.capacity_ then
    match RawMemory.create E (if self.size_ = 0 then 1 else self.size_ * 2) with
    | none => .throw .bad_alloc self []
    | some new_data =>
      match new_data.add self.size_ with
      | .error f => .ub f
      | .ok p =>
        match E.construct (.copy value) with
        | none => .throw .element self [new_data.buffer_]
        | some v =>
          match construct_at new_data.buffer_ p v with
          | .error f => .ub f
          | .ok nb =>
            match CopyMove E self.data_.buffer_ self.data_.GetAddress self.size_
                nb new_data.GetAddress with
            | .ub f => .ub f
            | .threw (ob, nb1) =>
              .throw .element { self with data_ := { self.data_ with buffer_ := ob } } [nb1]
            | .done (ob, nb1) =>
              match destroy_n ob self.data_.GetAddress self.size_ with
              | .error f => .ub f
              | .ok ob1 =>
                .ok { data_ := (RawMemory.Swap { self.data_ with buffer_ := ob1 }
                                  { new_data with buffer_ := nb1 }).1,
                      capacity_ := if self.size_ = 0 then 1 else self.size_ * 2,
                      size_ := self.size_ + 1 } ()
                    [(RawMemory.Swap { self.data_ with buffer_ := ob1 }
                        { new_data with buffer_ := nb1 }).2.buffer_]
  else
    match self.data_.add self.size_ with
    | .error f => .ub f
    | .ok p =>
      match E.construct (.copy value) with
      | none => .throw .element self []
      | some v =>
        match construct_at self.data_.buffer_ p v with
        | .error f => .ub f
        | .ok b =>
          .ok { self with data_ := { self.data_ with buffer_ := b }, size_ := self.size_ + 1 } () []

/-- Embedding of `void PushBack(T&& value)` -/
def Vector.PushBack_rv {T : Type} (E : Env T) (self : Vector T) (value : T) :
    Outcome T (Vector T) Unit :=
  if self.size_ = self.capacity_ then
    match RawMemory.create E (if self.size_ = 0 then 1 else self.size_ * 2) with
    | none => .throw .bad_alloc self []
    | some new_data =>
      match new_data.add self.size_ with
      | .error f => .ub f
      | .ok p =>
        match E.construct (.move value) with
        | none => .throw .element self [new_data.buffer_]
        | some v =>
          match construct_at new_data.buffer_ p v with
          | .error f => .ub f
          | .ok nb =>
            match CopyMove E self.data_.buffer_ self.data_.GetAddress self.size_
                nb new_data.GetAddress with
            | .ub f => .ub f
            | .threw (ob, nb1) =>
              .throw .element { self with data_ := { self.data_ with buffer_ := ob } } [nb1]
            | .done (ob, nb1) =>
              match destroy_n ob self.data_.GetAddress self.size_ with
              | .error f => .ub f
              | .ok ob1 =>
                .ok { data_ := (RawMemory.Swap { self.data_ with buffer_ := ob1 }
                                  { new_data with buffer_ := nb1 }).1,
                      capacity_ := if self.size_ = 0 then 1 else self.size_ * 2,
                      size_ := self.size_ + 1 } ()
                    [(RawMemory.Swap { self.data_ with buffer_ := ob1 }
                        { new_data with buffer_ := nb1 }).2.buffer_]
  else
    match self.data_.add self.size_ with
    | .error f => .ub f
    | .ok p =>
      match E.construct (.move value) with
      | none => .throw .element self []
      | some v =>
        match construct_at self.data_.buffer_ p v with
        | .error f => .ub f
        | .ok b =>
          .ok { self with data_ := { self.data_ with buffer_ := b }, size_ := self.size_ + 1 } () []

/-- Embedding of `void PopBack() noexcept` -/
def Vector.PopBack {T : Type} (self : Vector T) : Outcome T (Vector T) Unit :=
  match self.data_.add (size_sub self.size_ 1) with
  | .error f => .ub f
  | .ok p =>
    match destroy_at self.data_.buffer_ p with
    | .error f => .ub f
    | .ok b =>
      .ok { self with data_ := { self.data_ with buffer_ := b }, size_ := size_sub self.size_ 1 }
        () []

/-- Embedding of `T& EmplaceBack(Types&&... params)`: returns the slot of the new element. -/
def Vector.EmplaceBack {T : Type} (E : Env T) (self : Vector T) (params : Init T) :
    Outcome T (Vector T) Nat :=
  if self.size_ = self.capacity_ then
    match RawMemory.create E (if self.size_ = 0 then 1 else self.size_ * 2) with
    | none => .throw .bad_alloc self []
    | some new_data =>
      match new_data.add self.size_ with
      | .error f => .ub f
      | .ok ref =>
        match E.construct params with
        | none => .throw .element self [new_data.buffer_]
        | some v =>
          match construct_at new_data.buffer_ ref v with
          | .error f => .ub f
          | .ok nb =>
            match CopyMove E self.data_.buffer_ self.data_.GetAddress self.size_
                nb new_data.GetAddress with
            | .ub f => .ub f
            | .threw (ob, nb1) =>
              .throw .element { self with data_ := { self.data_ with buffer_ := ob } } [nb1]
            | .done (ob, nb1) =>
              match destroy_n ob self.data_.GetAddress self.size_ with
              | .error f => .ub f
              | .ok ob1 =>
                .ok { data_ := (RawMemory.Swap { self.data_ with buffer_ := ob1 }
                                  { new_data with buffer_ := nb1 }).1,
                      capacity_ := if self.size_ = 0 then 1 else self.size_ * 2,
                      size_ := self.size_ + 1 } ref
                    [(RawMemory.Swap { self.data_ with buffer_ := ob1 }
                        { new_data with buffer_ := nb1 }).2.buffer_]
  else
    match self.data_.add self.size_ with
    | .error f => .ub f
    | .ok ref =>
      match E.construct params with
      | none => .throw .element self []
      | some v =>
        match construct_at self.data_.buffer_ ref v with
        | .error f => .ub f
        | .ok b =>
          .ok { self with data_ := { self.data_ with buffer_ := b }, size_ := self.size_ + 1 }
            ref []

/-- The reallocating branch of `Emplace` (`size_ + 1 > capacity_`). -/
def Vector.emplaceGrow {T : Type} (E : Env T) (self : Vector T) (pos_n : Nat) (args : Init T) :
    Outcome T (Vector T) Nat :=
  match RawMemory.create E (if self.capacity_ = 0 then 1 else self.capacity_ * 2) with
  | none => .throw .bad_alloc self []
  | some new_data =>
    match new_data.add pos_n with
    | .error f => .ub f
    | .ok p =>
      match E.construct args with
      | none => .throw .element self [new_data.buffer_]
      | some v =>
        match construct_at new_data.buffer_ p v with
        | .error f => .ub f
        | .ok nb =>
          match CopyMove E self.data_.buffer_ self.data_.GetAddress pos_n
              nb new_data.GetAddress with
          | .ub f => .ub f
          | .threw (ob, nb1) =>
            .throw .element { self with data_ := { self.data_ with buffer_ := ob } } [nb1]
          | .done (ob, nb1) =>
            match RawMemory.add { self.data_ with buffer_ := ob } pos_n with
            | .error f => .ub f
            | .ok start =>
              match RawMemory.add { new_data with buffer_ := nb1 } pos_n with
              | .error f => .ub f
              | .ok dest =>
                match CopyMove E ob start (size_sub self.size_ pos_n) nb1 (dest + 1) with
                | .ub f => .ub f
                | .threw (ob1, nb2) =>
                  .throw .element { self with data_ := { self.data_ with buffer_ := ob1 } } [nb2]
                | .done (ob1, nb2) =>
                  match destroy_n ob1 self.data_.GetAddress self.size_ with
                  | .error f => .ub f
                  | .ok ob2 =>
                    match RawMemory.add (RawMemory.Swap { self.data_ with buffer_ := ob2 }
                        { new_data with buffer_ := nb2 }).1 pos_n with
                    | .error f => .ub f
                    | .ok ret =>
                      .ok { data_ := (RawMemory.Swap { self.data_ with buffer_ := ob2 }
                                        { new_data with buffer_ := nb2 }).1,
                            capacity_ := if self.capacity_ = 0 then 1 else self.capacity_ * 2,
                            size_ := self.size_ + 1 } ret
                          [(RawMemory.Swap { self.data_ with buffer_ := ob2 }
                              { new_data with buffer_ := nb2 }).2.buffer_]

/-- The move construction `new (dst) T(std::move(*src))` inside one block. -/
def move_construct {T : Type} (E : Env T) (b : Buf T) (src dst : Nat) : Step (Buf T) :=
  match b.read src with
  | .error f => .ub f
  | .ok v =>
    if !E.is_nothrow_move_constructible && E.moveThrows v then .threw b
    else
      match construct_at b dst v with
      | .error f => .ub f
      | .ok b1 => .done (b1.set src (.live (E.movedFrom v)))

/-- The branch of `Emplace` that keeps the block (`size_ + 1 <= capacity_`). -/
def Vector.emplaceInPlace {T : Type} (E : Env T) (self : Vector T) (pos_n : Nat) (args : Init T) :
    Outcome T (Vector T) Nat :=
  -- new(end()) T(std::move(data_[size_]));
  match self.data_.index self.size_ with
  | .error f => .ub f
  | .ok src =>
    match move_construct E self.data_.buffer_ src self.end with
    | .ub f => .ub f
    | .threw b => .throw .element { self with data_ := { self.data_ with buffer_ := b } } []
    | .done b =>
      -- std::move_backward(data_ + pos_n - 1, end() - 1, end());
      match self.data_.add pos_n with
      | .error f => .ub f
      | .ok p =>
        match ptr_sub p 1 with
        | .error f => .ub f
        | .ok first =>
          match ptr_sub self.end 1 with
          | .error f => .ub f
          | .ok last =>
            match move_backward E b first last self.end with
            | .ub f => .ub f
            | .threw b1 =>
              .throw .element { self with data_ := { self.data_ with buffer_ := b1 } } []
            | .done b1 =>
              -- (data_ + pos_n) -> ~T();
              match destroy_at b1 p with
              | .error f => .ub f
              | .ok b2 =>
                -- new(data_ + pos_n) T(std::forward<Args>(args)...);
                match E.construct args with
                | none =>
                  .throw .element { self with data_ := { self.data_ with buffer_ := b2 } } []
                | some v =>
                  match construct_at b2 p v with
                  | .error f => .ub f
                  | .ok b3 =>
                    .ok { self with data_ := { self.data_ with buffer_ := b3 },
                                    size_ := self.size_ + 1 } p []

/-- Embedding of `iterator Emplace(const_iterator pos, Args&&... args)`: `pos` and the
returned iterator are slot offsets in the current block. -/
def Vector.Emplace {T : Type} (E : Env T) (self : Vector T) (pos : Nat) (args : Init T) :
    Outcome T (Vector T) Nat :=
  if pos = self.end then self.EmplaceBack E args
  else if self.size_ + 1 > self.capacity_ then self.emplaceGrow E (pos - self.begin) args
  else self.emplaceInPlace E (pos - self.begin) args

/-- Embedding of `iterator Erase(const_iterator pos)` -/
def Vector.Erase {T : Type} (E : Env T) (self : Vector T) (pos : Nat) :
    Outcome T (Vector T) Nat :=
  match self.data_.add (pos - self.begin) with
  | .error f => .ub f
  | .ok p =>
    match self.data_.add self.size_ with
    | .error f => .ub f
    | .ok last =>
      match move_range E self.data_.buffer_ (p + 1) last p with
      | .ub f => .ub f
      | .threw b => .throw .element { self with data_ := { self.data_ with buffer_ := b } } []
      | .done b =>
        match ptr_sub last 1 with
        | .error f => .ub f
        | .ok q =>
          match destroy_at b q with
          | .error f => .ub f
          | .ok b1 =>
            .ok { self with data_ := { self.data_ with buffer_ := b1 },
                            size_ := size_sub self.size_ 1 } p []

/-- Embedding of `iterator Insert(const_iterator pos, const T& value)` -/
def Vector.Insert {T : Type} (E : Env T) (self : Vector T) (pos : Nat) (value : T) :
    Outcome T (Vector T) Nat :=
  self.Emplace E pos (.copy value)

/-- Embedding of `iterator Insert(const_iterator pos, T&& value)` -/
def Vector.Insert_rv {T : Type} (E : Env T) (self : Vector T) (pos : Nat) (value : T) :
    Outcome T (Vector T) Nat :=
  self.Emplace E pos (.move value)

/-! ## Vocabulary of the specification -/

/-- The vector holds the sequence `es`: its size is the length of `es` and
the slots `[0, size_)` of its block hold the elements of `es`, in order. -/
def Vector.Holds {T : Type} (v : Vector T) (es : List T) : Prop :=
  v.size_ = es.length ∧ v.data_.buffer_.take v.size_ = es.map Slot.live

/-- Consistency of the bookkeeping: `size_ <= capacity_`, the capacity the
vector reports does not exceed that of its block, and the block has as many
slots as its `RawMemory` says. -/
def Vector.Valid {T : Type} (v : Vector T) : Prop :=
  v.size_ ≤ v.capacity_ ∧ v.capacity_ ≤ v.data_.capacity_ ∧
    v.data_.capacity_ = v.data_.buffer_.length

instance {T : Type} [DecidableEq T] (v : Vector T) (es : List T) : Decidable (v.Holds es) := by
  unfold Vector.Holds
  infer_instance

instance {T : Type} (v : Vector T) : Decidable v.Valid := by
  unfold Vector.Valid
  infer_instance

/-- The vector that holds `es` and has `k` spare raw slots; `rest` are the
slots of its block beyond the capacity it reports. -/
def Vector.canon {T : Type} (es : List T) (k : Nat) (rest : Buf T) : Vector T :=
  { data_ := { buffer_ := es.map Slot.live ++ List.replicate k Slot.raw ++ rest,
               capacity_ := es.length + k + rest.length },
    capacity_ := es.length + k, size_ := es.length }

/-- The representation invariant: the bookkeeping is consistent, the slots
`[0, size_)` of the block hold live elements and the slots `[size_, capacity_)`
are raw. -/
def Vector.Inv {T : Type} (v : Vector T) : Prop :=
  ∃ (es : List T) (k : Nat) (rest : Buf T), v = Vector.canon es k rest

/-- The slots `[0, size_)` of the block hold live elements and every slot of
the block at an index `>= size_` is raw. -/
def Vector.LiveExactly {T : Type} (v : Vector T) : Prop :=
  (∀ i, i < v.size_ → ∃ x, v.data_.buffer_[i]? = some (Slot.live x)) ∧
    (∀ i, v.size_ ≤ i → i < v.data_.buffer_.length → v.data_.buffer_[i]? = some Slot.raw)

/-- Whether `CopyMove` throws while relocating an element of this value. -/
def Env.relocateThrows {T : Type} (E : Env T) (x : T) : Bool :=
  if E.is_nothrow_move_constructible || !E.is_copy_constructible then
    !E.is_nothrow_move_constructible && E.moveThrows x
  else E.copyThrows x

/-- An append call: one of the two `PushBack` overloads or `EmplaceBack`. -/
inductive Append (T : Type) where
  | PushBack (value : T) : Append T
  | PushBack_rv (value : T) : Append T
  | EmplaceBack (params : Init T) : Append T

/-- The constructor call an append makes for its new element. -/
def Append.init {T : Type} : Append T → Init T
  | .PushBack value => .copy value
  | .PushBack_rv value => .move value
  | .EmplaceBack params => params

/-- Running one append call. -/
def Vector.append {T : Type} (E : Env T) (v : Vector T) : Append T → Outcome T (Vector T) Unit
  | .PushBack value => v.PushBack E value
  | .PushBack_rv value => v.PushBack_rv E value
  | .EmplaceBack params => (v.EmplaceBack E params).void

/-- Running consecutive append calls; `none` as soon as one does not return. -/
def Vector.appendAll {T : Type} (E : Env T) : Vector T → List (Append T) → Option (Vector T)
  | v, [] => some v
  | v, a :: rest =>
    match v.append E a with
    | .ok w _ _ => Vector.appendAll E w rest
    | _ => none

/-- The growth law: `c` is the smallest of `1, 2, 4, 8, ...` that is `>= n`
(and `c = 0` as long as nothing was appended). -/
def GrowthLaw (n c : Nat) : Prop :=
  (n = 0 ∧ c = 0) ∨ ∃ k, c = 2 ^ k ∧ n ≤ 2 ^ k ∧ ∀ j, n ≤ 2 ^ j → 2 ^ k ≤ 2 ^ j

/-- A call of a public member function on one vector. -/
inductive Call (T : Type) where
  | Reserve (new_capacity : Nat) : Call T
  | Resize (new_size : Nat) : Call T
  | PushBack (value : T) : Call T
  | PushBack_rv (value : T) : Call T
  | PopBack : Call T
  | EmplaceBack (params : Init T) : Call T
  | Emplace (pos : Nat) (args : Init T) : Call T
  | Insert (pos : Nat) (value : T) : Call T
  | Insert_rv (pos : Nat) (value : T) : Call T
  | Erase (pos : Nat) : Call T

/-- Running a call, the returned value dropped. -/
def Vector.call {T : Type} (E : Env T) (v : Vector T) : Call T → Outcome T (Vector T) Unit
  | .Reserve new_capacity => v.Reserve E new_capacity
  | .Resize new_size => v.Resize E new_size
  | .PushBack value => v.PushBack E value
  | .PushBack_rv value => v.PushBack_rv E value
  | .PopBack => v.PopBack
  | .EmplaceBack params => (v.EmplaceBack E params).void
  | .Emplace pos args => (v.Emplace E pos args).void
  | .Insert pos value => (v.Insert E pos value).void
  | .Insert_rv pos value => (v.Insert_rv E pos value).void
  | .Erase pos => (v.Erase E pos).void

/-- The precondition of a call: `PopBack` needs `size_ > 0`, `Erase` a position
before `end()`, `Emplace` and `Insert` a position in `[begin(), end()]`. -/
def Call.pre {T : Type} (v : Vector T) : Call T → Prop
  | .PopBack => 0 < v.size_
  | .Erase pos => v.begin ≤ pos ∧ pos < v.end
  | .Emplace pos _ => v.begin ≤ pos ∧ pos ≤ v.end
  | .Insert pos _ => v.begin ≤ pos ∧ pos ≤ v.end
  | .Insert_rv pos _ => v.begin ≤ pos ∧ pos ≤ v.end
  | _ => True

/-- The call is a growth operation that has to reallocate: `Reserve` above the
capacity, or an insertion into a full vector. -/
def Call.mustGrow {T : Type} (v : Vector T) : Call T → Prop
  | .Reserve new_capacity => v.capacity_ < new_capacity
  | .PushBack _ => v.size_ = v.capacity_
  | .PushBack_rv _ => v.size_ = v.capacity_
  | .EmplaceBack _ => v.size_ = v.capacity_
  | .Emplace pos _ => v.size_ = v.capacity_ ∧ v.begin ≤ pos ∧ pos ≤ v.end
  | .Insert pos _ => v.size_ = v.capacity_ ∧ v.begin ≤ pos ∧ pos ≤ v.end
  | .Insert_rv pos _ => v.size_ = v.capacity_ ∧ v.begin ≤ pos ∧ pos ≤ v.end
  | _ => False

/-- The block a call may ask for fits `size_t`: `Reserve(n)` and `Resize(n)` ask
for `n` elements, an insertion for `max(1, 2 * capacity_)` elements. -/
def Call.fits {T : Type} (E : Env T) (v : Vector T) : Call T → Prop
  | .Reserve new_capacity => E.fits new_capacity
  | .Resize new_size => E.fits new_size
  | .PopBack => True
  | .Erase _ => True
  | _ => E.fits (max 1 (2 * v.capacity_))

instance {T : Type} (E : Env T) (v : Vector T) (c : Call T) : Decidable (c.fits E v) := by
  cases c <;> unfold Call.fits <;> infer_instance

instance {T : Type} (v : Vector T) (c : Call T) : Decidable (c.pre v) := by
  cases c <;> unfold Call.pre <;> infer_instance

instance {T : Type} (v : Vector T) (c : Call T) : Decidable (c.mustGrow v) := by
  cases c <;> unfold Call.mustGrow <;> infer_instance

/-- The states a vector can be in, as far as the memory model follows them:
built by a constructor, or left by a public operation called within its
precondition on reachable vectors, whether the operation returned or threw.
The blocks asked for fit `size_t`; a call with undefined behaviour leaves no
state. -/
inductive Reachable {T : Type} (E : Env T) : Vector T → Prop
  | empty : Reachable E Vector.empty
  | sized (size : Nat) (v : Vector T) (fr : List (Buf T)) :
      E.fits size → Vector.sized E size = .ok () v fr → Reachable E v
  | copy (other v : Vector T) (fr : List (Buf T)) :
      Reachable E other → E.fits other.size_ → Vector.copy E other = .ok () v fr →
      Reachable E v
  | moveCtor_new (input : Vector T) : Reachable E input → Reachable E (Vector.moveCtor input).1
  | moveCtor_src (input : Vector T) : Reachable E input → Reachable E (Vector.moveCtor input).2
  | copyAssign (self other s : Vector T) :
      Reachable E self → Reachable E other → E.fits other.size_ →
      (self.copyAssign E other).after = some s → Reachable E s
  | moveAssign_dst (self input : Vector T) :
      Reachable E self → Reachable E input → Reachable E (self.moveAssign input).1
  | moveAssign_src (self input : Vector T) :
      Reachable E self → Reachable E input → Reachable E (self.moveAssign input).2
  | swap_this (self input : Vector T) :
      Reachable E self → Reachable E input → Reachable E (self.Swap input).1
  | swap_input (self input : Vector T) :
      Reachable E self → Reachable E input → Reachable E (self.Swap input).2
  | call (self s : Vector T) (c : Call T) :
      Reachable E self → c.pre self → c.fits E self → (self.call E c).after = some s →
      Reachable E s

/-! ## The members `capacity_` and `size_` on their own

What a constructor or a member function writes to `capacity_` and `size_`
depends on these two members, on the arguments and on the place where an
exception leaves the function, and on nothing else: no branch of `vector.h`
tests the contents of the block. The definitions of this section follow the two
members through every path of the source, in the arithmetic of `size_t`. The
paths on which the memory model above stops are included: those that read an
uninitialised slot, and those that write to a block that is too small because
its byte count has wrapped. The members are written there all the same. -/

/-- Addition of two `size_t` values: `a + b`, wrapping around `2^64`. -/
def size_add (a b : Nat) : Nat := if a + b < 2 ^ 64 then a + b else a + b - 2 ^ 64

/-- The members `capacity_` and `size_` of a `Vector<T>` (lines 348-349). -/
structure Fields where
  capacity_ : Nat
  size_ : Nat
  deriving DecidableEq, Repr

/-- The members `capacity_` and `size_` of a vector of the memory model. -/
def Vector.fields {T : Type} (v : Vector T) : Fields :=
  { capacity_ := v.capacity_, size_ := v.size_ }

/-- What a member function can leave in the two members: `returned` when it
returns, and one entry of `thrown` for every place where an exception can
leave it. -/
structure Ends where
  returned : Fields
  thrown : List Fields
  deriving DecidableEq, Repr

/-- Every state of the two members a member function can leave. -/
def Ends.all (e : Ends) : List Fields := e.returned :: e.thrown

/-- The members after `Vector() = default` (lines 93, 348-349). -/
def Fields.empty : Fields := { capacity_ := 0, size_ := 0 }

/-- The members after `explicit Vector(size_t size)` (lines 94-98). -/
def Fields.sized (size : Nat) : Fields := { capacity_ := size, size_ := size }

/-- The members after `Vector(const Vector& other)` (lines 101-104). -/
def Fields.copy (other : Fields) : Fields := { capacity_ := other.size_, size_ := other.size_ }

/-- The members after `Vector(Vector&& input)` (lines 141-145): the pair (new
vector, `input`). -/
def Fields.moveCtor (input : Fields) : Fields × Fields :=
  ({ capacity_ := input.capacity_, size_ := input.size_ }, { capacity_ := 0, size_ := 0 })

/-- The members after `operator=(Vector&& input)` (lines 153-157): the pair
(`*this`, `input`). -/
def Fields.moveAssign (_self input : Fields) : Fields × Fields :=
  ({ capacity_ := input.capacity_, size_ := input.size_ }, { capacity_ := 0, size_ := 0 })

/-- The members after `Swap(Vector& input)` (lines 250-251): the pair (`*this`,
`input`). -/
def Fields.Swap (self input : Fields) : Fields × Fields :=
  ({ capacity_ := input.capacity_, size_ := input.size_ },
   { capacity_ := self.capacity_, size_ := self.size_ })

/-- The members after `operator=(const Vector& other)` (lines 114-132): with
`capacity_ < other.capacity_` those of the copy that is swapped in, otherwise
`size_ = other.size_` (line 131); an exception (of the copy constructor, of an
element assignment or construction) leaves them as they were. -/
def Fields.copyAssign (self other : Fields) : Ends :=
  if self.capacity_ < other.capacity_ then
    { returned := (self.Swap (Fields.copy other)).1, thrown := [self] }
  else
    { returned := { self with size_ := other.size_ }, thrown := [self] }

/-- The members after `Reserve(size_t new_capacity)` (lines 254-262): line 262
writes `capacity_`; an exception before it leaves them as they were. -/
def Fields.Reserve (self : Fields) (new_capacity : Nat) : Ends :=
  if new_capacity ≤ self.capacity_ then { returned := self, thrown := [] }
  else { returned := { self with capacity_ := new_capacity }, thrown := [self] }

/-- The members after `Resize(size_t new_size)` (lines 266-277): when growing,
an exception leaves `Reserve` or, after `Reserve` has returned, the
construction of the new elements. -/
def Fields.Resize (self : Fields) (new_size : Nat) : Ends :=
  if new_size = self.size_ then { returned := self, thrown := [] }
  else if new_size < self.size_ then
    { returned := { self with size_ := new_size }, thrown := [] }
  else
    { returned := { (self.Reserve new_size).returned with size_ := new_size },
      thrown := (self.Reserve new_size).thrown ++ [(self.Reserve new_size).returned] }

/-- The members after either `PushBack` (lines 280-293, 296-309): an exception
leaves them as they were. -/
def Fields.PushBack (self : Fields) : Ends :=
  if self.size_ = self.capacity_ then
    { returned := { capacity_ := if self.size_ = 0 then 1 else size_mul self.size_ 2,
                    size_ := size_add self.size_ 1 },
      thrown := [self] }
  else
    { returned := { self with size_ := size_add self.size_ 1 }, thrown := [self] }

/-- The members after `PopBack()` (line 313). -/
def Fields.PopBack (self : Fields) : Ends :=
  { returned := { self with size_ := size_sub self.size_ 1 }, thrown := [] }

/-- The members after `EmplaceBack` (lines 318-333): an exception leaves them
as they were. -/
def Fields.EmplaceBack (self : Fields) : Ends :=
  if self.size_ = self.capacity_ then
    { returned := { capacity_ := if self.size_ = 0 then 1 else size_mul self.size_ 2,
                    size_ := size_add self.size_ 1 },
      thrown := [self] }
  else
    { returned := { self with size_ := size_add self.size_ 1 }, thrown := [self] }

/-- The members after `Emplace(pos, args...)` (lines 190-215), `pos_n` being
`pos - begin()`, so that `pos == end()` is `pos_n == size_`: both branches end
in `++size_`, the reallocating one writes `capacity_` before (line 203); an
exception leaves them as they were. -/
def Fields.Emplace (self : Fields) (pos_n : Nat) : Ends :=
  if pos_n = self.size_ then self.EmplaceBack
  else if size_add self.size_ 1 > self.capacity_ then
    { returned := { capacity_ := if self.capacity_ = 0 then 1 else size_mul self.capacity_ 2,
                    size_ := size_add self.size_ 1 },
      thrown := [self] }
  else
    { returned := { self with size_ := size_add self.size_ 1 }, thrown := [self] }

/-- The members after `Erase(pos)` (line 221); an exception of a move
assignment leaves them as they were. -/
def Fields.Erase (self : Fields) (_pos_n : Nat) : Ends :=
  { returned := { self with size_ := size_sub self.size_ 1 }, thrown := [self] }

/-- The members after either `Insert(pos, value)` (lines 225, 228). -/
def Fields.Insert (self : Fields) (pos_n : Nat) : Ends := self.Emplace pos_n

/-- The members after a call; a position is given by its index `pos - begin()`. -/
def Fields.call {T : Type} (self : Fields) : Call T → Ends
  | .Reserve new_capacity => self.Reserve new_capacity
  | .Resize new_size => self.Resize new_size
  | .PushBack _ => self.PushBack
  | .PushBack_rv _ => self.PushBack
  | .PopBack => self.PopBack
  | .EmplaceBack _ => self.EmplaceBack
  | .Emplace pos _ => self.Emplace pos
  | .Insert pos _ => self.Insert pos
  | .Insert_rv pos _ => self.Insert pos
  | .Erase pos => self.Erase pos

/-- The precondition of a call in terms of the members: `PopBack` needs
`size_ > 0`, `Erase` an index `< size_`, `Emplace` and `Insert` an index
`<= size_` (a position in `[begin(), end()]`). -/
def Fields.pre {T : Type} (self : Fields) : Call T → Prop
  | .PopBack => 0 < self.size_
  | .Erase pos => pos < self.size_
  | .Emplace pos _ => pos ≤ self.size_
  | .Insert pos _ => pos ≤ self.size_
  | .Insert_rv pos _ => pos ≤ self.size_
  | _ => True

/-- The numbers of a call are `size_t` values: the argument of `Reserve` and of
`Resize` is below `2^64`, and so is the capacity `2 * capacity_` that an
insertion into a full vector computes (lines 195, 281, 297, 319), which
exceeds `size_t` only for a vector of `2^63` or more elements. -/
def Fields.inRange {T : Type} (self : Fields) : Call T → Prop
  | .Reserve new_capacity => new_capacity < 2 ^ 64
  | .Resize new_size => new_size < 2 ^ 64
  | .PopBack => True
  | .Erase _ => True
  | _ => self.capacity_ ≤ self.size_ → 2 * self.capacity_ < 2 ^ 64

instance {T : Type} (self : Fields) (c : Call T) : Decidable (self.pre c) := by
  cases c <;> unfold Fields.pre <;> infer_instance

instance {T : Type} (self : Fields) (c : Call T) : Decidable (self.inRange c) := by
  cases c <;> unfold Fields.inRange <;> infer_instance

/-- The values the members `capacity_` and `size_` of a `Vector<T>` can take:
those left by a constructor, and those left by a public operation called
within its precondition on vectors with such values, whether the operation
returns or is left by an exception. The arguments are `size_t` values, and the
one condition on the calls is that doubling the capacity does not exceed
`size_t` (`Fields.inRange`). -/
inductive Fields.Reachable (T : Type) : Fields → Prop
  | empty : Fields.Reachable T Fields.empty
  | sized (size : Nat) : size < 2 ^ 64 → Fields.Reachable T (Fields.sized size)
  | copy (other : Fields) : Fields.Reachable T other → Fields.Reachable T (Fields.copy other)
  | moveCtor_new (input : Fields) :
      Fields.Reachable T input → Fields.Reachable T (Fields.moveCtor input).1
  | moveCtor_src (input : Fields) :
      Fields.Reachable T input → Fields.Reachable T (Fields.moveCtor input).2
  | copyAssign (self other s : Fields) :
      Fields.Reachable T self → Fields.Reachable T other →
      s ∈ (self.copyAssign other).all → Fields.Reachable T s
  | moveAssign_dst (self input : Fields) :
      Fields.Reachable T self → Fields.Reachable T input →
      Fields.Reachable T (self.moveAssign input).1
  | moveAssign_src (self input : Fields) :
      Fields.Reachable T self → Fields.Reachable T input →
      Fields.Reachable T (self.moveAssign input).2
  | swap_this (self input : Fields) :
      Fields.Reachable T self → Fields.Reachable T input →
      Fields.Reachable T (self.Swap input).1
  | swap_input (self input : Fields) :
      Fields.Reachable T self → Fields.Reachable T input →
      Fields.Reachable T (self.Swap input).2
  | call (self s : Fields) (c : Call T) :
      Fields.Reachable T self → self.pre c → self.inRange c →
      s ∈ (self.call c).all → Fields.Reachable T s

/-- The members satisfy `size_ <= capacity_`, and the capacity is a `size_t`
value. -/
def Fields.Ok (f : Fields) : Prop :=
  f.size_ ≤ f.capacity_ ∧ f.capacity_ < 2 ^ 64

/-! ## The free store -/

/-- The free store: the blocks handed out by `operator new`, by address. -/
abbrev Store (T : Type) := List (Buf T)

/-- A `Vector<T>` object whose block lives in the free store: `buffer_` is the
address held by `data_.buffer_` (`none` for `nullptr`), `data_capacity_` is
`data_.capacity_`. -/
structure VectorRef where
  buffer_ : Option Nat
  data_capacity_ : Nat
  capacity_ : Nat
  size_ : Nat
  deriving DecidableEq, Repr

/-- The slots a pointer into the free store refers to. -/
def Store.block {T : Type} (st : Store T) : Option Nat → Buf T
  | none => []
  | some p => st.getD p []

/-- The vector an object of the free store denotes. -/
def Store.view {T : Type} (st : Store T) (r : VectorRef) : Vector T :=
  { data_ := { buffer_ := st.block r.buffer_, capacity_ := r.data_capacity_ },
    capacity_ := r.capacity_, size_ := r.size_ }

/-- Embedding of `Vector(const Vector& other)` in the free store: the block of
`RawMemory(other.size_)` comes from `operator new` (line 78) at an address
that no block of the store has; `Allocate(0)` is `nullptr`. Gives the store
and the new object, `none` when the constructor does not return. -/
def Store.copy {T : Type} (E : Env T) (st : Store T) (other : VectorRef) :
    Option (Store T × VectorRef) :=
  match Vector.copy E (st.view other) with
  | .ok _ v _ =>
    if other.size_ ≠ 0 then
      some (st ++ [v.data_.buffer_],
        { buffer_ := some st.length, data_capacity_ := v.data_.capacity_,
          capacity_ := v.capacity_, size_ := v.size_ })
    else
      some (st, { buffer_ := none, data_capacity_ := v.data_.capacity_,
                  capacity_ := v.capacity_, size_ := v.size_ })
  | _ => none

/-- A member call on an object of the free store. The call reads and writes
the block of the object and blocks it allocates itself: the block the object
owns afterwards is kept at the address of the object, at a new address when
the object had none. Gives `none` after undefined behaviour. -/
def Store.call {T : Type} (E : Env T) (st : Store T) (r : VectorRef) (c : Call T) :
    Option (Store T × VectorRef) :=
  match ((st.view r).call E c).after with
  | none => none
  | some s =>
    match r.buffer_ with
    | some p =>
      some (st.set p s.data_.buffer_,
        { buffer_ := some p, data_capacity_ := s.data_.capacity_,
          capacity_ := s.capacity_, size_ := s.size_ })
    | none =>
      some (st ++ [s.data_.buffer_],
        { buffer_ := some st.length, data_capacity_ := s.data_.capacity_,
          capacity_ := s.capacity_, size_ := s.size_ })

/-! ## Fixtures -/

/-- Element type `int` of `4` bytes: nothing throws, a move leaves the value,
`int()` is `0`, and `operator new` never throws. -/
def intEnv : Env Int :=
  { is_nothrow_move_constructible := true, is_copy_constructible := true,
    copyThrows := fun _ => false, moveThrows := fun _ => false,
    copyAssignThrows := fun _ => false, moveAssignThrows := fun _ => false,
    movedFrom := fun x => x, valueInit := some 0, newThrows := fun _ => false,
    sizeof_T := 4, sizeof_pos := by decide }

/-- An element type relocated by copy (its move constructor may throw) whose
copy constructor throws on the value `13`; its elements have `4` bytes and
`operator new` throws for more than `400` bytes (`100` elements). -/
def throwingEnv : Env Int :=
  { is_nothrow_move_constructible := false, is_copy_constructible := true,
    copyThrows := fun x => x == 13, moveThrows := fun x => x == 13,
    copyAssignThrows := fun _ => false, moveAssignThrows := fun _ => false,
    movedFrom := fun x => x, valueInit := some 0, newThrows := fun b => decide (400 < b),
    sizeof_T := 4, sizeof_pos := by decide }

/-- The vector after `PushBack(1)`, `PushBack(2)`, `PushBack(3)` from empty. -/
def vec123 : Vector Int :=
  { data_ := { buffer_ := [.live 1, .live 2, .live 3, .raw], capacity_ := 4 },
    capacity_ := 4, size_ := 3 }

/-- An empty vector with capacity `1` (after `Reserve(1)`). -/
def vecReserved1 : Vector Int :=
  { data_ := { buffer_ := [.raw], capacity_ := 1 }, capacity_ := 1, size_ := 0 }

/-- The vector after `PushBack(7)` from empty. -/
def vec7 : Vector Int :=
  { data_ := { buffer_ := [.live 7], capacity_ := 1 }, capacity_ := 1, size_ := 1 }

/-- The vector after `PushBack(1)` from empty. -/
def vec1 : Vector Int :=
  { data_ := { buffer_ := [.live 1], capacity_ := 1 }, capacity_ := 1, size_ := 1 }

/-- A full vector holding `[5, 13]`. -/
def vecFull : Vector Int :=
  { data_ := { buffer_ := [.live 5, .live 13], capacity_ := 2 }, capacity_ := 2, size_ := 2 }

/-- The vector after `PushBack(1)`, `PushBack(2)` from empty. -/
def vec12 : Vector Int :=
  { data_ := { buffer_ := [.live 1, .live 2], capacity_ := 2 }, capacity_ := 2, size_ := 2 }

/-- The vector after `PushBack(5)` from empty. -/
def vec5 : Vector Int :=
  { data_ := { buffer_ := [.live 5], capacity_ := 1 }, capacity_ := 1, size_ := 1 }

/-- An empty vector with capacity `2` (after `Reserve(2)`). -/
def vecReserved2 : Vector Int :=
  { data_ := { buffer_ := [.raw, .raw], capacity_ := 2 }, capacity_ := 2, size_ := 0 }

/-- The vector after `Reserve(2)`, `PushBack(7)` from empty. -/
def vec7of2 : Vector Int :=
  { data_ := { buffer_ := [.live 7, .raw], capacity_ := 2 }, capacity_ := 2, size_ := 1 }

/-- An empty vector with capacity `4` (after `Reserve(4)`). -/
def vecReserved4 : Vector Int :=
  { data_ := { buffer_ := [.raw, .raw, .raw, .raw], capacity_ := 4 }, capacity_ := 4, size_ := 0 }

/-- The vector after `Reserve(4)`, `PushBack(1)` from empty. -/
def vec1of4 : Vector Int :=
  { data_ := { buffer_ := [.live 1, .raw, .raw, .raw], capacity_ := 4 }, capacity_ := 4,
    size_ := 1 }

/-- An element type with a non-throwing move that leaves `0` in its source
(as a moved-from string is left empty). -/
def movingEnv : Env Int :=
  { is_nothrow_move_constructible := true, is_copy_constructible := true,
    copyThrows := fun _ => false, moveThrows := fun _ => false,
    copyAssignThrows := fun _ => false, moveAssignThrows := fun _ => false,
    movedFrom := fun _ => 0, valueInit := some 0, newThrows := fun _ => false,
    sizeof_T := 4, sizeof_pos := by decide }

/-- A free store whose only block, at address `0`, is the block of `vec123`. -/
def store123 : Store Int := [[.live 1, .live 2, .live 3, .raw]]

/-- The object of `store123` that denotes `vec123`. -/
def ref123 : VectorRef := { buffer_ := some 0, data_capacity_ := 4, capacity_ := 4, size_ := 3 }

/-- The members of `vec123`: capacity `4`, size `3`. -/
def fields123 : Fields := { capacity_ := 4, size_ := 3 }

/-! ## Lemmas: allocation -/

theorem size_mul_eq_mod (a b : Nat) : size_mul a b = (a * b) % 2 ^ 64 := by
  unfold size_mul
  by_cases h : a * b < 2 ^ 64
  · rw [if_pos h, Nat.mod_eq_of_lt h]
  · rw [if_neg h]

theorem size_mul_of_lt {a b : Nat} (h : a * b < 2 ^ 64) : size_mul a b = a * b := by
  unfold size_mul
  rw [if_pos h]

/-- A request that fits `size_t` and does not throw gets its `n` slots. -/
theorem create_of_fits {T : Type} (E : Env T) (n : Nat) (h : E.fits n) :
    RawMemory.create E n
      = if n ≠ 0 ∧ E.newThrows (n * E.sizeof_T) = true then none
        else some { buffer_ := List.replicate n Slot.raw, capacity_ := n } := by
  have hb : E.bytes n = n * E.sizeof_T := size_mul_of_lt h
  have hd : n * E.sizeof_T / E.sizeof_T = n := Nat.mul_div_cancel n E.sizeof_pos
  unfold RawMemory.create RawMemory.Allocate
  rw [hb, hd]
  by_cases h0 : n = 0
  · subst h0; simp
  · simp [h0]

theorem allocFails_eq_false {T : Type} {E : Env T} {n : Nat} (h : E.allocFails n = false) :
    E.fits n ∧ E.newThrows (n * E.sizeof_T) = false := by
  unfold Env.allocFails at h
  simp only [Bool.or_eq_false_iff, decide_eq_false_iff_not, Nat.not_le] at h
  exact h

theorem allocFails_of_fits {T : Type} {E : Env T} {n : Nat} (h : E.fits n)
    (hn : E.newThrows (n * E.sizeof_T) = false) : E.allocFails n = false := by
  unfold Env.allocFails
  simp only [Bool.or_eq_false_iff, decide_eq_false_iff_not, Nat.not_le]
  exact ⟨h, hn⟩

/-- An allocation that does not fail gives a block of `n` raw slots. -/
theorem create_eq {T : Type} (E : Env T) (n : Nat) (h : E.allocFails n = false) :
    RawMemory.create E n = some { buffer_ := List.replicate n Slot.raw, capacity_ := n } := by
  obtain ⟨hf, hn⟩ := allocFails_eq_false h
  rw [create_of_fits E n hf, hn]
  simp

theorem Env.fits_mono {T : Type} {E : Env T} {m n : Nat} (h : E.fits n) (hmn : m ≤ n) :
    E.fits m := by
  unfold Env.fits at h ⊢
  exact Nat.lt_of_le_of_lt (Nat.mul_le_mul_right _ hmn) h

/-! ## Lemmas: single slots -/

theorem getElem?_mid {α : Type} (A B : List α) (s : α) : (A ++ s :: B)[A.length]? = some s := by
  induction A <;> simp_all

theorem set_mid {α : Type} (A B : List α) (s t : α) : (A ++ s :: B).set A.length t = A ++ t :: B := by
  induction A <;> simp_all

theorem read_mid {T : Type} {b : Buf T} {p : Nat} (A B : Buf T) (x : T)
    (hb : b = A ++ Slot.live x :: B) (hp : p = A.length) : b.read p = .ok x := by
  subst hb hp
  unfold Buf.read
  rw [getElem?_mid]

theorem read_raw_mid {T : Type} {b : Buf T} {p : Nat} (A B : Buf T)
    (hb : b = A ++ Slot.raw :: B) (hp : p = A.length) : b.read p = .error (.notLive p) := by
  subst hb hp
  unfold Buf.read
  rw [getElem?_mid]

theorem construct_at_mid {T : Type} {b : Buf T} {p : Nat} (A B : Buf T) (s : Slot T) (v : T)
    (hb : b = A ++ s :: B) (hp : p = A.length) :
    construct_at b p v = .ok (A ++ Slot.live v :: B) := by
  subst hb hp
  simp [construct_at, set_mid]

theorem destroy_at_mid {T : Type} {b : Buf T} {p : Nat} (A B : Buf T) (x : T)
    (hb : b = A ++ Slot.live x :: B) (hp : p = A.length) :
    destroy_at b p = .ok (A ++ Slot.raw :: B) := by
  simp [destroy_at, read_mid A B x hb hp]
  subst hb hp
  simp [set_mid]

theorem destroy_n_map {T : Type} (xs : List T) (A B : Buf T) :
    destroy_n (A ++ xs.map Slot.live ++ B) A.length xs.length
      = .ok (A ++ List.replicate xs.length Slot.raw ++ B) := by
  induction xs generalizing A with
  | nil => simp [destroy_n]
  | cons x xs ih =>
    have h := destroy_at_mid (b := A ++ (x :: xs).map Slot.live ++ B) (p := A.length)
      A (xs.map Slot.live ++ B) x (by simp) rfl
    have ih2 := ih (A ++ [Slot.raw])
    simp only [List.length_append, List.length_singleton, List.append_assoc,
      List.singleton_append] at ih2
    rw [List.length_cons, destroy_n, h]
    simp only [List.append_assoc, List.cons_append] at ih2 ⊢
    rw [ih2]
    simp [List.replicate_succ]

/-! ## Lemmas: relocation loops that do not throw -/

theorem uninitCopyLoop_done {T : Type} (E : Env T) (spre spost dpre dpost : Buf T)
    (todo : List T) : ∀ (done : List T) (hole : Buf T), hole.length = todo.length →
    (∀ x ∈ todo, E.copyThrows x = false) →
    uninitCopyLoop E (spre ++ (done ++ todo).map Slot.live ++ spost) spre.length dpre.length
        todo.length done.length (dpre ++ done.map Slot.live ++ hole ++ dpost)
      = .done (dpre ++ (done ++ todo).map Slot.live ++ dpost) := by
  induction todo with
  | nil =>
    intro done hole hlen _
    have : hole = [] := List.length_eq_zero.mp hlen
    subst this
    simp [uninitCopyLoop]
  | cons x rest ih =>
    intro done hole hlen hnt
    obtain ⟨h, hole1, rfl⟩ : ∃ h hole1, hole = h :: hole1 := by
      cases hole with
      | nil => simp at hlen
      | cons h t => exact ⟨h, t, rfl⟩
    have hr := read_mid (b := spre ++ (done ++ x :: rest).map Slot.live ++ spost)
      (p := spre.length + done.length) (spre ++ done.map Slot.live)
      (rest.map Slot.live ++ spost) x (by simp) (by simp)
    have hc := construct_at_mid (b := dpre ++ done.map Slot.live ++ (h :: hole1) ++ dpost)
      (p := dpre.length + done.length) (dpre ++ done.map Slot.live) (hole1 ++ dpost) h x
      (by simp) (by simp)
    have hx : E.copyThrows x = false := hnt x (by simp)
    have ih2 := ih (done ++ [x]) hole1 (by simpa using hlen)
      (fun y hy => hnt y (by simp [hy]))
    rw [List.length_cons, uninitCopyLoop, hr]
    simp only [hx, hc]
    simp only [List.append_assoc, List.singleton_append, List.length_append,
      List.length_singleton, List.map_append, List.map_cons, List.map_nil,
      List.cons_append, List.nil_append] at ih2 ⊢
    exact ih2

theorem uninitMoveLoop_done {T : Type} (E : Env T) (spre spost dpre dpost : Buf T)
    (todo : List T) : ∀ (done : List T) (hole : Buf T), hole.length = todo.length →
    (∀ x ∈ todo, (!E.is_nothrow_move_constructible && E.moveThrows x) = false) →
    uninitMoveLoop E spre.length dpre.length todo.length done.length
        (spre ++ (done.map E.movedFrom).map Slot.live ++ todo.map Slot.live ++ spost)
        (dpre ++ done.map Slot.live ++ hole ++ dpost)
      = .done (spre ++ ((done ++ todo).map E.movedFrom).map Slot.live ++ spost,
               dpre ++ (done ++ todo).map Slot.live ++ dpost) := by
  induction todo with
  | nil =>
    intro done hole hlen _
    have : hole = [] := List.length_eq_zero.mp hlen
    subst this
    simp [uninitMoveLoop]
  | cons x rest ih =>
    intro done hole hlen hnt
    obtain ⟨h, hole1, rfl⟩ : ∃ h hole1, hole = h :: hole1 := by
      cases hole with
      | nil => simp at hlen
      | cons h t => exact ⟨h, t, rfl⟩
    have hr := read_mid
      (b := spre ++ (done.map E.movedFrom).map Slot.live ++ (x :: rest).map Slot.live ++ spost)
      (p := spre.length + done.length) (spre ++ (done.map E.movedFrom).map Slot.live)
      (rest.map Slot.live ++ spost) x (by simp) (by simp)
    have hs : (spre ++ (done.map E.movedFrom).map Slot.live ++ (x :: rest).map Slot.live
        ++ spost).set (spre.length + done.length) (Slot.live (E.movedFrom x))
        = spre ++ ((done ++ [x]).map E.movedFrom).map Slot.live ++ rest.map Slot.live ++ spost := by
      have := set_mid (spre ++ (done.map E.movedFrom).map Slot.live)
        (rest.map Slot.live ++ spost) (Slot.live x) (Slot.live (E.movedFrom x))
      simp only [List.length_append, List.length_map, List.append_assoc, List.map_append,
        List.map_cons, List.map_nil, List.cons_append, List.nil_append,
        List.singleton_append] at this ⊢
      exact this
    have hc := construct_at_mid (b := dpre ++ done.map Slot.live ++ (h :: hole1) ++ dpost)
      (p := dpre.length + done.length) (dpre ++ done.map Slot.live) (hole1 ++ dpost) h x
      (by simp) (by simp)
    have hx : (!E.is_nothrow_move_constructible && E.moveThrows x) = false := hnt x (by simp)
    have ih2 := ih (done ++ [x]) hole1 (by simpa using hlen)
      (fun y hy => hnt y (by simp [hy]))
    rw [List.length_cons, uninitMoveLoop, hr]
    simp only [hx, hc, hs]
    simp only [List.append_assoc, List.singleton_append, List.length_append,
      List.length_singleton, List.map_append, List.map_cons, List.map_nil,
      List.cons_append, List.nil_append] at ih2 ⊢
    exact ih2

theorem CopyMove_done {T : Type} (E : Env T) (spre spost dpre dpost : Buf T) (xs : List T)
    (hole : Buf T) (hlen : hole.length = xs.length)
    (hnt : ∀ x ∈ xs, E.relocateThrows x = false) :
    ∃ ys : List T, ys.length = xs.length ∧
      CopyMove E (spre ++ xs.map Slot.live ++ spost) spre.length xs.length
          (dpre ++ hole ++ dpost) dpre.length
        = .done (spre ++ ys.map Slot.live ++ spost, dpre ++ xs.map Slot.live ++ dpost) := by
  by_cases hpol : (E.is_nothrow_move_constructible || !E.is_copy_constructible) = true
  · refine ⟨xs.map E.movedFrom, by simp, ?_⟩
    have h := uninitMoveLoop_done E spre spost dpre dpost xs [] hole hlen
      (fun x hx => by have := hnt x hx; simpa [Env.relocateThrows, hpol] using this)
    simp only [List.map_nil, List.append_nil, List.nil_append, List.length_nil] at h
    simp only [CopyMove, hpol, if_true, uninitialized_move_n]
    exact h
  · refine ⟨xs, rfl, ?_⟩
    have h := uninitCopyLoop_done E spre spost dpre dpost xs [] hole hlen
      (fun x hx => by have := hnt x hx; simpa [Env.relocateThrows, hpol] using this)
    simp only [List.map_nil, List.append_nil, List.nil_append, List.length_nil] at h
    simp only [CopyMove, hpol, uninitialized_copy_n, h]
    simp

/-! ## Lemmas: appending -/

theorem Vector.Holds.buffer_eq {T : Type} {v : Vector T} {es : List T} (hh : v.Holds es) :
    ∃ tail : Buf T, v.data_.buffer_ = es.map Slot.live ++ tail ∧
      es.length + tail.length = max es.length v.data_.buffer_.length := by
  refine ⟨v.data_.buffer_.drop v.size_, ?_, ?_⟩
  · rw [← hh.2, List.take_append_drop]
  · have h1 := congrArg List.length hh.2
    simp only [List.length_take, List.length_map] at h1
    simp only [List.length_drop]
    rw [hh.1] at h1 ⊢
    omega

theorem holds_of_append {T : Type} {v : Vector T} (es : List T) (tail : Buf T)
    (hs : v.size_ = es.length) (hb : v.data_.buffer_ = es.map Slot.live ++ tail) :
    v.Holds es := by
  refine ⟨hs, ?_⟩
  rw [hb, hs]
  simp [List.take_append_eq_append_take]

theorem replicate_split {α : Type} (a : α) (n c : Nat) (h : n < c) :
    List.replicate c a = List.replicate n a ++ a :: List.replicate (c - n - 1) a := by
  have : c = n + ((c - n - 1) + 1) := by omega
  conv_lhs => rw [this]
  rw [List.replicate_add, List.replicate_succ]

theorem EmplaceBack_ok {T : Type} (E : Env T) (v : Vector T) (es : List T) (a : Init T) (x : T)
    (hv : v.Valid) (hh : v.Holds es) (hx : E.construct a = some x)
    (halloc : v.size_ = v.capacity_ →
      E.allocFails (if v.size_ = 0 then 1 else v.size_ * 2) = false)
    (hrel : v.size_ = v.capacity_ → ∀ y ∈ es, E.relocateThrows y = false) :
    ∃ (w : Vector T) (fr : List (Buf T)), v.EmplaceBack E a = .ok w es.length fr ∧
      w.Valid ∧ w.Holds (es ++ [x]) ∧
      w.capacity_ = (if v.size_ = v.capacity_ then (if v.size_ = 0 then 1 else v.size_ * 2)
                      else v.capacity_) := by
  obtain ⟨tail, hb, htl⟩ := hh.buffer_eq
  obtain ⟨hsz, _⟩ := hh
  obtain ⟨h1, h2, h3⟩ := hv
  rcases v with ⟨⟨buf, dcap⟩, cap, sz⟩
  simp only at hb htl hsz h1 h2 h3 halloc hrel
  subst hsz hb h3
  by_cases hfull : es.length = cap
  · -- the reallocating branch
    subst hfull
    have hal := halloc rfl
    have hcap : es.length < (if es.length = 0 then 1 else es.length * 2) := by
      split <;> omega
    obtain ⟨c, hc⟩ : ∃ c, c = (if es.length = 0 then 1 else es.length * 2) := ⟨_, rfl⟩
    rw [← hc] at hal hcap
    obtain ⟨ys, hys, hcm⟩ := CopyMove_done E [] tail []
      (Slot.live x :: List.replicate (c - es.length - 1) Slot.raw) es
      (List.replicate es.length Slot.raw) (by simp) (hrel rfl)
    have hd := destroy_n_map ys [] tail
    simp only [List.nil_append, List.length_nil] at hcm hd
    have hne : c ≠ 0 := by omega
    have hca := construct_at_mid (b := List.replicate c (Slot.raw : Slot T))
      (p := es.length) (List.replicate es.length Slot.raw)
      (List.replicate (c - es.length - 1) Slot.raw) Slot.raw x
      (replicate_split _ _ _ hcap) (by simp)
    rw [hys] at hd
    refine ⟨⟨⟨es.map Slot.live ++ Slot.live x :: List.replicate (c - es.length - 1) Slot.raw, c⟩,
      c, es.length + 1⟩, [List.replicate es.length Slot.raw ++ tail], ?_, ?_, ?_, ?_⟩
    · simp only [Vector.EmplaceBack, if_true, ← hc, create_eq E c hal, RawMemory.add, hx,
        RawMemory.GetAddress]
      simp [hca, Nat.le_of_lt hcap, hcm, hd, RawMemory.Swap]
    · simp [Vector.Valid]
      omega
    · exact holds_of_append (es ++ [x]) (List.replicate (c - es.length - 1) Slot.raw)
        (by simp) (by simp)
    · simp [hc]
  · -- the block has room
    have hlt : es.length < (es.map Slot.live ++ tail).length := by omega
    obtain ⟨t, tail1, rfl⟩ : ∃ t tail1, tail = t :: tail1 := by
      cases tail with
      | nil => simp at hlt
      | cons t tl => exact ⟨t, tl, rfl⟩
    have hca := construct_at_mid (b := es.map Slot.live ++ t :: tail1) (p := es.length)
      (es.map Slot.live) tail1 t x rfl (by simp)
    refine ⟨⟨⟨es.map Slot.live ++ Slot.live x :: tail1, (es.map Slot.live ++ t :: tail1).length⟩,
      cap, es.length + 1⟩, [], ?_, ?_, ?_, ?_⟩
    · simp only [Vector.EmplaceBack, hfull, if_false, RawMemory.add, hx]
      rw [if_pos (by omega)]
      simp [hca]
    · simp [Vector.Valid] at h2 ⊢
      omega
    · exact holds_of_append (es ++ [x]) tail1 (by simp) (by simp)
    · simp [hfull]

/-! ## Lemmas: erasing -/

theorem PushBack_eq {T : Type} (E : Env T) (v : Vector T) (x : T) :
    v.PushBack E x = (v.EmplaceBack E (.copy x)).void := by
  unfold Vector.PushBack Vector.EmplaceBack
  repeat' split
  all_goals simp_all [Outcome.void]

theorem PushBack_rv_eq {T : Type} (E : Env T) (v : Vector T) (x : T) :
    v.PushBack_rv E x = (v.EmplaceBack E (.move x)).void := by
  unfold Vector.PushBack_rv Vector.EmplaceBack
  repeat' split
  all_goals simp_all [Outcome.void]

theorem moveLoop_done {T : Type} (E : Env T) (post : Buf T) (xs : List T) :
    ∀ (pre : Buf T) (x : T), (∀ y ∈ xs, E.moveAssignThrows y = false) →
    ∃ y : T, moveLoop E xs.length (pre.length + 1) pre.length
        (pre ++ Slot.live x :: (xs.map Slot.live ++ post))
      = .done (pre ++ xs.map Slot.live ++ Slot.live y :: post) := by
  induction xs with
  | nil => intro pre x _; exact ⟨x, by simp [moveLoop]⟩
  | cons x1 rest ih =>
    intro pre x hnt
    have hsrc := read_mid (b := pre ++ Slot.live x :: ((x1 :: rest).map Slot.live ++ post))
      (p := pre.length + 1) (pre ++ [Slot.live x]) (rest.map Slot.live ++ post) x1
      (by simp) (by simp)
    have hdst := read_mid (b := pre ++ Slot.live x :: ((x1 :: rest).map Slot.live ++ post))
      (p := pre.length) pre ((x1 :: rest).map Slot.live ++ post) x rfl rfl
    have hx1 : E.moveAssignThrows x1 = false := hnt x1 (by simp)
    have hset : ((pre ++ Slot.live x :: ((x1 :: rest).map Slot.live ++ post)).set pre.length
        (Slot.live x1)).set (pre.length + 1) (Slot.live (E.movedFrom x1))
        = (pre ++ [Slot.live x1]) ++ Slot.live (E.movedFrom x1)
            :: (rest.map Slot.live ++ post) := by
      rw [set_mid]
      have := set_mid (pre ++ [Slot.live x1]) (rest.map Slot.live ++ post) (Slot.live x1)
        (Slot.live (E.movedFrom x1))
      simp
    obtain ⟨y, hy⟩ := ih (pre ++ [Slot.live x1]) (E.movedFrom x1)
      (fun z hz => hnt z (by simp [hz]))
    refine ⟨y, ?_⟩
    rw [List.length_cons, moveLoop, move_assign, hsrc, hdst]
    simp only [hx1, Bool.false_eq_true, if_false, hset]
    simp only [List.length_append, List.length_singleton] at hy
    rw [hy]
    simp

theorem size_sub_one {a : Nat} (h1 : 1 ≤ a) : size_sub a 1 = a - 1 := by
  simp [size_sub, h1]

theorem Erase_split {T : Type} (E : Env T) (v : Vector T) (A B : List T) (x : T)
    (hv : v.Valid) (hh : v.Holds (A ++ x :: B))
    (hnt : ∀ y ∈ B, E.moveAssignThrows y = false) :
    ∃ w : Vector T, v.Erase E (v.begin + A.length) = .ok w (v.begin + A.length) [] ∧
      w.Holds (A ++ B) ∧ w.capacity_ = v.capacity_ ∧ w.data_.capacity_ = v.data_.capacity_ ∧
      w.data_.buffer_.length = v.data_.buffer_.length := by
  obtain ⟨tail, hb, -⟩ := hh.buffer_eq
  obtain ⟨hs, -⟩ := hh
  obtain ⟨h1, h2, h3⟩ := hv
  rcases v with ⟨⟨buf, dcap⟩, cap, sz⟩
  simp only at hb hs h1 h2 h3
  subst hs hb h3
  obtain ⟨y, hy⟩ := moveLoop_done E tail B (A.map Slot.live) x hnt
  have hd := destroy_at_mid
    (b := A.map Slot.live ++ B.map Slot.live ++ Slot.live y :: tail)
    (p := (A ++ x :: B).length - 1) (A.map Slot.live ++ B.map Slot.live) tail y rfl
    (by simp)
  have hss := size_sub_one (a := (A ++ x :: B).length) (by simp; omega)
  simp only [List.length_map] at hy
  refine ⟨⟨⟨A.map Slot.live ++ B.map Slot.live ++ Slot.raw :: tail,
    ((A ++ x :: B).map Slot.live ++ tail).length⟩, cap, (A ++ x :: B).length - 1⟩, ?_, ?_, ?_⟩
  · have ha : A.length ≤ ((A ++ x :: B).map Slot.live ++ tail).length := by
      simp only [List.length_append, List.length_map]; omega
    have hl : (A ++ x :: B).length ≤ ((A ++ x :: B).map Slot.live ++ tail).length := by simp
    have hdist : distance (A.length + 1) (A ++ x :: B).length = .ok B.length := by
      simp [distance]; omega
    have hps : ptr_sub (A ++ x :: B).length 1 = .ok ((A ++ x :: B).length - 1) := by
      simp [ptr_sub]
    simp only [Vector.Erase, Vector.begin, RawMemory.GetAddress, Nat.zero_add, Nat.sub_zero,
      RawMemory.add, if_pos ha, if_pos hl, move_range, hdist, hps, hss]
    simp only [List.map_append, List.map_cons, List.append_assoc, List.cons_append] at hy hd ⊢
    rw [hy]
    simp only [hd]
  · exact holds_of_append (A ++ B) (Slot.raw :: tail) (by simp) (by simp)
  · simp; omega

/-! ## Lemmas: reserving -/

theorem Reserve_noop {T : Type} (E : Env T) (v : Vector T) (n : Nat) (h : n ≤ v.capacity_) :
    v.Reserve E n = .ok v () [] := by
  simp [Vector.Reserve, h]

theorem Reserve_grow {T : Type} (E : Env T) (v : Vector T) (es : List T) (n : Nat)
    (hv : v.Valid) (hh : v.Holds es) (hn : v.capacity_ < n) (hal : E.allocFails n = false)
    (hrel : ∀ y ∈ es, E.relocateThrows y = false) :
    ∃ (w : Vector T) (fr : List (Buf T)), v.Reserve E n = .ok w () fr ∧
      w.Valid ∧ w.Holds es ∧ w.capacity_ = n ∧ w.size_ = v.size_ := by
  obtain ⟨tail, hb, -⟩ := hh.buffer_eq
  obtain ⟨hs, -⟩ := hh
  obtain ⟨h1, h2, h3⟩ := hv
  rcases v with ⟨⟨buf, dcap⟩, cap, sz⟩
  simp only at hb hs h1 h2 h3 hn
  subst hs hb h3
  obtain ⟨ys, hys, hcm⟩ := CopyMove_done E [] tail [] (List.replicate (n - es.length) Slot.raw)
    es (List.replicate es.length Slot.raw) (by simp) hrel
  have hd := destroy_n_map ys [] tail
  simp only [List.nil_append, List.length_nil] at hcm hd
  rw [hys] at hd
  have hrep : List.replicate n (Slot.raw : Slot T)
      = List.replicate es.length Slot.raw ++ List.replicate (n - es.length) Slot.raw := by
    rw [← List.replicate_add]; congr 1; omega
  have hne : n ≠ 0 := by omega
  refine ⟨⟨⟨es.map Slot.live ++ List.replicate (n - es.length) Slot.raw, n⟩, n, es.length⟩,
    [List.replicate es.length Slot.raw ++ tail], ?_, ?_, ?_, rfl, rfl⟩
  · simp only [Vector.Reserve, Nat.not_le.mpr hn, if_false, create_eq E n hal,
      RawMemory.GetAddress]
    rw [hrep, hcm]
    simp only [hd, RawMemory.Swap]
  · simp [Vector.Valid]; omega
  · exact holds_of_append es (List.replicate (n - es.length) Slot.raw) rfl rfl

/-- A request whose byte count does not fit `size_t`: for 4-byte elements
`Allocate(2^62)` asks `operator new` for `2^62 * 4 mod 2^64 = 0` bytes. On the
vector `[1, 2, 3]` the relocation of `Reserve(2^62)`, also when run by
`Resize(2^62)`, then writes outside the new block; on an empty vector
`Reserve(2^62)` returns with capacity `2^62` and a block without slots. -/
theorem Reserve_wrapping_request :
    RawMemory.create intEnv (2 ^ 62) = some { buffer_ := [], capacity_ := 2 ^ 62 } ∧
      vec123.Reserve intEnv (2 ^ 62) = .ub (.outOfBlock 0) ∧
      vec123.Resize intEnv (2 ^ 62) = .ub (.outOfBlock 0) ∧
      (Vector.empty : Vector Int).Reserve intEnv (2 ^ 62)
        = .ok { data_ := { buffer_ := [], capacity_ := 2 ^ 62 }, capacity_ := 2 ^ 62,
                size_ := 0 } () [[]] := by
  decide

/-! ## Lemmas: size and capacity after each operation -/

theorem Reserve_fields {T : Type} (E : Env T) (v s : Vector T)
    (n : Nat) (h : (v.Reserve E n).after = some s) :
    s.size_ = v.size_ ∧ (s.capacity_ = v.capacity_ ∨ (v.capacity_ < n ∧ s.capacity_ = n)) := by
  unfold Vector.Reserve at h
  repeat' split at h
  all_goals simp [Outcome.after] at h
  all_goals subst h
  all_goals try simp
  all_goals omega

theorem Reserve_ok_fields {T : Type} (E : Env T) (v s : Vector T) (n : Nat) (u : Unit)
    (fr : List (Buf T)) (h : v.Reserve E n = .ok s u fr) :
    s.size_ = v.size_ ∧ n ≤ s.capacity_ := by
  unfold Vector.Reserve at h
  repeat' split at h
  all_goals simp at h
  all_goals obtain ⟨h, -⟩ := h
  all_goals subst h
  all_goals try simp
  all_goals omega

theorem EmplaceBack_fields {T : Type} (E : Env T) (v s : Vector T) (a : Init T)
    (hv : v.size_ ≤ v.capacity_) (h : (v.EmplaceBack E a).after = some s) :
    s.size_ ≤ s.capacity_ := by
  unfold Vector.EmplaceBack at h
  repeat' split at h
  all_goals simp [Outcome.after] at h
  all_goals subst h
  all_goals try simp
  all_goals omega

theorem emplaceGrow_fields {T : Type} (E : Env T) (v s : Vector T) (p : Nat) (a : Init T)
    (hv : v.size_ ≤ v.capacity_) (hg : v.size_ + 1 > v.capacity_)
    (h : (v.emplaceGrow E p a).after = some s) :
    s.size_ ≤ s.capacity_ := by
  unfold Vector.emplaceGrow at h
  repeat' split at h
  all_goals simp [Outcome.after] at h
  all_goals subst h
  all_goals try simp
  all_goals omega

theorem emplaceInPlace_fields {T : Type} (E : Env T) (v s : Vector T) (p : Nat) (a : Init T)
    (hg : ¬ v.size_ + 1 > v.capacity_)
    (h : (v.emplaceInPlace E p a).after = some s) :
    s.size_ ≤ s.capacity_ := by
  unfold Vector.emplaceInPlace at h
  repeat' split at h
  all_goals simp [Outcome.after] at h
  all_goals subst h
  all_goals try simp
  all_goals omega

theorem Emplace_fields {T : Type} (E : Env T) (v s : Vector T) (pos : Nat) (a : Init T)
    (hv : v.size_ ≤ v.capacity_) (h : (v.Emplace E pos a).after = some s) :
    s.size_ ≤ s.capacity_ := by
  unfold Vector.Emplace at h
  split at h
  · exact EmplaceBack_fields E v s a hv h
  · split at h
    · exact emplaceGrow_fields E v s _ a hv (by assumption) h
    · exact emplaceInPlace_fields E v s _ a (by assumption) h

theorem after_void {T σ α : Type} (o : Outcome T σ α) : o.void.after = o.after := by
  cases o <;> rfl

theorem Erase_fields {T : Type} (E : Env T) (v s : Vector T) (pos : Nat)
    (hv : v.size_ ≤ v.capacity_) (hp : v.begin ≤ pos ∧ pos < v.end)
    (h : (v.Erase E pos).after = some s) :
    s.size_ ≤ s.capacity_ := by
  have h1 : 1 ≤ v.size_ := by
    simp [Vector.begin, Vector.end, RawMemory.GetAddress] at hp; omega
  have h2 := size_sub_one h1
  unfold Vector.Erase at h
  repeat' split at h
  all_goals simp [Outcome.after] at h
  all_goals subst h
  all_goals try simp
  all_goals omega

theorem PopBack_fields {T : Type} (v s : Vector T)
    (hv : v.size_ ≤ v.capacity_) (hp : 0 < v.size_)
    (h : (v.PopBack).after = some s) :
    s.size_ ≤ s.capacity_ := by
  have h2 := size_sub_one (a := v.size_) hp
  unfold Vector.PopBack at h
  repeat' split at h
  all_goals simp [Outcome.after] at h
  all_goals subst h
  all_goals try simp
  all_goals omega

theorem Resize_fields {T : Type} (E : Env T) (v s : Vector T) (n : Nat)
    (hv : v.size_ ≤ v.capacity_) (h : (v.Resize E n).after = some s) :
    s.size_ ≤ s.capacity_ := by
  unfold Vector.Resize at h
  split at h
  · simp [Outcome.after] at h; subst h; exact hv
  · split at h
    · split at h
      all_goals simp [Outcome.after] at h
      subst h; simp; omega
    · split at h
      · simp [Outcome.after] at h
      · rename_i e s1 fr hr
        have := Reserve_fields E v s1 n (by rw [hr]; rfl)
        simp [Outcome.after] at h; subst h; omega
      · rename_i s1 u fr hr
        have := Reserve_ok_fields E v s1 n u fr hr
        repeat' split at h
        all_goals simp [Outcome.after] at h
        all_goals subst h
        all_goals try simp
        all_goals omega

theorem sized_fields {T : Type} (E : Env T) (n : Nat) (v : Vector T) (fr : List (Buf T))
    (h : Vector.sized E n = .ok () v fr) : v.size_ ≤ v.capacity_ := by
  unfold Vector.sized at h
  repeat' split at h
  all_goals simp at h
  obtain ⟨h, -⟩ := h
  subst h
  simp

theorem copy_fields {T : Type} (E : Env T) (o v : Vector T) (fr : List (Buf T))
    (h : Vector.copy E o = .ok () v fr) : v.size_ = o.size_ ∧ v.capacity_ = o.size_ := by
  unfold Vector.copy at h
  repeat' split at h
  all_goals simp at h
  obtain ⟨h, -⟩ := h
  subst h
  simp

theorem copyAssign_fields {T : Type} (E : Env T) (v o s : Vector T)
    (hv : v.size_ ≤ v.capacity_) (ho : o.size_ ≤ o.capacity_)
    (h : (v.copyAssign E o).after = some s) : s.size_ ≤ s.capacity_ := by
  unfold Vector.copyAssign at h
  split at h
  · split at h
    · simp [Outcome.after] at h
    · simp [Outcome.after] at h; subst h; exact hv
    · rename_i u c fr hc
      have := copy_fields E o c fr hc
      split at h
      all_goals simp [Outcome.after] at h
      subst h
      simp [Vector.Swap]; omega
  · repeat' split at h
    all_goals simp [Outcome.after] at h
    all_goals subst h
    all_goals try simp
    all_goals omega

theorem call_fields {T : Type} (E : Env T) (v s : Vector T) (c : Call T)
    (hv : v.size_ ≤ v.capacity_) (hp : c.pre v) (h : (v.call E c).after = some s) :
    s.size_ ≤ s.capacity_ := by
  cases c with
  | Reserve n =>
    have := Reserve_fields E v s n h
    omega
  | Resize n => exact Resize_fields E v s n hv h
  | PushBack x =>
    simp only [Vector.call, PushBack_eq, after_void] at h
    exact EmplaceBack_fields E v s _ hv h
  | PushBack_rv x =>
    simp only [Vector.call, PushBack_rv_eq, after_void] at h
    exact EmplaceBack_fields E v s _ hv h
  | PopBack => exact PopBack_fields v s hv hp h
  | EmplaceBack a =>
    simp only [Vector.call, after_void] at h
    exact EmplaceBack_fields E v s _ hv h
  | Emplace pos a =>
    simp only [Vector.call, after_void] at h
    exact Emplace_fields E v s pos a hv h
  | Insert pos x =>
    simp only [Vector.call, after_void, Vector.Insert] at h
    exact Emplace_fields E v s pos _ hv h
  | Insert_rv pos x =>
    simp only [Vector.call, after_void, Vector.Insert_rv] at h
    exact Emplace_fields E v s pos _ hv h
  | Erase pos =>
    simp only [Vector.call, after_void] at h
    exact Erase_fields E v s pos hv hp h

/-- Every state the memory model reaches has `size_ <= capacity_`. -/
theorem Reachable.size_le {T : Type} (E : Env T) (v : Vector T)
    (h : Reachable E v) : v.size_ ≤ v.capacity_ := by
  induction h with
  | empty => simp [Vector.empty]
  | sized n v fr _ h => exact sized_fields E n v fr h
  | copy o v fr _ _ h _ => have := copy_fields E o v fr h; omega
  | moveCtor_new i _ ih => simpa [Vector.moveCtor] using ih
  | moveCtor_src i _ _ => simp [Vector.moveCtor]
  | copyAssign v o s _ _ _ h ihv iho => exact copyAssign_fields E v o s ihv iho h
  | moveAssign_dst v i _ _ _ ihi => simpa [Vector.moveAssign] using ihi
  | moveAssign_src v i _ _ _ _ => simp [Vector.moveAssign]
  | swap_this v i _ _ _ ihi => simpa [Vector.Swap] using ihi
  | swap_input v i _ _ ihv _ => simpa [Vector.Swap] using ihv
  | call v s c _ hp _ h ih => exact call_fields E v s c ih hp h

/-! ## Lemmas: the members `capacity_` and `size_` on their own -/

theorem size_add_of_lt {a b : Nat} (h : a + b < 2 ^ 64) : size_add a b = a + b := by
  unfold size_add
  rw [if_pos h]

theorem Env.lt_of_fits {T : Type} {E : Env T} {n : Nat} (h : E.fits n) : n < 2 ^ 64 := by
  unfold Env.fits at h
  have := E.sizeof_pos
  calc n = n * 1 := (Nat.mul_one n).symm
    _ ≤ n * E.sizeof_T := Nat.mul_le_mul_left n this
    _ < 2 ^ 64 := h

theorem Fields.Ok.size_succ {f : Fields} (h : f.Ok)
    (hlt : f.size_ < f.capacity_) : size_add f.size_ 1 = f.size_ + 1 :=
  size_add_of_lt (by have := h.2; omega)

theorem Fields.Reserve_ok (f g : Fields) (n : Nat) (hf : f.Ok)
    (hn : n < 2 ^ 64) (hg : g ∈ (f.Reserve n).all) : g.Ok := by
  unfold Fields.Reserve at hg
  split at hg
  · simp only [Ends.all, List.mem_cons, List.mem_singleton, List.not_mem_nil, or_false] at hg
    subst hg; exact hf
  · simp only [Ends.all, List.mem_cons, List.mem_singleton, List.not_mem_nil, or_false] at hg
    rcases hg with rfl | rfl
    · exact ⟨by have := hf.1; show f.size_ ≤ n; omega, hn⟩
    · exact hf

/-- The members after an insertion into a full vector, the doubled capacity
being below `2^64`: no `size_t` operation wraps. -/
theorem Fields.grow_ok (f : Fields) (hf : f.Ok)
    (hfull : f.capacity_ ≤ f.size_) (hfit : 2 * f.capacity_ < 2 ^ 64) :
    size_add f.size_ 1 = f.size_ + 1 ∧
      (if f.size_ = 0 then 1 else size_mul f.size_ 2) = max 1 (2 * f.capacity_) ∧
      (if f.capacity_ = 0 then 1 else size_mul f.capacity_ 2) = max 1 (2 * f.capacity_) := by
  have h1 := hf.1
  have he : f.size_ = f.capacity_ := by omega
  have hm : f.capacity_ * 2 < 2 ^ 64 := by omega
  refine ⟨size_add_of_lt (by omega), ?_, ?_⟩
  · rw [he, size_mul_of_lt hm]
    split <;> omega
  · rw [size_mul_of_lt hm]
    split <;> omega

theorem Fields.EmplaceBack_stays_ok (f g : Fields) (hf : f.Ok)
    (hfit : f.capacity_ ≤ f.size_ → 2 * f.capacity_ < 2 ^ 64)
    (hg : g ∈ f.EmplaceBack.all) : g.Ok := by
  unfold Fields.EmplaceBack at hg
  split at hg
  · rename_i he
    have hfit1 := hfit (by omega)
    obtain ⟨h1, h2, -⟩ := Fields.grow_ok f hf (by omega) hfit1
    rw [h1, h2] at hg
    simp only [Ends.all, List.mem_cons, List.mem_singleton, List.not_mem_nil, or_false] at hg
    rcases hg with rfl | rfl
    · refine ⟨?_, ?_⟩
      · show f.size_ + 1 ≤ max 1 (2 * f.capacity_)
        have := hf.1
        omega
      · show max 1 (2 * f.capacity_) < 2 ^ 64
        omega
    · exact hf
  · rename_i hne
    have hlt : f.size_ < f.capacity_ := by have := hf.1; omega
    rw [hf.size_succ hlt] at hg
    simp only [Ends.all, List.mem_cons, List.mem_singleton, List.not_mem_nil, or_false] at hg
    rcases hg with rfl | rfl
    · exact ⟨hlt, hf.2⟩
    · exact hf

theorem Fields.PushBack_as_EmplaceBack (f : Fields) : f.PushBack = f.EmplaceBack := rfl

theorem Fields.Emplace_ok (f g : Fields) (pos_n : Nat) (hf : f.Ok)
    (hfit : f.capacity_ ≤ f.size_ → 2 * f.capacity_ < 2 ^ 64)
    (hg : g ∈ (f.Emplace pos_n).all) : g.Ok := by
  unfold Fields.Emplace at hg
  split at hg
  · exact Fields.EmplaceBack_stays_ok f g hf hfit hg
  · by_cases hfull : f.capacity_ ≤ f.size_
    · have hfit1 := hfit hfull
      obtain ⟨h1, -, h3⟩ := Fields.grow_ok f hf hfull hfit1
      rw [h1, h3] at hg
      have hgt : f.size_ + 1 > f.capacity_ := by omega
      rw [if_pos hgt] at hg
      simp only [Ends.all, List.mem_cons, List.mem_singleton, List.not_mem_nil, or_false] at hg
      rcases hg with rfl | rfl
      · refine ⟨?_, ?_⟩
        · show f.size_ + 1 ≤ max 1 (2 * f.capacity_)
          have := hf.1
          omega
        · show max 1 (2 * f.capacity_) < 2 ^ 64
          omega
      · exact hf
    · have hlt : f.size_ < f.capacity_ := by omega
      rw [hf.size_succ hlt] at hg
      have hgt : ¬ f.size_ + 1 > f.capacity_ := by omega
      rw [if_neg hgt] at hg
      simp only [Ends.all, List.mem_cons, List.mem_singleton, List.not_mem_nil, or_false] at hg
      rcases hg with rfl | rfl
      · exact ⟨hlt, hf.2⟩
      · exact hf

theorem Fields.pred_ok (f : Fields) (hf : f.Ok) (hp : 0 < f.size_) :
    Fields.Ok { f with size_ := size_sub f.size_ 1 } := by
  rw [size_sub_one hp]
  exact ⟨by show f.size_ - 1 ≤ f.capacity_; have := hf.1; omega, hf.2⟩

theorem Fields.Resize_ok (f g : Fields) (n : Nat) (hf : f.Ok)
    (hn : n < 2 ^ 64) (hg : g ∈ (f.Resize n).all) : g.Ok := by
  unfold Fields.Resize at hg
  split at hg
  · simp only [Ends.all, List.mem_cons, List.mem_singleton, List.not_mem_nil, or_false] at hg
    subst hg; exact hf
  · split at hg
    · rename_i hlt
      simp only [Ends.all, List.mem_cons, List.mem_singleton, List.not_mem_nil, or_false] at hg
      subst hg
      exact ⟨by show n ≤ f.capacity_; have := hf.1; omega, hf.2⟩
    · rename_i hne hnlt
      have hr := Fields.Reserve_ok f (f.Reserve n).returned n hf hn (by simp [Ends.all])
      have hcap : n ≤ (f.Reserve n).returned.capacity_ := by
        unfold Fields.Reserve
        split
        · assumption
        · exact Nat.le_refl _
      simp only [Ends.all, List.mem_cons, List.mem_append, List.mem_singleton,
        List.not_mem_nil, or_false] at hg
      rcases hg with rfl | hg | rfl
      · exact ⟨hcap, hr.2⟩
      · exact Fields.Reserve_ok f g n hf hn (by simp [Ends.all, hg])
      · exact hr

theorem Fields.copyAssign_ok (f o g : Fields) (hf : f.Ok)
    (ho : o.Ok) (hg : g ∈ (f.copyAssign o).all) : g.Ok := by
  unfold Fields.copyAssign at hg
  split at hg
  · simp only [Ends.all, List.mem_cons, List.mem_singleton, List.not_mem_nil, or_false] at hg
    rcases hg with rfl | rfl
    · exact ⟨Nat.le_refl _, Nat.lt_of_le_of_lt ho.1 ho.2⟩
    · exact hf
  · rename_i hc
    simp only [Ends.all, List.mem_cons, List.mem_singleton, List.not_mem_nil, or_false] at hg
    rcases hg with rfl | rfl
    · exact ⟨by show o.size_ ≤ f.capacity_; have := ho.1; omega, hf.2⟩
    · exact hf

theorem Fields.call_ok {T : Type} (f g : Fields) (c : Call T) (hf : f.Ok)
    (hp : f.pre c) (hfit : f.inRange c) (hg : g ∈ (f.call c).all) : g.Ok := by
  cases c with
  | Reserve n => exact Fields.Reserve_ok f g n hf hfit hg
  | Resize n => exact Fields.Resize_ok f g n hf hfit hg
  | PushBack x => exact Fields.EmplaceBack_stays_ok f g hf hfit hg
  | PushBack_rv x => exact Fields.EmplaceBack_stays_ok f g hf hfit hg
  | PopBack =>
    simp only [Fields.call, Fields.PopBack, Ends.all, List.mem_cons, List.not_mem_nil,
      or_false] at hg
    subst hg
    exact Fields.pred_ok f hf hp
  | EmplaceBack a => exact Fields.EmplaceBack_stays_ok f g hf hfit hg
  | Emplace pos a => exact Fields.Emplace_ok f g pos hf hfit hg
  | Insert pos x => exact Fields.Emplace_ok f g pos hf hfit hg
  | Insert_rv pos x => exact Fields.Emplace_ok f g pos hf hfit hg
  | Erase pos =>
    simp only [Fields.call, Fields.Erase, Ends.all, List.mem_cons, List.mem_singleton,
      List.not_mem_nil, or_false] at hg
    rcases hg with rfl | rfl
    · exact Fields.pred_ok f hf (Nat.lt_of_le_of_lt (Nat.zero_le _) hp)
    · exact hf

theorem Fields.ok_zero : Fields.Ok { capacity_ := 0, size_ := 0 } :=
  ⟨Nat.le_refl _, by show 0 < 2 ^ 64; decide⟩

/-- Every value the members can take satisfies `size_ <= capacity_`, and the
capacity is a `size_t` value. -/
theorem Fields.Reachable.ok {T : Type} (f : Fields) (h : Fields.Reachable T f) : f.Ok := by
  induction h with
  | empty => exact Fields.ok_zero
  | sized n hn => exact ⟨Nat.le_refl _, hn⟩
  | copy o _ ih => exact ⟨Nat.le_refl _, Nat.lt_of_le_of_lt ih.1 ih.2⟩
  | moveCtor_new i _ ih => exact ih
  | moveCtor_src i _ _ => exact Fields.ok_zero
  | copyAssign f o s _ _ hs ihf iho => exact Fields.copyAssign_ok f o s ihf iho hs
  | moveAssign_dst f i _ _ _ ihi => exact ihi
  | moveAssign_src f i _ _ _ _ => exact Fields.ok_zero
  | swap_this f i _ _ _ ihi => exact ihi
  | swap_input f i _ _ ihf _ => exact ihf
  | call f s c _ hp hfit hs ih => exact Fields.call_ok f s c ih hp hfit hs

/-! ## Lemmas: the memory model agrees with the members followed on their own -/

theorem fits_double {T : Type} {E : Env T} {c : Nat} (h : E.fits (max 1 (2 * c))) :
    2 * c < 2 ^ 64 :=
  Nat.lt_of_le_of_lt (Nat.le_max_right 1 (2 * c)) (Env.lt_of_fits h)

theorem Reserve_mem {T : Type} (E : Env T) (v s : Vector T) (n : Nat)
    (h : (v.Reserve E n).after = some s) : s.fields ∈ (v.fields.Reserve n).all := by
  unfold Vector.Reserve at h
  unfold Fields.Reserve
  by_cases hn : n ≤ v.capacity_
  · simp only [if_pos hn, Outcome.after, Option.some.injEq] at h
    subst h
    simp [Vector.fields, Ends.all, hn]
  · rw [if_neg hn] at h
    simp only [Vector.fields, if_neg hn, Ends.all]
    repeat' split at h
    all_goals simp [Outcome.after] at h
    all_goals subst h
    all_goals simp

theorem EmplaceBack_mem {T : Type} (E : Env T) (v s : Vector T) (a : Init T)
    (hv : v.fields.Ok) (hfit : E.fits (max 1 (2 * v.capacity_)))
    (h : (v.EmplaceBack E a).after = some s) : s.fields ∈ v.fields.EmplaceBack.all := by
  unfold Vector.EmplaceBack at h
  unfold Fields.EmplaceBack
  by_cases hn : v.size_ = v.capacity_
  · obtain ⟨h1, h2, -⟩ := Fields.grow_ok v.fields hv (by simp [Vector.fields, hn])
      (fits_double hfit)
    simp only [Vector.fields] at h1 h2
    rw [if_pos hn] at h
    simp only [Vector.fields, if_pos hn, Ends.all, h1, h2]
    repeat' split at h
    all_goals simp [Outcome.after] at h
    all_goals subst h
    all_goals simp
    all_goals omega
  · have hlt : v.size_ < v.capacity_ := by
      have := hv.1
      simp only [Vector.fields] at this
      omega
    have h1 := hv.size_succ hlt
    simp only [Vector.fields] at h1
    rw [if_neg hn] at h
    simp only [Vector.fields, if_neg hn, Ends.all, h1]
    repeat' split at h
    all_goals simp [Outcome.after] at h
    all_goals subst h
    all_goals simp

theorem fields_size_succ {T : Type} {v : Vector T} (hv : v.fields.Ok)
    (hlt : v.size_ < v.capacity_) : size_add v.size_ 1 = v.size_ + 1 :=
  hv.size_succ hlt

theorem emplaceGrow_mem {T : Type} (E : Env T) (v s : Vector T) (p : Nat) (a : Init T)
    (h : (v.emplaceGrow E p a).after = some s) :
    (s.capacity_ = max 1 (2 * v.capacity_) ∧ s.size_ = v.size_ + 1) ∨
      (s.capacity_ = v.capacity_ ∧ s.size_ = v.size_) := by
  have hc : (if v.capacity_ = 0 then 1 else v.capacity_ * 2) = max 1 (2 * v.capacity_) := by
    split <;> omega
  unfold Vector.emplaceGrow at h
  simp only [hc] at h
  repeat' split at h
  all_goals simp [Outcome.after] at h
  all_goals subst h
  all_goals simp

theorem emplaceInPlace_mem {T : Type} (E : Env T) (v s : Vector T) (p : Nat) (a : Init T)
    (h : (v.emplaceInPlace E p a).after = some s) :
    (s.capacity_ = v.capacity_ ∧ s.size_ = v.size_ + 1) ∨
      (s.capacity_ = v.capacity_ ∧ s.size_ = v.size_) := by
  unfold Vector.emplaceInPlace at h
  repeat' split at h
  all_goals simp [Outcome.after] at h
  all_goals subst h
  all_goals simp

theorem Emplace_mem {T : Type} (E : Env T) (v s : Vector T) (pos : Nat) (a : Init T)
    (hv : v.fields.Ok) (hfit : E.fits (max 1 (2 * v.capacity_)))
    (h : (v.Emplace E pos a).after = some s) : s.fields ∈ (v.fields.Emplace pos).all := by
  have hle : v.size_ ≤ v.capacity_ := hv.1
  unfold Vector.Emplace at h
  unfold Fields.Emplace
  by_cases hpos : pos = v.end
  · rw [if_pos hpos] at h
    have hp : pos = v.fields.size_ := by
      simp [hpos, Vector.end, RawMemory.GetAddress, Vector.fields]
    rw [if_pos hp]
    exact EmplaceBack_mem E v s a hv hfit h
  · rw [if_neg hpos] at h
    have hp : ¬ pos = v.fields.size_ := by
      simpa [Vector.end, RawMemory.GetAddress, Vector.fields] using hpos
    rw [if_neg hp]
    by_cases hg : v.size_ + 1 > v.capacity_
    · rw [if_pos hg] at h
      obtain ⟨h1, -, h3⟩ := Fields.grow_ok v.fields hv (by simp [Vector.fields]; omega)
        (fits_double hfit)
      simp only [Vector.fields] at h1 h3
      simp only [Vector.fields, h1, h3, if_pos hg, Ends.all, List.mem_cons, List.mem_singleton,
        Fields.mk.injEq, List.not_mem_nil, or_false]
      exact emplaceGrow_mem E v s _ a h
    · rw [if_neg hg] at h
      have h1 := fields_size_succ hv (by omega)
      simp only [Vector.fields, h1, if_neg hg, Ends.all, List.mem_cons, List.mem_singleton,
        Fields.mk.injEq, List.not_mem_nil, or_false]
      exact emplaceInPlace_mem E v s _ a h

theorem Erase_mem {T : Type} (E : Env T) (v s : Vector T) (pos : Nat)
    (h : (v.Erase E pos).after = some s) : s.fields ∈ (v.fields.Erase pos).all := by
  unfold Vector.Erase at h
  unfold Fields.Erase
  repeat' split at h
  all_goals simp [Outcome.after] at h
  all_goals subst h
  all_goals simp [Vector.fields, Ends.all]

theorem PopBack_mem {T : Type} (v s : Vector T)
    (h : (v.PopBack).after = some s) : s.fields ∈ v.fields.PopBack.all := by
  unfold Vector.PopBack at h
  unfold Fields.PopBack
  repeat' split at h
  all_goals simp [Outcome.after] at h
  all_goals subst h
  all_goals simp [Vector.fields, Ends.all]

theorem Reserve_ok_mem {T : Type} (E : Env T) (v s : Vector T) (n : Nat) (u : Unit)
    (fr : List (Buf T)) (h : v.Reserve E n = .ok s u fr) :
    s.fields = (v.fields.Reserve n).returned := by
  unfold Vector.Reserve at h
  unfold Fields.Reserve
  by_cases hn : n ≤ v.capacity_
  · rw [if_pos hn] at h
    rw [if_pos (show n ≤ v.fields.capacity_ from hn)]
    simp only [Outcome.ok.injEq] at h
    obtain ⟨h, -⟩ := h
    subst h
    rfl
  · rw [if_neg hn] at h
    rw [if_neg (show ¬ n ≤ v.fields.capacity_ from hn)]
    repeat' split at h
    all_goals simp at h
    obtain ⟨h, -⟩ := h
    subst h
    simp [Vector.fields]

theorem Resize_mem {T : Type} (E : Env T) (v s : Vector T) (n : Nat)
    (h : (v.Resize E n).after = some s) : s.fields ∈ (v.fields.Resize n).all := by
  unfold Vector.Resize at h
  unfold Fields.Resize
  by_cases h1 : n = v.size_
  · rw [if_pos h1] at h
    simp only [Outcome.after, Option.some.injEq] at h
    subst h
    simp [Vector.fields, Ends.all, h1]
  · rw [if_neg h1] at h
    have h1f : ¬ n = v.fields.size_ := h1
    rw [if_neg h1f]
    by_cases h2 : n < v.size_
    · rw [if_pos h2] at h
      have h2f : n < v.fields.size_ := h2
      rw [if_pos h2f]
      split at h
      all_goals simp [Outcome.after] at h
      subst h
      simp [Vector.fields, Ends.all]
    · rw [if_neg h2] at h
      have h2f : ¬ n < v.fields.size_ := h2
      rw [if_neg h2f]
      cases hr : v.Reserve E n with
      | ub f => simp [hr, Outcome.after] at h
      | throw e s1 fr =>
        simp only [hr, Outcome.after, Option.some.injEq] at h
        subst h
        have hm := Reserve_mem E v s1 n (by rw [hr]; rfl)
        simp only [Ends.all, List.mem_cons, List.mem_append, List.mem_singleton,
          List.not_mem_nil, or_false] at hm ⊢
        rcases hm with hm | hm
        · exact Or.inr (Or.inr hm)
        · exact Or.inr (Or.inl hm)
      | ok s1 u fr =>
        have hm := Reserve_ok_mem E v s1 n u fr hr
        simp only [hr] at h
        rw [← hm]
        repeat' split at h
        all_goals simp [Outcome.after] at h
        all_goals subst h
        all_goals simp [Vector.fields, Ends.all]

theorem copy_mem {T : Type} (E : Env T) (o v : Vector T) (fr : List (Buf T))
    (h : Vector.copy E o = .ok () v fr) : v.fields = Fields.copy o.fields := by
  have := copy_fields E o v fr h
  simp [Vector.fields, Fields.copy, this]

theorem sized_mem {T : Type} (E : Env T) (n : Nat) (v : Vector T) (fr : List (Buf T))
    (h : Vector.sized E n = .ok () v fr) : v.fields = Fields.sized n := by
  unfold Vector.sized at h
  repeat' split at h
  all_goals simp at h
  obtain ⟨h, -⟩ := h
  subst h
  simp [Vector.fields, Fields.sized]

theorem copyAssign_mem {T : Type} (E : Env T) (v o s : Vector T)
    (h : (v.copyAssign E o).after = some s) :
    s.fields ∈ (v.fields.copyAssign o.fields).all := by
  unfold Vector.copyAssign at h
  unfold Fields.copyAssign
  by_cases hc : v.capacity_ < o.capacity_
  · rw [if_pos hc] at h
    have hcf : v.fields.capacity_ < o.fields.capacity_ := hc
    rw [if_pos hcf]
    split at h
    · simp [Outcome.after] at h
    · simp [Outcome.after] at h; subst h; simp [Ends.all]
    · rename_i u c fr hcp
      have := copy_mem E o c fr hcp
      split at h
      all_goals simp [Outcome.after] at h
      subst h
      simp only [Ends.all, List.mem_cons]
      left
      simp only [Vector.fields, Fields.copy, Fields.Swap, Vector.Swap] at this ⊢
      simp only [Fields.mk.injEq] at this ⊢
      exact this
  · rw [if_neg hc] at h
    have hcf : ¬ v.fields.capacity_ < o.fields.capacity_ := hc
    rw [if_neg hcf]
    repeat' split at h
    all_goals simp [Outcome.after] at h
    all_goals subst h
    all_goals simp [Vector.fields, Ends.all]

theorem call_mem {T : Type} (E : Env T) (v s : Vector T) (c : Call T)
    (hv : v.fields.Ok) (hf : c.fits E v) (h : (v.call E c).after = some s) :
    s.fields ∈ (v.fields.call c).all := by
  cases c with
  | Reserve n => exact Reserve_mem E v s n h
  | Resize n => exact Resize_mem E v s n h
  | PushBack x =>
    simp only [Vector.call, PushBack_eq, after_void] at h
    exact EmplaceBack_mem E v s _ hv hf h
  | PushBack_rv x =>
    simp only [Vector.call, PushBack_rv_eq, after_void] at h
    exact EmplaceBack_mem E v s _ hv hf h
  | PopBack => exact PopBack_mem v s h
  | EmplaceBack a =>
    simp only [Vector.call, after_void] at h
    exact EmplaceBack_mem E v s _ hv hf h
  | Emplace pos a =>
    simp only [Vector.call, after_void] at h
    exact Emplace_mem E v s pos a hv hf h
  | Insert pos x =>
    simp only [Vector.call, after_void, Vector.Insert] at h
    exact Emplace_mem E v s pos _ hv hf h
  | Insert_rv pos x =>
    simp only [Vector.call, after_void, Vector.Insert_rv] at h
    exact Emplace_mem E v s pos _ hv hf h
  | Erase pos =>
    simp only [Vector.call, after_void] at h
    exact Erase_mem E v s pos h

theorem call_pre_fields {T : Type} (v : Vector T) (c : Call T) (hp : c.pre v) :
    v.fields.pre c := by
  cases c <;>
    simp only [Call.pre, Fields.pre, Vector.begin, Vector.end, RawMemory.GetAddress,
      Vector.fields, Nat.zero_add, Nat.zero_le, true_and] at hp ⊢ <;>
    exact hp

theorem call_fits_fields {T : Type} (E : Env T) (v : Vector T) (c : Call T)
    (hf : c.fits E v) : v.fields.inRange c := by
  cases c <;> simp only [Call.fits, Fields.inRange, Vector.fields] at hf ⊢ <;>
    first | exact Env.lt_of_fits hf | exact fun _ => fits_double hf

/-- The members of every state the memory model reaches are among the values
followed on their own. -/
theorem Reachable.fields {T : Type} (E : Env T) (v : Vector T) (h : Reachable E v) :
    Fields.Reachable T v.fields := by
  induction h with
  | empty => exact Fields.Reachable.empty
  | sized n v fr hf h =>
    rw [sized_mem E n v fr h]
    exact Fields.Reachable.sized n (Env.lt_of_fits hf)
  | copy o v fr _ _ h ih => rw [copy_mem E o v fr h]; exact Fields.Reachable.copy _ ih
  | moveCtor_new i _ ih => exact Fields.Reachable.moveCtor_new _ ih
  | moveCtor_src i _ ih => exact Fields.Reachable.moveCtor_src _ ih
  | copyAssign v o s _ _ _ h ihv iho =>
    exact Fields.Reachable.copyAssign _ _ _ ihv iho (copyAssign_mem E v o s h)
  | moveAssign_dst v i _ _ ihv ihi => exact Fields.Reachable.moveAssign_dst _ _ ihv ihi
  | moveAssign_src v i _ _ ihv ihi => exact Fields.Reachable.moveAssign_src _ _ ihv ihi
  | swap_this v i _ _ ihv ihi => exact Fields.Reachable.swap_this _ _ ihv ihi
  | swap_input v i _ _ ihv ihi => exact Fields.Reachable.swap_input _ _ ihv ihi
  | call v s c _ hp hf h ih =>
    exact Fields.Reachable.call _ _ c ih (call_pre_fields v c hp) (call_fits_fields E v c hf)
      (call_mem E v s c (Fields.Reachable.ok _ ih) hf h)

/-! ## Lemmas: growth of the capacity -/

theorem append_eq {T : Type} (E : Env T) (v : Vector T) (a : Append T) :
    v.append E a = (v.EmplaceBack E a.init).void := by
  cases a with
  | PushBack x => exact PushBack_eq E v x
  | PushBack_rv x => exact PushBack_rv_eq E v x
  | EmplaceBack p => rfl

theorem GrowthLaw.step {n c : Nat} (h : GrowthLaw n c) (hle : n ≤ c) :
    GrowthLaw (n + 1) (if n = c then (if n = 0 then 1 else n * 2) else c) := by
  rcases h with ⟨rfl, rfl⟩ | ⟨k, rfl, hk, hmin⟩
  · right
    refine ⟨0, by simp, by simp, fun j _ => ?_⟩
    simpa using Nat.one_le_two_pow
  · right
    have hpos : 1 ≤ 2 ^ k := Nat.one_le_two_pow
    by_cases hfull : n = 2 ^ k
    · subst hfull
      refine ⟨k + 1, ?_, ?_, fun j hj => ?_⟩
      · have : 2 ^ k ≠ 0 := by omega
        simp [this, Nat.pow_succ]
      · rw [Nat.pow_succ]; omega
      · have hlt : 2 ^ k < 2 ^ j := by omega
        have : k < j := (Nat.pow_lt_pow_iff_right (by norm_num)).mp hlt
        exact Nat.pow_le_pow_right (by norm_num) this
    · refine ⟨k, by simp [hfull], by omega, fun j hj => hmin j (by omega)⟩

theorem appendAll_grows {T : Type} (E : Env T) (bound : Nat)
    (hal : ∀ n, n < bound → E.allocFails n = false)
    (hrel : ∀ x, E.relocateThrows x = false) (calls : List (Append T)) :
    ∀ (v : Vector T) (es : List T), v.Valid → v.Holds es → GrowthLaw es.length v.capacity_ →
      2 * (es.length + calls.length) ≤ bound →
      (∀ a ∈ calls, (E.construct a.init).isSome = true) →
      ∃ (w : Vector T) (es1 : List T), Vector.appendAll E v calls = some w ∧ w.Valid ∧
        w.Holds es1 ∧ es1.length = es.length + calls.length ∧
        GrowthLaw es1.length w.capacity_ := by
  induction calls with
  | nil => intro v es hv hh hg _ _; exact ⟨v, es, rfl, hv, hh, rfl, hg⟩
  | cons a rest ih =>
    intro v es hv hh hg hb hct
    obtain ⟨x, hx⟩ := Option.isSome_iff_exists.mp (hct a (by simp))
    have hreq : (if v.size_ = 0 then 1 else v.size_ * 2) < bound := by
      have := hh.1
      simp only [List.length_cons] at hb
      split <;> omega
    obtain ⟨w, fr, h1, h2, h3, h4⟩ := EmplaceBack_ok E v es a.init x hv hh hx
      (fun _ => hal _ hreq) (fun _ y _ => hrel y)
    have hg2 : GrowthLaw (es ++ [x]).length w.capacity_ := by
      have := hg.step (by rw [← hh.1]; exact hv.1)
      rw [h4, hh.1]
      simpa using this
    obtain ⟨w2, es2, g1, g2, g3, g4, g5⟩ := ih w (es ++ [x]) h2 h3 hg2
      (by simp only [List.length_append, List.length_cons, List.length_nil] at hb ⊢
          omega)
      (fun b hb => hct b (by simp [hb]))
    refine ⟨w2, es2, ?_, g2, g3, ?_, g5⟩
    · simp only [Vector.appendAll, append_eq, h1, Outcome.void]
      exact g1
    · simp at g4 ⊢; omega

/-! ## Lemmas: state after a failed growth -/

theorem CopyMove_copy_src {T : Type} (E : Env T) (hm : E.is_nothrow_move_constructible = false)
    (hc : E.is_copy_constructible = true) (src dst : Buf T) (start size dest : Nat) :
    (∀ ob nb, CopyMove E src start size dst dest = .threw (ob, nb) → ob = src) ∧
    (∀ ob nb, CopyMove E src start size dst dest = .done (ob, nb) → ob = src) := by
  unfold CopyMove
  simp only [hm, hc, Bool.not_true, Bool.or_self, Bool.false_eq_true, if_false]
  constructor
  · intro ob nb h
    split at h <;> simp at h
    exact h.1.symm
  · intro ob nb h
    split at h <;> simp at h
    exact h.1.symm

theorem with_buffer_self {T : Type} (v : Vector T) :
    ({ v with data_ := { v.data_ with buffer_ := v.data_.buffer_ } } : Vector T) = v := rfl

theorem Reserve_throw_state {T : Type} (E : Env T) (hm : E.is_nothrow_move_constructible = false)
    (hc : E.is_copy_constructible = true) (v s : Vector T) (n : Nat) (e : Exc)
    (fr : List (Buf T)) (h : v.Reserve E n = .throw e s fr) : s = v := by
  unfold Vector.Reserve at h
  split at h
  · simp at h
  · split at h
    · simp at h; exact h.2.1.symm
    · split at h
      · simp at h
      · rename_i ob nb heq
        have := (CopyMove_copy_src E hm hc _ _ _ _ _).1 ob nb heq
        subst this
        simp at h; exact h.2.1.symm
      · split at h <;> simp at h

theorem EmplaceBack_throw_state {T : Type} (E : Env T)
    (hm : E.is_nothrow_move_constructible = false) (hc : E.is_copy_constructible = true)
    (v s : Vector T) (a : Init T) (e : Exc) (fr : List (Buf T))
    (h : v.EmplaceBack E a = .throw e s fr) : s = v := by
  unfold Vector.EmplaceBack at h
  split at h
  · split at h
    · simp at h; exact h.2.1.symm
    · split at h
      · simp at h
      · split at h
        · simp at h; exact h.2.1.symm
        · split at h
          · simp at h
          · split at h
            · simp at h
            · rename_i ob nb heq
              have := (CopyMove_copy_src E hm hc _ _ _ _ _).1 ob nb heq
              subst this
              simp at h; exact h.2.1.symm
            · split at h <;> simp at h
  · split at h
    · simp at h
    · split at h
      · simp at h; exact h.2.1.symm
      · split at h <;> simp at h

theorem emplaceGrow_throw_state {T : Type} (E : Env T)
    (hm : E.is_nothrow_move_constructible = false) (hc : E.is_copy_constructible = true)
    (v s : Vector T) (p : Nat) (a : Init T) (e : Exc) (fr : List (Buf T))
    (h : v.emplaceGrow E p a = .throw e s fr) : s = v := by
  unfold Vector.emplaceGrow at h
  split at h
  · simp at h; exact h.2.1.symm
  · split at h
    · simp at h
    · split at h
      · simp at h; exact h.2.1.symm
      · split at h
        · simp at h
        · split at h
          · simp at h
          · rename_i ob nb heq
            have := (CopyMove_copy_src E hm hc _ _ _ _ _).1 ob nb heq
            subst this
            simp at h; exact h.2.1.symm
          · rename_i ob nb heq
            have := (CopyMove_copy_src E hm hc _ _ _ _ _).2 ob nb heq
            subst this
            split at h
            · simp at h
            · split at h
              · simp at h
              · split at h
                · simp at h
                · rename_i ob1 nb1 heq1
                  have := (CopyMove_copy_src E hm hc _ _ _ _ _).1 ob1 nb1 heq1
                  subst this
                  simp at h; exact h.2.1.symm
                · split at h
                  · simp at h
                  · split at h <;> simp at h

theorem void_throw {T σ α : Type} (o : Outcome T σ α) (e : Exc) (s : σ) (fr : List (Buf T))
    (h : o.void = .throw e s fr) : o = .throw e s fr := by
  cases o <;> simp_all [Outcome.void]

/-! ## Lemmas: every outcome of the relocation loops -/

theorem uninitCopyLoop_total {T : Type} (E : Env T) (spre spost dpre dpost : Buf T)
    (todo : List T) : ∀ (done : List T),
    uninitCopyLoop E (spre ++ (done ++ todo).map Slot.live ++ spost) spre.length dpre.length
        todo.length done.length
        (dpre ++ done.map Slot.live ++ List.replicate todo.length Slot.raw ++ dpost)
      = .done (dpre ++ (done ++ todo).map Slot.live ++ dpost) ∨
    uninitCopyLoop E (spre ++ (done ++ todo).map Slot.live ++ spost) spre.length dpre.length
        todo.length done.length
        (dpre ++ done.map Slot.live ++ List.replicate todo.length Slot.raw ++ dpost)
      = .threw (dpre ++ List.replicate (done.length + todo.length) Slot.raw ++ dpost) := by
  induction todo with
  | nil => intro done; left; simp [uninitCopyLoop]
  | cons x rest ih =>
    intro done
    have hr := read_mid (b := spre ++ (done ++ x :: rest).map Slot.live ++ spost)
      (p := spre.length + done.length) (spre ++ done.map Slot.live)
      (rest.map Slot.live ++ spost) x (by simp) (by simp)
    rw [List.length_cons, uninitCopyLoop, hr]
    by_cases hx : E.copyThrows x = true
    · right
      have hd := destroy_n_map done dpre
        (List.replicate (rest.length + 1) Slot.raw ++ dpost)
      simp only [List.append_assoc] at hd ⊢
      simp only [hx, if_true, hd]
      simp [List.replicate_add, List.append_assoc]
    · have hc := construct_at_mid
        (b := dpre ++ done.map Slot.live ++ List.replicate (rest.length + 1) Slot.raw ++ dpost)
        (p := dpre.length + done.length) (dpre ++ done.map Slot.live)
        (List.replicate rest.length Slot.raw ++ dpost) Slot.raw x
        (by simp [List.replicate_succ]) (by simp)
      simp only [hx, hc]
      have ih2 := ih (done ++ [x])
      simp only [List.append_assoc, List.singleton_append, List.length_append,
        List.length_singleton, List.map_append, List.map_cons, List.map_nil,
        List.cons_append, List.nil_append, List.length_cons] at ih2 ⊢
      have e1 : done.length + (rest.length + 1) = done.length + 1 + rest.length := by omega
      rw [e1]
      exact ih2

theorem uninitMoveLoop_total {T : Type} (E : Env T) (spre spost dpre dpost : Buf T)
    (todo : List T) : ∀ (done moved : List T), moved.length = done.length →
    ∃ ys : List T, ys.length = done.length + todo.length ∧
    (uninitMoveLoop E spre.length dpre.length todo.length done.length
        (spre ++ moved.map Slot.live ++ todo.map Slot.live ++ spost)
        (dpre ++ done.map Slot.live ++ List.replicate todo.length Slot.raw ++ dpost)
      = .done (spre ++ ys.map Slot.live ++ spost, dpre ++ (done ++ todo).map Slot.live ++ dpost) ∨
    uninitMoveLoop E spre.length dpre.length todo.length done.length
        (spre ++ moved.map Slot.live ++ todo.map Slot.live ++ spost)
        (dpre ++ done.map Slot.live ++ List.replicate todo.length Slot.raw ++ dpost)
      = .threw (spre ++ ys.map Slot.live ++ spost,
          dpre ++ List.replicate (done.length + todo.length) Slot.raw ++ dpost)) := by
  induction todo with
  | nil =>
    intro done moved hm
    exact ⟨moved, by simp [hm], Or.inl (by simp [uninitMoveLoop])⟩
  | cons x rest ih =>
    intro done moved hm
    have hr := read_mid
      (b := spre ++ moved.map Slot.live ++ (x :: rest).map Slot.live ++ spost)
      (p := spre.length + done.length) (spre ++ moved.map Slot.live)
      (rest.map Slot.live ++ spost) x (by simp) (by simp [hm])
    by_cases hx : (!E.is_nothrow_move_constructible && E.moveThrows x) = true
    · refine ⟨moved ++ x :: rest, by simp [hm], Or.inr ?_⟩
      have hd := destroy_n_map done dpre
        (List.replicate (rest.length + 1) Slot.raw ++ dpost)
      rw [List.length_cons, uninitMoveLoop, hr]
      simp only [List.append_assoc] at hd ⊢
      simp only [hx, if_true, hd]
      simp [List.replicate_add, List.append_assoc]
    · have hs : (spre ++ moved.map Slot.live ++ (x :: rest).map Slot.live
          ++ spost).set (spre.length + done.length) (Slot.live (E.movedFrom x))
          = spre ++ (moved ++ [E.movedFrom x]).map Slot.live ++ rest.map Slot.live ++ spost := by
        have := set_mid (spre ++ moved.map Slot.live)
          (rest.map Slot.live ++ spost) (Slot.live x) (Slot.live (E.movedFrom x))
        simp only [List.length_append, List.length_map, List.append_assoc, List.map_append,
          List.map_cons, List.map_nil, List.cons_append, List.nil_append,
          List.singleton_append, hm] at this ⊢
        exact this
      have hc := construct_at_mid
        (b := dpre ++ done.map Slot.live ++ List.replicate (rest.length + 1) Slot.raw ++ dpost)
        (p := dpre.length + done.length) (dpre ++ done.map Slot.live)
        (List.replicate rest.length Slot.raw ++ dpost) Slot.raw x
        (by simp [List.replicate_succ]) (by simp)
      obtain ⟨ys, hys, ih2⟩ := ih (done ++ [x]) (moved ++ [E.movedFrom x]) (by simp [hm])
      refine ⟨ys, by simp at hys ⊢; omega, ?_⟩
      rw [List.length_cons, uninitMoveLoop, hr]
      simp only [hx, hc, hs]
      simp only [List.append_assoc, List.singleton_append, List.length_append,
        List.length_singleton, List.map_append, List.map_cons, List.map_nil,
        List.cons_append, List.nil_append, List.length_cons] at ih2 ⊢
      have e1 : done.length + (rest.length + 1) = done.length + 1 + rest.length := by omega
      rw [e1]
      exact ih2

theorem CopyMove_total {T : Type} (E : Env T) (spre spost dpre dpost : Buf T) (xs : List T) :
    ∃ ys : List T, ys.length = xs.length ∧
      (CopyMove E (spre ++ xs.map Slot.live ++ spost) spre.length xs.length
          (dpre ++ List.replicate xs.length Slot.raw ++ dpost) dpre.length
        = .done (spre ++ ys.map Slot.live ++ spost, dpre ++ xs.map Slot.live ++ dpost) ∨
       CopyMove E (spre ++ xs.map Slot.live ++ spost) spre.length xs.length
          (dpre ++ List.replicate xs.length Slot.raw ++ dpost) dpre.length
        = .threw (spre ++ ys.map Slot.live ++ spost,
            dpre ++ List.replicate xs.length Slot.raw ++ dpost)) := by
  by_cases hpol : (E.is_nothrow_move_constructible || !E.is_copy_constructible) = true
  · obtain ⟨ys, hys, h⟩ := uninitMoveLoop_total E spre spost dpre dpost xs [] [] rfl
    refine ⟨ys, by simpa using hys, ?_⟩
    simp only [List.map_nil, List.append_nil, List.nil_append, List.length_nil,
      Nat.zero_add] at h
    simp only [CopyMove, hpol, if_true, uninitialized_move_n]
    exact h
  · refine ⟨xs, rfl, ?_⟩
    have h := uninitCopyLoop_total E spre spost dpre dpost xs []
    simp only [List.map_nil, List.append_nil, List.nil_append, List.length_nil,
      Nat.zero_add] at h
    simp only [CopyMove, hpol, uninitialized_copy_n]
    rcases h with h | h
    · left; rw [h]; simp
    · right; rw [h]; simp

/-! ## Lemmas: the representation invariant, operation by operation -/

theorem canon_valid {T : Type} (es : List T) (k : Nat) (rest : Buf T) :
    (Vector.canon es k rest).Valid := by
  simp [Vector.canon, Vector.Valid]; omega

theorem canon_holds {T : Type} (es : List T) (k : Nat) (rest : Buf T) :
    (Vector.canon es k rest).Holds es :=
  holds_of_append es (List.replicate k Slot.raw ++ rest) rfl (by simp [Vector.canon])

theorem Vector.Inv.valid {T : Type} {v : Vector T} (h : v.Inv) : v.Valid := by
  obtain ⟨es, k, rest, rfl⟩ := h
  exact canon_valid es k rest

theorem Vector.Inv.holds {T : Type} {v : Vector T} (h : v.Inv) : ∃ es, v.Holds es := by
  obtain ⟨es, k, rest, rfl⟩ := h
  exact ⟨es, canon_holds es k rest⟩

theorem canon_eq {T : Type} (es : List T) (k : Nat) (rest : Buf T) (b : Buf T) (dc c n : Nat)
    (hb : b = es.map Slot.live ++ List.replicate k Slot.raw ++ rest)
    (hdc : dc = es.length + k + rest.length) (hc : c = es.length + k) (hn : n = es.length) :
    ({ data_ := { buffer_ := b, capacity_ := dc }, capacity_ := c, size_ := n } : Vector T)
      = Vector.canon es k rest := by
  subst hb hdc hc hn; rfl

theorem inv_of {T : Type} (es : List T) (k : Nat) (rest : Buf T) (b : Buf T) (dc c n : Nat)
    (hb : b = es.map Slot.live ++ List.replicate k Slot.raw ++ rest)
    (hdc : dc = es.length + k + rest.length) (hc : c = es.length + k) (hn : n = es.length) :
    ({ data_ := { buffer_ := b, capacity_ := dc }, capacity_ := c, size_ := n } : Vector T).Inv :=
  ⟨es, k, rest, canon_eq es k rest b dc c n hb hdc hc hn⟩

theorem EmplaceBack_inv {T : Type} (E : Env T) (v s : Vector T) (a : Init T) (hv : v.Inv)
    (hfit : E.fits (max 1 (2 * v.capacity_)))
    (h : (v.EmplaceBack E a).after = some s) : s.Inv := by
  obtain ⟨es, k, rest, rfl⟩ := hv
  cases k with
  | zero =>
    obtain ⟨c, hc⟩ : ∃ c, c = (if es.length = 0 then 1 else es.length * 2) := ⟨_, rfl⟩
    have hcap : es.length < c := by rw [hc]; split <;> omega
    have hne : c ≠ 0 := by omega
    have hfc : E.fits c := by
      refine Env.fits_mono hfit ?_
      simp only [Vector.canon, Nat.add_zero]
      rw [hc]; split <;> omega
    simp only [Vector.EmplaceBack, Vector.canon, Nat.add_zero, if_true, ← hc,
      create_of_fits E c hfc, RawMemory.add, RawMemory.GetAddress,
      List.replicate_zero, List.append_nil, ne_eq, hne, not_false_eq_true, true_and] at h
    have hle := Nat.le_of_lt hcap
    cases hal : E.newThrows (c * E.sizeof_T)
    · simp only [hal, Bool.false_eq_true, if_false, hle, if_true] at h
      cases hx : E.construct a with
      | none =>
        simp only [hx, Outcome.after, Option.some.injEq] at h
        subst h
        exact inv_of es 0 rest _ _ _ _ (by simp) (by simp) (by simp) rfl
      | some x =>
        have hca := construct_at_mid (b := List.replicate c (Slot.raw : Slot T))
          (p := es.length) (List.replicate es.length Slot.raw)
          (List.replicate (c - es.length - 1) Slot.raw) Slot.raw x
          (replicate_split _ _ _ hcap) (by simp)
        obtain ⟨ys, hys, hcm⟩ := CopyMove_total E [] rest []
          (Slot.live x :: List.replicate (c - es.length - 1) Slot.raw) es
        have hd := destroy_n_map ys [] rest
        simp only [List.nil_append, List.length_nil] at hcm hd
        rw [hys] at hd
        simp only [hx, hca] at h
        rcases hcm with hcm | hcm
        · simp only [hcm, hd, RawMemory.Swap, Outcome.after, Option.some.injEq] at h
          subst h
          exact inv_of (es ++ [x]) (c - es.length - 1) [] _ _ _ _ (by simp) (by simp; omega)
            (by simp; omega) (by simp)
        · simp only [hcm, Outcome.after, Option.some.injEq] at h
          subst h
          exact inv_of ys 0 rest _ _ _ _ (by simp) (by simp [hys]) (by simp [hys]) hys.symm
    · simp only [hal, if_true, Outcome.after, Option.some.injEq] at h
      subst h
      exact inv_of es 0 rest _ _ _ _ (by simp) (by simp) (by simp) rfl
  | succ k =>
    have hne : ¬ es.length = es.length + (k + 1) := by omega
    have hle : es.length ≤ es.length + (k + 1) + rest.length := by omega
    simp only [Vector.EmplaceBack, Vector.canon, hne, if_false, RawMemory.add, if_pos hle] at h
    cases hx : E.construct a with
    | none =>
      simp only [hx, Outcome.after, Option.some.injEq] at h
      subst h
      exact inv_of es (k + 1) rest _ _ _ _ rfl rfl rfl rfl
    | some x =>
      have hca := construct_at_mid
        (b := es.map Slot.live ++ List.replicate (k + 1) Slot.raw ++ rest)
        (p := es.length) (es.map Slot.live) (List.replicate k Slot.raw ++ rest) Slot.raw x
        (by simp [List.replicate_succ]) (by simp)
      simp only [hx, hca, Outcome.after, Option.some.injEq] at h
      subst h
      exact inv_of (es ++ [x]) k rest _ _ _ _ (by simp) (by simp; omega) (by simp; omega)
        (by simp)

theorem Reserve_inv {T : Type} (E : Env T) (v s : Vector T) (n : Nat) (hv : v.Inv)
    (hfit : E.fits n) (h : (v.Reserve E n).after = some s) : s.Inv := by
  obtain ⟨es, k, rest, rfl⟩ := hv
  by_cases hn : n ≤ es.length + k
  · simp only [Vector.Reserve, Vector.canon, hn, if_true, Outcome.after,
      Option.some.injEq] at h
    subst h
    exact ⟨es, k, rest, rfl⟩
  · have hne : n ≠ 0 := by omega
    simp only [Vector.Reserve, Vector.canon, hn, if_false, create_of_fits E n hfit,
      RawMemory.GetAddress, ne_eq, hne, not_false_eq_true, true_and] at h
    cases hal : E.newThrows (n * E.sizeof_T)
    · obtain ⟨ys, hys, hcm⟩ := CopyMove_total E [] (List.replicate k Slot.raw ++ rest) []
        (List.replicate (n - es.length) Slot.raw) es
      have hd := destroy_n_map ys [] (List.replicate k Slot.raw ++ rest)
      have hrep : List.replicate n (Slot.raw : Slot T)
          = List.replicate es.length Slot.raw ++ List.replicate (n - es.length) Slot.raw := by
        rw [← List.replicate_add]; congr 1; omega
      simp only [List.nil_append, List.length_nil, List.append_assoc] at hcm hd
      rw [hys] at hd
      simp only [hal, Bool.false_eq_true, if_false, hrep, List.append_assoc] at h
      rcases hcm with hcm | hcm
      · simp only [hcm, hd, RawMemory.Swap, Outcome.after, Option.some.injEq] at h
        subst h
        exact inv_of es (n - es.length) [] _ _ _ _ (by simp) (by simp; omega) (by omega) rfl
      · simp only [hcm, Outcome.after, Option.some.injEq] at h
        subst h
        exact inv_of ys k rest _ _ _ _ (by simp) (by simp [hys]) (by simp [hys]) hys.symm
    · simp only [hal, if_true, Outcome.after, Option.some.injEq] at h
      subst h
      exact ⟨es, k, rest, rfl⟩

theorem PopBack_inv {T : Type} (v s : Vector T) (hv : v.Inv) (hp : 0 < v.size_)
    (h : (v.PopBack).after = some s) : s.Inv := by
  obtain ⟨es, k, rest, rfl⟩ := hv
  rcases List.eq_nil_or_concat es with rfl | ⟨init, last, hes⟩
  · simp [Vector.canon] at hp
  · rw [List.concat_eq_append] at hes
    subst hes
    have hss := size_sub_one (a := (init ++ [last]).length) (by simp)
    have hl : (init ++ [last]).length - 1 = init.length := by simp
    have hd := destroy_at_mid
      (b := (init ++ [last]).map Slot.live ++ List.replicate k Slot.raw ++ rest)
      (p := init.length) (init.map Slot.live) (List.replicate k Slot.raw ++ rest) last
      (by simp) (by simp)
    have hle : init.length ≤ (init ++ [last]).length + k + rest.length := by simp; omega
    simp only [Vector.PopBack, Vector.canon, hss, hl, RawMemory.add, hle, if_true, hd,
      Outcome.after, Option.some.injEq] at h
    subst h
    exact inv_of init (k + 1) rest _ _ _ _ (by simp [List.replicate_succ]) (by simp; omega)
      (by simp; omega) rfl

theorem valueConstructLoop_some {T : Type} (E : Env T) (x : T) (hx : E.valueInit = some x)
    (pre post : Buf T) (n : Nat) : ∀ (k : Nat),
    valueConstructLoop E pre.length n k
        (pre ++ List.replicate k (Slot.live x) ++ List.replicate n Slot.raw ++ post)
      = .done (pre ++ List.replicate (k + n) (Slot.live x) ++ post) := by
  induction n with
  | zero => intro k; simp [valueConstructLoop]
  | succ n ih =>
    intro k
    have hc := construct_at_mid
      (b := pre ++ List.replicate k (Slot.live x) ++ List.replicate (n + 1) Slot.raw ++ post)
      (p := pre.length + k) (pre ++ List.replicate k (Slot.live x))
      (List.replicate n Slot.raw ++ post) Slot.raw x (by simp [List.replicate_succ]) (by simp)
    have ih2 := ih (k + 1)
    have e1 : pre ++ List.replicate k (Slot.live x) ++ Slot.live x
        :: (List.replicate n Slot.raw ++ post)
        = pre ++ List.replicate (k + 1) (Slot.live x) ++ List.replicate n Slot.raw ++ post := by
      simp [List.replicate_succ', List.append_assoc]
    rw [valueConstructLoop]
    simp only [hx, hc, e1, ih2]
    have e2 : k + 1 + n = k + (n + 1) := by omega
    rw [e2]

theorem value_construct_total {T : Type} (E : Env T) (pre post : Buf T) (n : Nat) :
    (∃ x, E.valueInit = some x ∧
      uninitialized_value_construct_n E (pre ++ List.replicate n Slot.raw ++ post) pre.length n
        = .done (pre ++ List.replicate n (Slot.live x) ++ post)) ∨
    (n = 0 ∧ uninitialized_value_construct_n E (pre ++ List.replicate n Slot.raw ++ post)
        pre.length n = .done (pre ++ List.replicate n Slot.raw ++ post)) ∨
    uninitialized_value_construct_n E (pre ++ List.replicate n Slot.raw ++ post) pre.length n
        = .threw (pre ++ List.replicate n Slot.raw ++ post) := by
  cases hx : E.valueInit with
  | some x =>
    left
    have := valueConstructLoop_some E x hx pre post n 0
    simp only [List.replicate_zero, List.append_nil, Nat.zero_add] at this
    exact ⟨x, rfl, this⟩
  | none =>
    right
    cases n with
    | zero => left; exact ⟨rfl, by simp [uninitialized_value_construct_n, valueConstructLoop]⟩
    | succ n =>
      right
      simp [uninitialized_value_construct_n, valueConstructLoop, hx, destroy_n]

theorem sized_inv {T : Type} (E : Env T) (n : Nat) (v : Vector T) (fr : List (Buf T))
    (hfit : E.fits n) (h : Vector.sized E n = .ok () v fr) : v.Inv := by
  simp only [Vector.sized, create_of_fits E n hfit, RawMemory.GetAddress] at h
  by_cases hal : n ≠ 0 ∧ E.newThrows (n * E.sizeof_T) = true
  · rw [if_pos hal] at h
    simp at h
  · rw [if_neg hal] at h
    have ht := value_construct_total E [] [] n
    simp only [List.nil_append, List.append_nil, List.length_nil] at ht
    rcases ht with ⟨x, -, ht⟩ | ⟨hn, ht⟩ | ht
    · simp only [ht, Outcome.ok.injEq, true_and] at h
      obtain ⟨h, -⟩ := h
      subst h
      exact inv_of (List.replicate n x) 0 [] _ _ _ _ (by simp) (by simp) (by simp)
        (by simp)
    · subst hn
      simp only [ht, Outcome.ok.injEq, true_and] at h
      obtain ⟨h, -⟩ := h
      subst h
      exact inv_of [] 0 [] _ _ _ _ (by simp) (by simp) (by simp) (by simp)
    · simp [ht] at h

theorem copy_inv {T : Type} (E : Env T) (o v : Vector T) (fr : List (Buf T)) (ho : o.Inv)
    (hfit : E.fits o.size_) (h : Vector.copy E o = .ok () v fr) : v.Inv := by
  obtain ⟨es, k, rest, rfl⟩ := ho
  have hfe : E.fits es.length := hfit
  simp only [Vector.copy, Vector.canon, create_of_fits E es.length hfe, RawMemory.GetAddress,
    uninitialized_copy_n, List.append_assoc] at h
  by_cases hal : es.length ≠ 0 ∧ E.newThrows (es.length * E.sizeof_T) = true
  · rw [if_pos hal] at h
    simp at h
  · rw [if_neg hal] at h
    have ht := uninitCopyLoop_total E [] (List.replicate k Slot.raw ++ rest) [] [] es []
    simp only [List.nil_append, List.append_nil, List.length_nil, List.map_nil,
      Nat.zero_add, List.append_assoc] at ht
    rcases ht with ht | ht
    · simp only [ht, Outcome.ok.injEq, true_and] at h
      obtain ⟨h, -⟩ := h
      subst h
      exact inv_of es 0 [] _ _ _ _ (by simp) (by simp) (by simp) rfl
    · simp [ht] at h

theorem moveCtor_inv {T : Type} (i : Vector T) (hi : i.Inv) :
    (Vector.moveCtor i).1.Inv ∧ (Vector.moveCtor i).2.Inv := by
  obtain ⟨es, k, rest, rfl⟩ := hi
  exact ⟨⟨es, k, rest, rfl⟩, ⟨[], 0, [], rfl⟩⟩

theorem moveAssign_inv {T : Type} (v i : Vector T) (hv : v.Inv) (hi : i.Inv) :
    (v.moveAssign i).1.Inv ∧ (v.moveAssign i).2.Inv := by
  obtain ⟨es, k, rest, rfl⟩ := hi
  obtain ⟨es2, k2, rest2, rfl⟩ := hv
  refine ⟨⟨es, k, rest, rfl⟩, ?_⟩
  exact inv_of [] 0 (es2.map Slot.live ++ List.replicate k2 Slot.raw ++ rest2) _ _ _ _
    (by simp [Vector.moveAssign, RawMemory.moveAssign, Vector.canon])
    (by simp [Vector.moveAssign, RawMemory.moveAssign, Vector.canon]; omega) rfl rfl

theorem Swap_inv {T : Type} (v i : Vector T) (hv : v.Inv) (hi : i.Inv) :
    (v.Swap i).1.Inv ∧ (v.Swap i).2.Inv := by
  obtain ⟨es, k, rest, rfl⟩ := hi
  obtain ⟨es2, k2, rest2, rfl⟩ := hv
  exact ⟨⟨es, k, rest, rfl⟩, ⟨es2, k2, rest2, rfl⟩⟩

theorem moveLoop_total {T : Type} (E : Env T) (post : Buf T) (xs : List T) :
    ∀ (pre : Buf T) (x : T),
    (∃ y : T, moveLoop E xs.length (pre.length + 1) pre.length
        (pre ++ Slot.live x :: (xs.map Slot.live ++ post))
      = .done (pre ++ xs.map Slot.live ++ Slot.live y :: post)) ∨
    (∃ zs : List T, zs.length = xs.length + 1 ∧
      moveLoop E xs.length (pre.length + 1) pre.length
        (pre ++ Slot.live x :: (xs.map Slot.live ++ post))
      = .threw (pre ++ zs.map Slot.live ++ post)) := by
  induction xs with
  | nil => intro pre x; exact Or.inl ⟨x, by simp [moveLoop]⟩
  | cons x1 rest ih =>
    intro pre x
    have hsrc := read_mid (b := pre ++ Slot.live x :: ((x1 :: rest).map Slot.live ++ post))
      (p := pre.length + 1) (pre ++ [Slot.live x]) (rest.map Slot.live ++ post) x1
      (by simp) (by simp)
    have hdst := read_mid (b := pre ++ Slot.live x :: ((x1 :: rest).map Slot.live ++ post))
      (p := pre.length) pre ((x1 :: rest).map Slot.live ++ post) x rfl rfl
    by_cases hx1 : E.moveAssignThrows x1 = true
    · right
      refine ⟨x :: x1 :: rest, by simp, ?_⟩
      rw [List.length_cons, moveLoop, move_assign, hsrc, hdst]
      simp [hx1]
    · have hset : ((pre ++ Slot.live x :: ((x1 :: rest).map Slot.live ++ post)).set pre.length
          (Slot.live x1)).set (pre.length + 1) (Slot.live (E.movedFrom x1))
          = (pre ++ [Slot.live x1]) ++ Slot.live (E.movedFrom x1)
              :: (rest.map Slot.live ++ post) := by
        rw [set_mid]
        have := set_mid (pre ++ [Slot.live x1]) (rest.map Slot.live ++ post) (Slot.live x1)
          (Slot.live (E.movedFrom x1))
        simp
      have hstep : moveLoop E (x1 :: rest).length (pre.length + 1) pre.length
          (pre ++ Slot.live x :: ((x1 :: rest).map Slot.live ++ post))
          = moveLoop E rest.length ((pre ++ [Slot.live x1]).length + 1)
              (pre ++ [Slot.live x1]).length
              ((pre ++ [Slot.live x1]) ++ Slot.live (E.movedFrom x1)
                :: (rest.map Slot.live ++ post)) := by
        rw [List.length_cons, moveLoop, move_assign, hsrc, hdst]
        simp only [hx1, Bool.false_eq_true, if_false, hset]
        simp
      rw [hstep]
      rcases ih (pre ++ [Slot.live x1]) (E.movedFrom x1) with ⟨y, hy⟩ | ⟨zs, hzs, hz⟩
      · left
        exact ⟨y, by rw [hy]; simp⟩
      · right
        exact ⟨x1 :: zs, by simp [hzs], by rw [hz]; simp⟩

theorem Erase_inv {T : Type} (E : Env T) (v s : Vector T) (pos : Nat) (hv : v.Inv)
    (hp : v.begin ≤ pos ∧ pos < v.end) (h : (v.Erase E pos).after = some s) : s.Inv := by
  obtain ⟨es, k, rest, rfl⟩ := hv
  have hpos : pos < es.length := by
    simpa [Vector.begin, Vector.end, RawMemory.GetAddress, Vector.canon] using hp.2
  have hsplit : es = es.take pos ++ es[pos] :: es.drop (pos + 1) := by
    rw [← List.drop_eq_getElem_cons hpos, List.take_append_drop]
  obtain ⟨A, x, B, hes, hA⟩ : ∃ A x B, es = A ++ x :: B ∧ A.length = pos :=
    ⟨_, _, _, hsplit, by simp; omega⟩
  subst hes hA
  have hss := size_sub_one (a := (A ++ x :: B).length) (by simp; omega)
  have ha : A.length ≤ (A ++ x :: B).length + k + rest.length := by simp; omega
  have hl : (A ++ x :: B).length ≤ (A ++ x :: B).length + k + rest.length := by omega
  have hdist : distance (A.length + 1) (A ++ x :: B).length = .ok B.length := by
    simp [distance]; omega
  have hps : ptr_sub (A ++ x :: B).length 1 = .ok ((A ++ x :: B).length - 1) := by
    simp [ptr_sub]
  simp only [Vector.Erase, Vector.begin, RawMemory.GetAddress, Nat.sub_zero, Vector.canon,
    RawMemory.add, if_pos ha, if_pos hl, move_range, hdist, hps, hss] at h
  have hb : (A ++ x :: B).map Slot.live ++ List.replicate k Slot.raw ++ rest
      = A.map Slot.live ++ Slot.live x :: (B.map Slot.live
          ++ (List.replicate k Slot.raw ++ rest)) := by simp
  rw [hb] at h
  rcases moveLoop_total E (List.replicate k Slot.raw ++ rest) B (A.map Slot.live) x with
    ⟨y, hy⟩ | ⟨zs, hzs, hz⟩
  · simp only [List.length_map] at hy
    have hd := destroy_at_mid
      (b := A.map Slot.live ++ B.map Slot.live ++ Slot.live y
        :: (List.replicate k Slot.raw ++ rest))
      (p := (A ++ x :: B).length - 1) (A.map Slot.live ++ B.map Slot.live)
      (List.replicate k Slot.raw ++ rest) y rfl (by simp)
    rw [hy] at h
    simp only [hd, Outcome.after, Option.some.injEq] at h
    subst h
    exact inv_of (A ++ B) (k + 1) rest _ _ _ _ (by simp [List.replicate_succ])
      (by simp; omega) (by simp; omega) (by simp)
  · simp only [List.length_map] at hz
    rw [hz] at h
    simp only [Outcome.after, Option.some.injEq] at h
    subst h
    exact inv_of (A ++ zs) k rest _ _ _ _ (by simp) (by simp [hzs])
      (by simp [hzs]) (by simp [hzs])

theorem resizeDestroyLoop_map {T : Type} (cap : Nat) (xs : List T) (post : Buf T) :
    ∀ (pre : Buf T), pre.length + xs.length ≤ cap →
    resizeDestroyLoop cap xs.length pre.length (pre ++ xs.map Slot.live ++ post)
      = .ok (pre ++ List.replicate xs.length Slot.raw ++ post) := by
  induction xs with
  | nil => intro pre _; simp [resizeDestroyLoop]
  | cons x xs ih =>
    intro pre hle
    have hd := destroy_at_mid (b := pre ++ (x :: xs).map Slot.live ++ post) (p := pre.length)
      pre (xs.map Slot.live ++ post) x (by simp) rfl
    have ih2 := ih (pre ++ [Slot.raw]) (by simp at hle ⊢; omega)
    simp only [List.length_append, List.length_singleton, List.append_assoc,
      List.singleton_append] at ih2
    have hc : pre.length ≤ cap := by omega
    rw [List.length_cons, resizeDestroyLoop]
    simp only [RawMemory.add, hc, if_true, hd]
    simp only [List.append_assoc, List.cons_append] at ih2 ⊢
    rw [ih2]
    simp [List.replicate_succ]

theorem size_sub_le {a b : Nat} (h : b ≤ a) : size_sub a b = a - b := by
  simp [size_sub, h]

theorem Resize_inv {T : Type} (E : Env T) (v s : Vector T) (n : Nat) (hv : v.Inv)
    (hfit : E.fits n) (h : (v.Resize E n).after = some s) : s.Inv := by
  by_cases h1 : n = v.size_
  · simp only [Vector.Resize, h1, if_true, Outcome.after, Option.some.injEq] at h
    subst h; exact hv
  · by_cases h2 : n < v.size_
    · obtain ⟨es, k, rest, rfl⟩ := hv
      have hn : n < es.length := h2
      obtain ⟨A, B, hes, hA⟩ : ∃ A B, es = A ++ B ∧ A.length = n :=
        ⟨es.take n, es.drop n, (List.take_append_drop n es).symm, by simp; omega⟩
      subst hes hA
      have hl := resizeDestroyLoop_map ((A ++ B).length + k + rest.length) B
        (List.replicate k Slot.raw ++ rest) (A.map Slot.live) (by simp; omega)
      have hsub : (A ++ B).length - A.length = B.length := by simp
      have hne : ¬ A.length = (A ++ B).length := by omega
      simp only [List.length_map] at hl
      simp only [Vector.Resize, Vector.canon, hne, if_false, hn, if_true, hsub,
        List.map_append, List.append_assoc] at h
      simp only [List.append_assoc] at hl
      simp only [hl, Outcome.after, Option.some.injEq] at h
      subst h
      exact inv_of A (B.length + k) rest _ _ _ _
        (by rw [List.replicate_add]; simp only [List.append_assoc])
        (by simp; omega) (by simp; omega) rfl
    · simp only [Vector.Resize, h1, h2, if_false] at h
      cases hr : v.Reserve E n with
      | ub f => simp [hr, Outcome.after] at h
      | throw e s1 fr =>
        simp only [hr, Outcome.after, Option.some.injEq] at h
        subst h
        exact Reserve_inv E v s1 n hv hfit (by rw [hr]; rfl)
      | ok s1 u fr =>
        have hf := Reserve_ok_fields E v s1 n u fr hr
        obtain ⟨es, k, rest, rfl⟩ := Reserve_inv E v s1 n hv hfit (by rw [hr]; rfl)
        have hlt : es.length < n := by
          have : (Vector.canon es k rest).size_ = es.length := rfl
          omega
        have hcap : n ≤ es.length + k := hf.2
        have hle : es.length ≤ es.length + k + rest.length := by omega
        have hrep : List.replicate k (Slot.raw : Slot T)
            = List.replicate (n - es.length) Slot.raw
              ++ List.replicate (k - (n - es.length)) Slot.raw := by
          rw [← List.replicate_add]; congr 1; omega
        have ht := value_construct_total E (es.map Slot.live)
          (List.replicate (k - (n - es.length)) Slot.raw ++ rest) (n - es.length)
        simp only [List.length_map, List.append_assoc] at ht
        simp only [hr, Vector.canon, RawMemory.add, hle, if_true,
          size_sub_le (Nat.le_of_lt hlt)] at h
        rw [hrep] at h
        simp only [List.append_assoc] at h
        rcases ht with ⟨x, -, ht⟩ | ⟨hn, -⟩ | ht
        · simp only [ht, Outcome.after, Option.some.injEq] at h
          subst h
          exact inv_of (es ++ List.replicate (n - es.length) x) (k - (n - es.length)) rest
            _ _ _ _ (by simp) (by simp; omega) (by simp; omega) (by simp; omega)
        · omega
        · simp only [ht, Outcome.after, Option.some.injEq] at h
          subst h
          exact inv_of es k rest _ _ _ _ (by rw [hrep]; simp only [List.append_assoc])
            rfl rfl rfl

theorem emplaceGrow_inv {T : Type} (E : Env T) (v s : Vector T) (p : Nat) (a : Init T)
    (hv : v.Inv) (hfit : E.fits (max 1 (2 * v.capacity_)))
    (hg : v.size_ + 1 > v.capacity_) (hp : p ≤ v.size_)
    (h : (v.emplaceGrow E p a).after = some s) : s.Inv := by
  obtain ⟨es, k, rest, rfl⟩ := hv
  have hk : k = 0 := by
    have : es.length + 1 > es.length + k := hg
    omega
  subst hk
  have hpl : p ≤ es.length := hp
  obtain ⟨A, B, hes, hA⟩ : ∃ A B, es = A ++ B ∧ A.length = p :=
    ⟨es.take p, es.drop p, (List.take_append_drop p es).symm, by simp; omega⟩
  subst hes hA
  obtain ⟨c, hc⟩ : ∃ c, c = (if (A ++ B).length = 0 then 1 else (A ++ B).length * 2) :=
    ⟨_, rfl⟩
  have hcap : (A ++ B).length < c := by rw [hc]; split <;> omega
  have hlen : (A ++ B).length = A.length + B.length := by simp
  have hne : c ≠ 0 := by omega
  have hle : A.length ≤ c := by omega
  have hfc : E.fits c := by
    refine Env.fits_mono hfit ?_
    simp only [Vector.canon, Nat.add_zero]
    rw [hc]; split <;> omega
  simp only [Vector.emplaceGrow, Vector.canon, Nat.add_zero, ← hc, create_of_fits E c hfc,
    RawMemory.add, RawMemory.GetAddress, List.replicate_zero, List.append_nil,
    ne_eq, hne, not_false_eq_true, true_and] at h
  simp only [hlen] at h hcap
  cases hal : E.newThrows (c * E.sizeof_T)
  · simp only [hal, Bool.false_eq_true, if_false, hle, if_true] at h
    cases hx : E.construct a with
    | none =>
      simp only [hx, Outcome.after, Option.some.injEq] at h
      subst h
      exact inv_of (A ++ B) 0 rest _ _ _ _ (by simp) (by simp) (by simp) (by simp)
    | some x =>
      have hca := construct_at_mid (b := List.replicate c (Slot.raw : Slot T))
        (p := A.length) (List.replicate A.length Slot.raw)
        (List.replicate (c - A.length - 1) Slot.raw) Slot.raw x
        (replicate_split _ _ _ (by omega)) (by simp)
      obtain ⟨ys, hys, hcm⟩ := CopyMove_total E [] (B.map Slot.live ++ rest) []
        (Slot.live x :: List.replicate (c - A.length - 1) Slot.raw) A
      simp only [List.nil_append, List.length_nil] at hcm
      simp only [hx, hca, List.map_append, List.append_assoc] at h
      rcases hcm with hcm | hcm
      · have hrep : List.replicate (c - A.length - 1) (Slot.raw : Slot T)
            = List.replicate B.length Slot.raw
              ++ List.replicate (c - (A.length + B.length) - 1) Slot.raw := by
          rw [← List.replicate_add]; congr 1; omega
        obtain ⟨zs, hzs, hcm2⟩ := CopyMove_total E (ys.map Slot.live) rest
          (A.map Slot.live ++ [Slot.live x])
          (List.replicate (c - (A.length + B.length) - 1) Slot.raw) B
        have hd := destroy_n_map (ys ++ zs) [] rest
        have hle2 : A.length ≤ A.length + B.length + rest.length := by omega
        have hss : size_sub (A.length + B.length) A.length = B.length := by
          rw [size_sub_le (by omega)]; omega
        simp only [List.length_append, List.length_map, List.length_singleton, hys,
          List.append_assoc, List.singleton_append, List.cons_append, List.nil_append] at hcm2
        simp only [List.nil_append, List.length_nil, List.map_append, List.length_append,
          hys, hzs, List.append_assoc] at hd
        simp only [hcm, hle2, if_true, hle, hss] at h
        rw [hrep] at h
        rcases hcm2 with hcm2 | hcm2
        · simp only [hcm2, hd, RawMemory.Swap, hle, if_true, Outcome.after,
            Option.some.injEq] at h
          subst h
          exact inv_of (A ++ x :: B) (c - (A.length + B.length) - 1) [] _ _ _ _ (by simp)
            (by simp; omega) (by simp; omega) (by simp; omega)
        · simp only [hcm2, Outcome.after, Option.some.injEq] at h
          subst h
          exact inv_of (ys ++ zs) 0 rest _ _ _ _ (by simp) (by simp [hys, hzs])
            (by simp [hys, hzs]) (by simp [hys, hzs])
      · simp only [hcm, Outcome.after, Option.some.injEq] at h
        subst h
        exact inv_of (ys ++ B) 0 rest _ _ _ _ (by simp) (by simp [hys]) (by simp [hys])
          (by simp [hys])
  · simp only [hal, if_true, Outcome.after, Option.some.injEq] at h
    subst h
    exact inv_of (A ++ B) 0 rest _ _ _ _ (by simp) (by simp) (by simp) (by simp)

/-- Every `Emplace` before `end()` into a vector with spare room whose slot
`size_` is raw has undefined behaviour: line 208 move-constructs the slot at
`end()` from `data_[size_]`, which is that same uninitialised slot. -/
theorem emplace_in_place_undefined {T : Type} (E : Env T) (v : Vector T) (pos : Nat)
    (args : Init T) (hpos : pos ≠ v.end) (hroom : v.size_ < v.capacity_)
    (hcap : v.capacity_ ≤ v.data_.capacity_)
    (hraw : v.data_.buffer_[v.size_]? = some Slot.raw) :
    v.Emplace E pos args = .ub (.notLive v.size_) := by
  have h1 : ¬ (v.size_ + 1 > v.capacity_) := by omega
  have h2 : v.size_ < v.data_.capacity_ := by omega
  simp [Vector.Emplace, hpos, h1, Vector.emplaceInPlace, RawMemory.index, h2, move_construct,
    Buf.read, hraw]
theorem Emplace_inv {T : Type} (E : Env T) (v s : Vector T) (pos : Nat) (a : Init T)
    (hv : v.Inv) (hfit : E.fits (max 1 (2 * v.capacity_)))
    (hp : v.begin ≤ pos ∧ pos ≤ v.end)
    (h : (v.Emplace E pos a).after = some s) : s.Inv := by
  by_cases hpos : pos = v.end
  · simp only [Vector.Emplace, hpos, if_true] at h
    exact EmplaceBack_inv E v s a hv hfit h
  · by_cases hg : v.size_ + 1 > v.capacity_
    · simp only [Vector.Emplace, hpos, if_false, hg, if_true] at h
      refine emplaceGrow_inv E v s _ a hv hfit hg ?_ h
      have := hp.2
      simp only [Vector.end, Vector.begin, RawMemory.GetAddress] at this ⊢
      omega
    · exfalso
      have hval := hv.valid
      obtain ⟨es, k, rest, rfl⟩ := hv
      have hk : 1 ≤ k := by
        have : ¬ (es.length + 1 > es.length + k) := hg
        omega
      have hraw : (Vector.canon es k rest).data_.buffer_[(Vector.canon es k rest).size_]?
          = some Slot.raw := by
        have := getElem?_mid (es.map Slot.live) (List.replicate (k - 1) Slot.raw ++ rest)
          (Slot.raw : Slot T)
        have hr : List.replicate k (Slot.raw : Slot T)
            = Slot.raw :: List.replicate (k - 1) Slot.raw := by
          rw [← List.replicate_succ]; congr 1; omega
        simp only [Vector.canon, hr, List.append_assoc, List.cons_append]
        simpa using this
      have hub := emplace_in_place_undefined E (Vector.canon es k rest) pos a hpos
        (by have : ¬ (es.length + 1 > es.length + k) := hg
            show es.length < es.length + k
            omega) hval.2.1 hraw
      rw [hub] at h
      simp [Outcome.after] at h

theorem copyAssignLoop_total {T : Type} (E : Env T) (cap : Nat) (other : RawMemory T)
    (O : List T) (orest srest : Buf T) (hob : other.buffer_ = O.map Slot.live ++ orest)
    (hoc : O.length ≤ other.capacity_) :
    ∀ (n : Nat) (D St : List T), D.length + n ≤ O.length → n ≤ St.length →
      D.length + St.length ≤ cap →
      ∃ zs : List T, zs.length = D.length + St.length ∧
        (copyAssignLoop E cap other n D.length ((D ++ St).map Slot.live ++ srest)
            = .done (zs.map Slot.live ++ srest, D.length + n) ∨
         ∃ j, copyAssignLoop E cap other n D.length ((D ++ St).map Slot.live ++ srest)
            = .threw (zs.map Slot.live ++ srest, j)) := by
  intro n
  induction n with
  | zero =>
    intro D St _ _ _
    exact ⟨D ++ St, by simp, Or.inl (by simp [copyAssignLoop])⟩
  | succ n ih =>
    intro D St h1 h2 h3
    obtain ⟨t, St1, rfl⟩ : ∃ t St1, St = t :: St1 := by
      cases St with
      | nil => simp at h2
      | cons t tl => exact ⟨t, tl, rfl⟩
    have hi : D.length < O.length := by omega
    have hO : O = O.take D.length ++ O[D.length] :: O.drop (D.length + 1) := by
      rw [← List.drop_eq_getElem_cons hi, List.take_append_drop]
    have hro := read_mid (b := other.buffer_) (p := D.length)
      ((O.take D.length).map Slot.live) ((O.drop (D.length + 1)).map Slot.live ++ orest)
      O[D.length]
      (by rw [hob]; conv_lhs => rw [hO]
          simp only [List.map_append, List.map_cons, List.append_assoc, List.cons_append])
      (by simp; omega)
    have hrs := read_mid (b := (D ++ t :: St1).map Slot.live ++ srest) (p := D.length)
      (D.map Slot.live) (St1.map Slot.live ++ srest) t (by simp) (by simp)
    have hset : ((D ++ t :: St1).map Slot.live ++ srest).set D.length (Slot.live O[D.length])
        = ((D ++ [O[D.length]]) ++ St1).map Slot.live ++ srest := by
      have := set_mid (D.map Slot.live) (St1.map Slot.live ++ srest) (Slot.live t)
        (Slot.live O[D.length])
      simp only [List.length_map] at this
      simp
    have hc1 : D.length < other.capacity_ := by omega
    have hc2 : D.length < cap := by simp at h3; omega
    rw [copyAssignLoop]
    simp only [RawMemory.index, hc1, if_true, hc2, hro, hrs]
    by_cases hth : E.copyAssignThrows O[D.length] = true
    · refine ⟨D ++ t :: St1, by simp, Or.inr ⟨D.length, ?_⟩⟩
      simp [hth]
    · obtain ⟨zs, hzs, hz⟩ := ih (D ++ [O[D.length]]) St1 (by simp; omega)
        (by simp at h2; omega) (by simp at h3 ⊢; omega)
      refine ⟨zs, by simp at hzs ⊢; omega, ?_⟩
      simp only [hth, Bool.false_eq_true, if_false, hset]
      simp only [List.length_append, List.length_singleton] at hz
      have e1 : D.length + 1 + n = D.length + (n + 1) := by omega
      rw [e1] at hz
      exact hz

theorem copyAssign_inv {T : Type} (E : Env T) (v o s : Vector T) (hv : v.Inv) (ho : o.Inv)
    (hfit : E.fits o.size_) (h : (v.copyAssign E o).after = some s) : s.Inv := by
  by_cases hc : v.capacity_ < o.capacity_
  · simp only [Vector.copyAssign, hc, if_true] at h
    cases hcp : Vector.copy E o with
    | ub f => simp [hcp, Outcome.after] at h
    | throw e u fr =>
      simp only [hcp, Outcome.after, Option.some.injEq] at h
      subst h; exact hv
    | ok u c fr =>
      have hci := copy_inv E o c fr ho hfit hcp
      simp only [hcp] at h
      cases hdt : (v.Swap c).2.dtor with
      | error f => simp [hdt, Outcome.after] at h
      | ok b =>
        simp only [hdt, Outcome.after, Option.some.injEq] at h
        subst h
        exact (Swap_inv v c hv hci).1
  · obtain ⟨S, k, rest, rfl⟩ := hv
    obtain ⟨O, ko, orest, rfl⟩ := ho
    have hcap : O.length + ko ≤ S.length + k := by
      have : ¬ (S.length + k < O.length + ko) := hc
      omega
    obtain ⟨zs, hzs, hz⟩ := copyAssignLoop_total E (S.length + k + rest.length)
      (Vector.canon O ko orest).data_ O (List.replicate ko Slot.raw ++ orest)
      (List.replicate k Slot.raw ++ rest) (by simp [Vector.canon])
      (by simp [Vector.canon]; omega) (min O.length S.length) [] S
      (by simp) (by simp) (by simp; omega)
    simp only [List.nil_append, List.length_nil, Nat.zero_add] at hz hzs
    simp only [Vector.copyAssign, hc, if_false] at h
    simp only [Vector.canon, RawMemory.GetAddress, Nat.zero_add, List.append_assoc] at h hz
    rcases hz with hz | ⟨j, hz⟩
    · simp only [hz] at h
      by_cases hgt : S.length > O.length
      · have hmin : min O.length S.length = O.length := by omega
        obtain ⟨Z1, Z2, hZ, hZ1⟩ : ∃ Z1 Z2, zs = Z1 ++ Z2 ∧ Z1.length = O.length :=
          ⟨zs.take O.length, zs.drop O.length, (List.take_append_drop _ zs).symm,
            by simp; omega⟩
        subst hZ
        have hZ2 : Z2.length = S.length - O.length := by simp at hzs; omega
        have hd := destroy_n_map Z2 (Z1.map Slot.live) (List.replicate k Slot.raw ++ rest)
        simp only [List.length_map, hZ1, hZ2, List.append_assoc] at hd
        simp only [hgt, if_true, hmin, size_sub_le (Nat.le_of_lt hgt), List.map_append,
          List.append_assoc, hd, Outcome.after, Option.some.injEq] at h
        subst h
        exact inv_of Z1 (S.length - O.length + k) rest _ _ _ _
          (by rw [List.replicate_add]; simp only [List.append_assoc])
          (by simp [hZ1]; omega) (by simp [hZ1]; omega) hZ1.symm
      · have hmin : min O.length S.length = S.length := by omega
        have hle : S.length ≤ O.length := by omega
        simp only [hgt, if_false, hmin, size_sub_le hle] at h
        by_cases heq : O.length = S.length
        · simp only [heq, Nat.sub_self, uninitialized_copy_n_within, uninitCopyWithinLoop,
            Outcome.after, Option.some.injEq] at h
          subst h
          exact inv_of zs k rest _ _ _ _ (by simp) (by simp [hzs]) (by simp [hzs])
            (by simp [hzs, heq])
        · exfalso
          obtain ⟨m, hm⟩ : ∃ m, O.length - S.length = m + 1 := ⟨O.length - S.length - 1, by omega⟩
          obtain ⟨k1, hk1⟩ : ∃ k1, k = k1 + 1 := ⟨k - 1, by omega⟩
          subst hk1
          have hr := read_raw_mid (b := zs.map Slot.live ++ (List.replicate (k1 + 1) Slot.raw
              ++ rest)) (p := S.length + 0) (zs.map Slot.live)
            (List.replicate k1 Slot.raw ++ rest) (by simp [List.replicate_succ])
            (by simp [hzs])
          simp only [hm, uninitialized_copy_n_within, uninitCopyWithinLoop, hr,
            Outcome.after] at h
          simp at h
    · simp only [hz, Outcome.after, Option.some.injEq] at h
      subst h
      exact inv_of zs k rest _ _ _ _ (by simp) (by simp [hzs]) (by simp [hzs]) hzs.symm

theorem call_inv {T : Type} (E : Env T) (v s : Vector T) (c : Call T)
    (hv : v.Inv) (hp : c.pre v) (hf : c.fits E v) (h : (v.call E c).after = some s) :
    s.Inv := by
  cases c with
  | Reserve n => exact Reserve_inv E v s n hv hf h
  | Resize n => exact Resize_inv E v s n hv hf h
  | PushBack x =>
    simp only [Vector.call, PushBack_eq, after_void] at h
    exact EmplaceBack_inv E v s _ hv hf h
  | PushBack_rv x =>
    simp only [Vector.call, PushBack_rv_eq, after_void] at h
    exact EmplaceBack_inv E v s _ hv hf h
  | PopBack => exact PopBack_inv v s hv hp h
  | EmplaceBack a =>
    simp only [Vector.call, after_void] at h
    exact EmplaceBack_inv E v s _ hv hf h
  | Emplace pos a =>
    simp only [Vector.call, after_void] at h
    exact Emplace_inv E v s pos a hv hf hp h
  | Insert pos x =>
    simp only [Vector.call, after_void, Vector.Insert] at h
    exact Emplace_inv E v s pos _ hv hf hp h
  | Insert_rv pos x =>
    simp only [Vector.call, after_void, Vector.Insert_rv] at h
    exact Emplace_inv E v s pos _ hv hf hp h
  | Erase pos =>
    simp only [Vector.call, after_void] at h
    exact Erase_inv E v s pos hv hp h

/-- Every reachable state satisfies the representation invariant. -/
theorem reachable_inv {T : Type} (E : Env T) (v : Vector T) (h : Reachable E v) : v.Inv := by
  induction h with
  | empty => exact ⟨[], 0, [], rfl⟩
  | sized n v fr hf h => exact sized_inv E n v fr hf h
  | copy o v fr _ hf h ih => exact copy_inv E o v fr ih hf h
  | moveCtor_new i _ ih => exact (moveCtor_inv i ih).1
  | moveCtor_src i _ ih => exact (moveCtor_inv i ih).2
  | copyAssign v o s _ _ hf h ihv iho => exact copyAssign_inv E v o s ihv iho hf h
  | moveAssign_dst v i _ _ ihv ihi => exact (moveAssign_inv v i ihv ihi).1
  | moveAssign_src v i _ _ ihv ihi => exact (moveAssign_inv v i ihv ihi).2
  | swap_this v i _ _ ihv ihi => exact (Swap_inv v i ihv ihi).1
  | swap_input v i _ _ ihv ihi => exact (Swap_inv v i ihv ihi).2
  | call v s c _ hp hf h ih => exact call_inv E v s c ih hp hf h

/-- Every reachable vector is consistent and holds some sequence. -/
theorem reachable_valid_holds {T : Type} (E : Env T) (v : Vector T) (h : Reachable E v) :
    v.Valid ∧ ∃ es, v.Holds es :=
  ⟨(reachable_inv E v h).valid, (reachable_inv E v h).holds⟩

/-- In every reachable vector with spare room, every `Emplace` before `end()`
has undefined behaviour: it reads the raw slot `size_`. -/
theorem reachable_emplace_with_room_undefined {T : Type} (E : Env T) (v : Vector T)
    (hr : Reachable E v) (pos : Nat) (args : Init T) (hpos : pos ≠ v.end)
    (hroom : v.size_ < v.capacity_) :
    v.Emplace E pos args = .ub (.notLive v.size_) := by
  have hval := (reachable_inv E v hr).valid
  obtain ⟨es, k, rest, rfl⟩ := reachable_inv E v hr
  have hk : 1 ≤ k := by
    have : es.length < es.length + k := hroom
    omega
  have hraw : (Vector.canon es k rest).data_.buffer_[(Vector.canon es k rest).size_]?
      = some Slot.raw := by
    have := getElem?_mid (es.map Slot.live) (List.replicate (k - 1) Slot.raw ++ rest)
      (Slot.raw : Slot T)
    have hr : List.replicate k (Slot.raw : Slot T)
        = Slot.raw :: List.replicate (k - 1) Slot.raw := by
      rw [← List.replicate_succ]; congr 1; omega
    simp only [Vector.canon, hr, List.append_assoc, List.cons_append]
    simpa using this
  exact emplace_in_place_undefined E (Vector.canon es k rest) pos args hpos hroom hval.2.1 hraw

/-- A copy assignment that runs in place (`capacity_ >= other.capacity_`) and
has to add elements (`size_ < other.size_`) never returns: once the common
prefix is assigned it reads the raw slot `size_` of its own block (or an
element assignment has thrown before). -/
theorem copy_assign_growing_in_place_fails {T : Type} (E : Env T) (v o : Vector T)
    (hv : v.Inv) (ho : o.Inv) (hc : ¬ v.capacity_ < o.capacity_) (hs : v.size_ < o.size_) :
    v.copyAssign E o = .ub (.notLive v.size_) ∨
      ∃ s, v.copyAssign E o = .throw .element s [] := by
  obtain ⟨S, k, rest, rfl⟩ := hv
  obtain ⟨O, ko, orest, rfl⟩ := ho
  have hlt : S.length < O.length := hs
  have hcap : O.length + ko ≤ S.length + k := by
    have : ¬ (S.length + k < O.length + ko) := hc
    omega
  obtain ⟨zs, hzs, hz⟩ := copyAssignLoop_total E (S.length + k + rest.length)
    (Vector.canon O ko orest).data_ O (List.replicate ko Slot.raw ++ orest)
    (List.replicate k Slot.raw ++ rest) (by simp [Vector.canon])
    (by simp [Vector.canon]; omega) (min O.length S.length) [] S
    (by simp) (by simp) (by simp; omega)
  simp only [List.nil_append, List.length_nil, Nat.zero_add] at hz hzs
  simp only [Vector.copyAssign, hc, if_false]
  simp only [Vector.canon, RawMemory.GetAddress, Nat.zero_add, List.append_assoc] at hz ⊢
  rcases hz with hz | ⟨j, hz⟩
  · left
    have hgt : ¬ S.length > O.length := by omega
    have hmin : min O.length S.length = S.length := by omega
    obtain ⟨m, hm⟩ : ∃ m, O.length - S.length = m + 1 := ⟨O.length - S.length - 1, by omega⟩
    obtain ⟨k1, hk1⟩ : ∃ k1, k = k1 + 1 := ⟨k - 1, by omega⟩
    subst hk1
    have hr := read_raw_mid (b := zs.map Slot.live ++ (List.replicate (k1 + 1) Slot.raw
        ++ rest)) (p := S.length + 0) (zs.map Slot.live)
      (List.replicate k1 Slot.raw ++ rest) (by simp [List.replicate_succ])
      (by simp [hzs])
    rw [hmin] at hz
    simp only [Nat.add_zero] at hr
    simp only [hmin, hz, hgt, if_false, size_sub_le (Nat.le_of_lt hlt), hm,
      uninitialized_copy_n_within, uninitCopyWithinLoop, Nat.add_zero, hr]
  · right
    simp only [hz]
    exact ⟨_, rfl⟩

/-! ## Lemmas: element access and the end position -/

/-- Indexing a vector that holds `es` gives the elements of `es`. -/
theorem Vector.Holds.at_eq {T : Type} {v : Vector T} {es : List T} (hv : v.Valid)
    (hh : v.Holds es) (i : Nat) (hi : i < es.length) : v.at i = .ok es[i] := by
  obtain ⟨tail, hb, -⟩ := hh.buffer_eq
  obtain ⟨hs, -⟩ := hh
  obtain ⟨h1, h2, -⟩ := hv
  have hi1 : i < v.size_ := by omega
  have hi2 : i < v.data_.capacity_ := by omega
  have hr : v.data_.buffer_.read i = .ok es[i] := by
    unfold Buf.read
    rw [hb, List.getElem?_append_left (by simpa using hi)]
    simp [hi]
  simp only [Vector.at, if_pos hi1, RawMemory.index, if_pos hi2, hr]

theorem growth_eq_max (n : Nat) : (if n = 0 then 1 else n * 2) = max 1 (2 * n) := by
  split <;> omega

/-- A copy or a move construction that returns builds the value it is given. -/
theorem construct_value {T : Type} (E : Env T) (a : Init T) (x value : T)
    (hx : E.construct a = some x) (ha : a = .copy value ∨ a = .move value) : x = value := by
  rcases ha with rfl | rfl
  · simp only [Env.construct] at hx
    split at hx
    · simp at hx
    · exact (Option.some.inj hx).symm
  · simp only [Env.construct] at hx
    split at hx
    · simp at hx
    · exact (Option.some.inj hx).symm

/-- At `end()`, `Emplace` is `EmplaceBack` (lines 190-191). -/
theorem Emplace_end {T : Type} (E : Env T) (v : Vector T) (a : Init T) :
    v.Emplace E v.end a = v.EmplaceBack E a := by
  simp [Vector.Emplace]

/-! ## Lemmas: resizing -/

theorem valueConstructLoop_fill {T : Type} (E : Env T) (x : T) (hx : E.valueInit = some x)
    (pre post : Buf T) (hole : Buf T) : ∀ (k : Nat),
    valueConstructLoop E pre.length hole.length k
        (pre ++ List.replicate k (Slot.live x) ++ hole ++ post)
      = .done (pre ++ List.replicate (k + hole.length) (Slot.live x) ++ post) := by
  induction hole with
  | nil => intro k; simp [valueConstructLoop]
  | cons h hole ih =>
    intro k
    have hc := construct_at_mid
      (b := pre ++ List.replicate k (Slot.live x) ++ (h :: hole) ++ post)
      (p := pre.length + k) (pre ++ List.replicate k (Slot.live x))
      (hole ++ post) h x (by simp) (by simp)
    have ih2 := ih (k + 1)
    have e1 : pre ++ List.replicate k (Slot.live x) ++ Slot.live x :: (hole ++ post)
        = pre ++ List.replicate (k + 1) (Slot.live x) ++ hole ++ post := by
      simp [List.replicate_succ', List.append_assoc]
    rw [List.length_cons, valueConstructLoop]
    simp only [hx, hc, e1, ih2]
    have e2 : k + 1 + hole.length = k + (hole.length + 1) := by omega
    rw [e2]

/-- The growing branch of `Resize` once `Reserve(new_size)` has returned `s`. -/
theorem Resize_after_Reserve {T : Type} (E : Env T) (v s : Vector T) (fr : List (Buf T))
    (es : List T) (n : Nat) (d : T) (hr : v.Reserve E n = .ok s () fr)
    (hv : s.Valid) (hh : s.Holds es) (hsz : s.size_ = v.size_) (hlt : v.size_ < n)
    (hn : n ≤ s.capacity_) (hd : E.valueInit = some d) :
    ∃ w : Vector T, v.Resize E n = .ok w () fr ∧ w.Valid ∧
      w.Holds (es ++ List.replicate (n - es.length) d) ∧ w.capacity_ = s.capacity_ := by
  obtain ⟨tail, hb, -⟩ := hh.buffer_eq
  obtain ⟨hs, -⟩ := hh
  obtain ⟨h1, h2, h3⟩ := hv
  have hne : ¬ n = v.size_ := by omega
  have hnl : ¬ n < v.size_ := by omega
  simp only [Vector.Resize, hne, hnl, if_false, hr]
  rw [← hsz] at hlt
  clear hr hsz hne hnl
  rcases s with ⟨⟨buf, dcap⟩, cap, sz⟩
  simp only at hb hs h1 h2 h3 hlt hn
  subst hs hb h3
  simp only [List.length_append, List.length_map] at h2
  obtain ⟨hole, post, rfl, hhole⟩ : ∃ hole post, tail = hole ++ post ∧
      hole.length = n - es.length :=
    ⟨tail.take (n - es.length), tail.drop (n - es.length), (List.take_append_drop _ _).symm,
      by simp; omega⟩
  have hf := valueConstructLoop_fill E d hd (es.map Slot.live) post hole 0
  simp only [List.replicate_zero, List.append_nil, Nat.zero_add, List.length_map, hhole] at hf
  refine ⟨⟨⟨es.map Slot.live ++ List.replicate (n - es.length) (Slot.live d) ++ post,
    (es.map Slot.live ++ (hole ++ post)).length⟩, cap, n⟩, ?_, ?_, ?_, rfl⟩
  · have hle : es.length ≤ (es.map Slot.live ++ (hole ++ post)).length := by simp
    simp only [RawMemory.add, if_pos hle, size_sub_le (Nat.le_of_lt hlt),
      uninitialized_value_construct_n]
    simp only [← List.append_assoc] at hf ⊢
    rw [hf]
  · simp [Vector.Valid, hhole] at h2 ⊢
    omega
  · exact holds_of_append (es ++ List.replicate (n - es.length) d) post (by simp; omega)
      (by simp)

/-- The shrinking branch of `Resize`. -/
theorem Resize_shrink {T : Type} (E : Env T) (v : Vector T) (es : List T) (n : Nat)
    (hv : v.Valid) (hh : v.Holds es) (hlt : n < v.size_) :
    ∃ w : Vector T, v.Resize E n = .ok w () [] ∧ w.Valid ∧ w.Holds (es.take n) ∧
      w.capacity_ = v.capacity_ := by
  obtain ⟨tail, hb, -⟩ := hh.buffer_eq
  obtain ⟨hs, -⟩ := hh
  obtain ⟨h1, h2, h3⟩ := hv
  rcases v with ⟨⟨buf, dcap⟩, cap, sz⟩
  simp only at hb hs h1 h2 h3 hlt
  subst hs hb h3
  obtain ⟨A, B, hes, hA⟩ : ∃ A B, es = A ++ B ∧ A.length = n :=
    ⟨es.take n, es.drop n, (List.take_append_drop n es).symm, by simp; omega⟩
  subst hes hA
  have hl := resizeDestroyLoop_map (((A ++ B).map Slot.live ++ tail).length) B tail
    (A.map Slot.live) (by simp)
  have hsub : (A ++ B).length - A.length = B.length := by simp
  have hne : ¬ A.length = (A ++ B).length := by omega
  simp only [List.length_map, List.map_append] at hl
  refine ⟨⟨⟨A.map Slot.live ++ List.replicate B.length Slot.raw ++ tail,
    ((A ++ B).map Slot.live ++ tail).length⟩, cap, A.length⟩, ?_, ?_, ?_, rfl⟩
  · simp only [Vector.Resize, hne, if_false, hlt, if_true, hsub, List.map_append]
    rw [hl]
  · simp [Vector.Valid] at h2 ⊢
    omega
  · have : (A ++ B).take A.length = A := by simp
    rw [this]
    exact holds_of_append A (List.replicate B.length Slot.raw ++ tail) rfl (by simp)

/-! ## Lemmas: copy construction and the free store -/

/-- The copy constructor, when nothing throws: a block of exactly `size_`
slots that holds copies of the elements. -/
theorem copy_ok {T : Type} (E : Env T) (A : Vector T) (es : List T)
    (hh : A.Holds es) (hal : E.allocFails A.size_ = false)
    (hct : ∀ y ∈ es, E.copyThrows y = false) :
    Vector.copy E A = .ok () ⟨⟨es.map Slot.live, es.length⟩, es.length, es.length⟩ [] := by
  obtain ⟨tail, hb, -⟩ := hh.buffer_eq
  obtain ⟨hs, -⟩ := hh
  rcases A with ⟨⟨buf, dcap⟩, cap, sz⟩
  simp only at hb hs hal
  subst hs hb
  have h := uninitCopyLoop_done E [] tail [] [] es [] (List.replicate es.length Slot.raw)
    (by simp) hct
  simp only [List.nil_append, List.append_nil, List.length_nil, List.map_nil] at h
  simp only [Vector.copy, create_eq E es.length hal, RawMemory.GetAddress,
    uninitialized_copy_n]
  simp [h]

theorem Store.block_append {T : Type} (st : Store T) (b : Buf T) (q : Option Nat)
    (hq : ∀ p, q = some p → p < st.length) : Store.block (st ++ [b]) q = Store.block st q := by
  cases q with
  | none => rfl
  | some p =>
    have := hq p rfl
    simp [Store.block, List.getD_eq_getElem?_getD, List.getElem?_append_left this]

theorem Store.block_set_ne {T : Type} (st : Store T) (b : Buf T) (p : Nat) (q : Option Nat)
    (hq : q ≠ some p) : Store.block (st.set p b) q = Store.block st q := by
  cases q with
  | none => rfl
  | some r =>
    have : p ≠ r := fun h => hq (by rw [h])
    simp [Store.block, List.getD_eq_getElem?_getD, List.getElem?_set_ne this]

/-- Writing the block at one address leaves the objects at other addresses as
they are. -/
theorem Store.view_set_ne {T : Type} (st : Store T) (blk : Buf T) (p : Nat) (o : VectorRef)
    (hne : o.buffer_ ≠ some p) : Store.view (st.set p blk) o = st.view o := by
  simp only [Store.view, Store.block_set_ne st blk p o.buffer_ hne]

/-- A member call on one object leaves every other allocated block as it is. -/
theorem Store.call_frame {T : Type} (E : Env T) (st st2 : Store T) (r r2 o : VectorRef)
    (c : Call T) (ho : ∀ p, o.buffer_ = some p → p < st.length)
    (hne : o.buffer_ = none ∨ o.buffer_ ≠ r.buffer_)
    (h : Store.call E st r c = some (st2, r2)) : st2.view o = st.view o := by
  unfold Store.call at h
  cases hs : ((st.view r).call E c).after with
  | none => simp [hs] at h
  | some s =>
    simp only [hs] at h
    cases hr : r.buffer_ with
    | none =>
      simp only [hr, Option.some.injEq, Prod.mk.injEq] at h
      obtain ⟨h, -⟩ := h
      subst h
      simp only [Store.view, Store.block_append st _ o.buffer_ ho]
    | some p =>
      simp only [hr, Option.some.injEq, Prod.mk.injEq] at h
      obtain ⟨h, -⟩ := h
      subst h
      have : o.buffer_ ≠ some p := by
        rcases hne with h0 | h1
        · rw [h0]; simp
        · rw [hr] at h1; exact h1
      simp only [Store.view, Store.block_set_ne st _ p o.buffer_ this]

/-! ## Lemmas: copy assignment -/

theorem copyAssignLoop_done {T : Type} (E : Env T) (cap : Nat) (other : RawMemory T)
    (O : List T) (orest srest : Buf T) (hob : other.buffer_ = O.map Slot.live ++ orest)
    (hoc : O.length ≤ other.capacity_) (hnt : ∀ y ∈ O, E.copyAssignThrows y = false) :
    ∀ (n : Nat) (D St : List T), D.length + n ≤ O.length → n ≤ St.length →
      D.length + St.length ≤ cap →
      copyAssignLoop E cap other n D.length ((D ++ St).map Slot.live ++ srest)
        = .done ((D ++ (O.drop D.length).take n ++ St.drop n).map Slot.live ++ srest,
            D.length + n) := by
  intro n
  induction n with
  | zero =>
    intro D St _ _ _
    simp [copyAssignLoop]
  | succ n ih =>
    intro D St h1 h2 h3
    obtain ⟨t, St1, rfl⟩ : ∃ t St1, St = t :: St1 := by
      cases St with
      | nil => simp at h2
      | cons t tl => exact ⟨t, tl, rfl⟩
    have hi : D.length < O.length := by omega
    have hO : O = O.take D.length ++ O[D.length] :: O.drop (D.length + 1) := by
      rw [← List.drop_eq_getElem_cons hi, List.take_append_drop]
    have hro := read_mid (b := other.buffer_) (p := D.length)
      ((O.take D.length).map Slot.live) ((O.drop (D.length + 1)).map Slot.live ++ orest)
      O[D.length]
      (by rw [hob]; conv_lhs => rw [hO]
          simp only [List.map_append, List.map_cons, List.append_assoc, List.cons_append])
      (by simp; omega)
    have hrs := read_mid (b := (D ++ t :: St1).map Slot.live ++ srest) (p := D.length)
      (D.map Slot.live) (St1.map Slot.live ++ srest) t (by simp) (by simp)
    have hset : ((D ++ t :: St1).map Slot.live ++ srest).set D.length (Slot.live O[D.length])
        = ((D ++ [O[D.length]]) ++ St1).map Slot.live ++ srest := by
      have := set_mid (D.map Slot.live) (St1.map Slot.live ++ srest) (Slot.live t)
        (Slot.live O[D.length])
      simp only [List.length_map] at this
      simp
    have hc1 : D.length < other.capacity_ := by omega
    have hc2 : D.length < cap := by simp at h3; omega
    have hth : E.copyAssignThrows O[D.length] = false := hnt _ (List.getElem_mem _)
    have hz := ih (D ++ [O[D.length]]) St1 (by simp; omega)
      (by simp at h2; omega) (by simp at h3 ⊢; omega)
    rw [copyAssignLoop]
    simp only [RawMemory.index, hc1, if_true, hc2, hro, hrs, hth, Bool.false_eq_true,
      if_false, hset]
    simp only [List.length_append, List.length_singleton] at hz
    rw [hz, List.drop_eq_getElem_cons hi]
    have e1 : D.length + 1 + n = D.length + (n + 1) := by omega
    simp only [List.take_succ_cons, List.drop_succ_cons, List.append_assoc,
      List.singleton_append, List.cons_append, List.nil_append, e1]

/-- The copy-and-swap branch of the copy assignment when nothing throws. -/
theorem copyAssign_swap_ok {T : Type} (E : Env T) (A B : Vector T) (esA esB : List T)
    (hhA : A.Holds esA) (hhB : B.Holds esB) (hlt : B.capacity_ < A.capacity_)
    (hal : E.allocFails A.size_ = false) (hct : ∀ y ∈ esA, E.copyThrows y = false) :
    ∃ tail : Buf T, B.data_.buffer_ = esB.map Slot.live ++ tail ∧
      B.copyAssign E A
        = .ok ⟨⟨esA.map Slot.live, esA.length⟩, esA.length, esA.length⟩ ()
            [List.replicate esB.length Slot.raw ++ tail] := by
  obtain ⟨tail, hb, -⟩ := hhB.buffer_eq
  have hcopy := copy_ok E A esA hhA hal hct
  have hd := destroy_n_map esB [] tail
  simp only [List.nil_append, List.length_nil] at hd
  refine ⟨tail, hb, ?_⟩
  simp only [Vector.copyAssign, if_pos hlt, hcopy, Vector.Swap, RawMemory.Swap, Vector.dtor,
    RawMemory.GetAddress, hb, hhB.1, hd, List.nil_append]

/-- The in-place branch of the copy assignment when the target is not
shorter than the source and no assignment throws. -/
theorem copyAssign_in_place_ok {T : Type} (E : Env T) (A B : Vector T) (esA esB : List T)
    (hA : A.Valid) (hhA : A.Holds esA) (hB : B.Valid) (hhB : B.Holds esB)
    (hge : ¬ B.capacity_ < A.capacity_) (hsz : A.size_ ≤ B.size_)
    (hnt : ∀ y ∈ esA, E.copyAssignThrows y = false) :
    ∃ tail : Buf T, tail.length + esA.length = B.data_.buffer_.length ∧
      B.copyAssign E A
        = .ok ⟨⟨esA.map Slot.live ++ tail, B.data_.capacity_⟩, B.capacity_, esA.length⟩ ()
            [] := by
  obtain ⟨tailA, hbA, -⟩ := hhA.buffer_eq
  obtain ⟨tailB, hbB, -⟩ := hhB.buffer_eq
  obtain ⟨hsA, -⟩ := hhA
  obtain ⟨hsB, -⟩ := hhB
  obtain ⟨a1, a2, a3⟩ := hA
  obtain ⟨b1, b2, b3⟩ := hB
  rcases A with ⟨⟨bufA, dcapA⟩, capA, szA⟩
  rcases B with ⟨⟨bufB, dcapB⟩, capB, szB⟩
  simp only at hbA hbB hsA hsB a1 a2 a3 b1 b2 b3 hge hsz
  subst hsA hsB hbA hbB
  have hmin : min esA.length esB.length = esA.length := by omega
  have hl := copyAssignLoop_done E dcapB ⟨esA.map Slot.live ++ tailA, dcapA⟩ esA tailA tailB rfl
    (by simp only; omega) hnt esA.length [] esB (by simp) hsz
    (by simp at b3 ⊢; omega)
  simp only [List.nil_append, List.length_nil, Nat.zero_add, List.drop_zero,
    List.take_length, List.map_append, List.append_assoc] at hl
  have hd := destroy_n_map (esB.drop esA.length) (esA.map Slot.live) tailB
  simp only [List.length_map, List.length_drop, List.append_assoc] at hd
  refine ⟨List.replicate (esB.length - esA.length) Slot.raw ++ tailB, ?_, ?_⟩
  · simp; omega
  · simp only [Vector.copyAssign, if_neg hge, hmin, hl, RawMemory.GetAddress, Nat.zero_add]
    by_cases hgt : esB.length > esA.length
    · simp only [if_pos hgt, size_sub_le hsz, hd]
    · have heq : esB.length = esA.length := by omega
      have hnil : esB.drop esA.length = [] := List.drop_eq_nil_of_le (by omega)
      simp only [if_neg hgt, heq, size_sub_le (Nat.le_refl _), Nat.sub_self,
        uninitialized_copy_n_within, uninitCopyWithinLoop, hnil, List.map_nil,
        List.nil_append, List.replicate_zero, gt_iff_lt, Nat.lt_irrefl, if_false]

/-- The in-place branch of the copy assignment never changes the capacity and
never allocates or releases a block, whatever its outcome. -/
theorem copyAssign_in_place_keeps_block {T : Type} (E : Env T) (A B s : Vector T)
    (hge : ¬ B.capacity_ < A.capacity_) (h : (B.copyAssign E A).after = some s) :
    s.capacity_ = B.capacity_ ∧ s.data_.capacity_ = B.data_.capacity_ ∧
      (B.copyAssign E A).released = [] := by
  have key : ∀ o : Outcome T (Vector T) Unit, o = B.copyAssign E A → ∀ s, o.after = some s →
      s.capacity_ = B.capacity_ ∧ s.data_.capacity_ = B.data_.capacity_ ∧ o.released = [] := by
    intro o ho s h
    simp only [Vector.copyAssign, if_neg hge] at ho
    repeat' split at ho
    all_goals subst ho
    all_goals first
      | (simp only [Outcome.after, Option.some.injEq] at h; subst h; exact ⟨rfl, rfl, rfl⟩)
      | (simp [Outcome.after] at h)
  exact key _ rfl s h

/-! ## Lemmas: inserting into a full vector -/

/-- The reallocating branch of `Emplace` when nothing throws: the elements
before the position, the new element, the elements from the position on. -/
theorem emplaceGrow_ok {T : Type} (E : Env T) (v : Vector T) (A B : List T) (a : Init T)
    (x : T) (hv : v.Valid) (hh : v.Holds (A ++ B)) (hfull : v.size_ = v.capacity_)
    (hx : E.construct a = some x)
    (hal : E.allocFails (if v.capacity_ = 0 then 1 else v.capacity_ * 2) = false)
    (hrel : ∀ y ∈ A ++ B, E.relocateThrows y = false) :
    ∃ (w : Vector T) (old : Buf T), v.emplaceGrow E A.length a = .ok w A.length [old] ∧
      w.Valid ∧ w.Holds (A ++ x :: B) ∧
      w.capacity_ = (if v.capacity_ = 0 then 1 else v.capacity_ * 2) ∧
      w.data_.capacity_ = w.capacity_ ∧ old.length = v.data_.buffer_.length ∧
      (∀ s ∈ old.take v.size_, s = Slot.raw) := by
  obtain ⟨tail, hb, -⟩ := hh.buffer_eq
  obtain ⟨hsz, -⟩ := hh
  obtain ⟨h1, h2, h3⟩ := hv
  rcases v with ⟨⟨buf, dcap⟩, cap, sz⟩
  simp only at hb hsz h1 h2 h3 hfull hal
  subst hsz hb h3 hfull
  obtain ⟨c, hc⟩ : ∃ c, c = (if (A ++ B).length = 0 then 1 else (A ++ B).length * 2) :=
    ⟨_, rfl⟩
  rw [← hc] at hal
  have hlen : (A ++ B).length = A.length + B.length := by simp
  rw [hlen] at hc
  have hcap : A.length + B.length < c := by rw [hc]; split <;> omega
  have hne : c ≠ 0 := by omega
  have hle : A.length ≤ c := by omega
  have hca := construct_at_mid (b := List.replicate c (Slot.raw : Slot T))
    (p := A.length) (List.replicate A.length Slot.raw)
    (List.replicate (c - A.length - 1) Slot.raw) Slot.raw x
    (replicate_split _ _ _ (by omega)) (by simp)
  obtain ⟨ys, hys, hcm⟩ := CopyMove_done E [] (B.map Slot.live ++ tail) []
    (Slot.live x :: List.replicate (c - A.length - 1) Slot.raw) A
    (List.replicate A.length Slot.raw) (by simp) (fun y hy => hrel y (by simp [hy]))
  have hrep : List.replicate (c - A.length - 1) (Slot.raw : Slot T)
      = List.replicate B.length Slot.raw
        ++ List.replicate (c - (A.length + B.length) - 1) Slot.raw := by
    rw [← List.replicate_add]; congr 1; omega
  obtain ⟨zs, hzs, hcm2⟩ := CopyMove_done E (ys.map Slot.live) tail
    (A.map Slot.live ++ [Slot.live x])
    (List.replicate (c - (A.length + B.length) - 1) Slot.raw) B
    (List.replicate B.length Slot.raw) (by simp) (fun y hy => hrel y (by simp [hy]))
  have hd := destroy_n_map (ys ++ zs) [] tail
  have hle2 : A.length ≤ ((A ++ B).map Slot.live ++ tail).length := by
    simp only [List.length_append, List.length_map]; omega
  have hss : size_sub (A.length + B.length) A.length = B.length := by
    rw [size_sub_le (by omega)]; omega
  simp only [List.nil_append, List.length_nil] at hcm
  simp only [List.length_append, List.length_map, List.length_singleton, hys,
    List.append_assoc, List.singleton_append, List.cons_append, List.nil_append] at hcm2
  simp only [List.nil_append, List.length_nil, List.map_append, List.length_append,
    hys, hzs, List.append_assoc] at hd
  refine ⟨⟨⟨A.map Slot.live ++ Slot.live x :: (B.map Slot.live
      ++ List.replicate (c - (A.length + B.length) - 1) Slot.raw), c⟩, c,
      (A ++ B).length + 1⟩,
    List.replicate (A.length + B.length) Slot.raw ++ tail, ?_, ?_, ?_, ?_, rfl, ?_, ?_⟩
  · simp only [Vector.emplaceGrow, hlen, ← hc, create_eq E c hal,
      RawMemory.add, RawMemory.GetAddress, hx, if_pos hle2, hss]
    simp only [if_pos hle, hca, List.map_append, List.append_assoc, hcm]
    rw [hrep, hcm2]
    simp only [hd, RawMemory.Swap, if_pos hle]
  · simp [Vector.Valid]
    omega
  · exact holds_of_append (A ++ x :: B)
      (List.replicate (c - (A.length + B.length) - 1) Slot.raw) (by simp; omega) (by simp)
  · show c = _
    rw [hlen]; exact hc
  · simp; omega
  · intro s hs
    rw [List.take_append_of_le_length (by simp)] at hs
    exact List.eq_of_mem_replicate (List.mem_of_mem_take hs)

/-- When a reallocating `EmplaceBack` is left by an exception although the new
block was allocated and the new element constructed, the transfer has thrown:
the block that is released then holds no transferred element any more, but
the new element is still alive in its slot `size_`. -/
theorem EmplaceBack_failed_transfer {T : Type} (E : Env T) (v s : Vector T) (a : Init T)
    (x : T) (e : Exc) (fr : List (Buf T)) (hv : v.Inv) (hfull : v.size_ = v.capacity_)
    (hx : E.construct a = some x)
    (hal : E.allocFails (if v.size_ = 0 then 1 else v.size_ * 2) = false)
    (h : v.EmplaceBack E a = .throw e s fr) :
    fr = [List.replicate v.size_ Slot.raw ++ Slot.live x
            :: List.replicate ((if v.size_ = 0 then 1 else v.size_ * 2) - v.size_ - 1)
                 Slot.raw] := by
  obtain ⟨es, k, rest, rfl⟩ := hv
  have hk : k = 0 := by
    have : es.length = es.length + k := hfull
    omega
  subst hk
  simp only [Vector.canon] at hal ⊢
  obtain ⟨c, hc⟩ : ∃ c, c = (if es.length = 0 then 1 else es.length * 2) := ⟨_, rfl⟩
  rw [← hc] at hal ⊢
  have hcap : es.length < c := by rw [hc]; split <;> omega
  have hne : c ≠ 0 := by omega
  have hle := Nat.le_of_lt hcap
  have hca := construct_at_mid (b := List.replicate c (Slot.raw : Slot T))
    (p := es.length) (List.replicate es.length Slot.raw)
    (List.replicate (c - es.length - 1) Slot.raw) Slot.raw x
    (replicate_split _ _ _ hcap) (by simp)
  obtain ⟨ys, hys, hcm⟩ := CopyMove_total E [] rest []
    (Slot.live x :: List.replicate (c - es.length - 1) Slot.raw) es
  have hd := destroy_n_map ys [] rest
  simp only [List.nil_append, List.length_nil] at hcm hd
  rw [hys] at hd
  simp only [Vector.EmplaceBack, Vector.canon, Nat.add_zero, if_true, ← hc,
    create_eq E c hal, RawMemory.add, RawMemory.GetAddress,
    List.replicate_zero, List.append_nil, hle, hx, hca] at h
  rcases hcm with hcm | hcm
  · simp [hcm, hd] at h
  · simp only [hcm, Outcome.throw.injEq] at h
    exact h.2.2.symm

/-! ## Lemmas: move assignment -/

/-- Move assignment hands the block of the target to the source as it is: no
slot of it is destroyed, neither by the assignment nor, as the source is left
with size `0`, by the destructor of the source. -/
theorem moveAssign_hands_over_block {T : Type} (A B : Vector T) :
    (B.moveAssign A).2.data_ = B.data_ ∧ (B.moveAssign A).2.size_ = 0 ∧
      (B.moveAssign A).2.capacity_ = 0 ∧ (B.moveAssign A).2.dtor = .ok B.data_.buffer_ :=
  ⟨rfl, rfl, rfl, rfl⟩

/-- After a move assignment to a target that owns a block, the capacity the
source reports differs from the capacity of the block it owns. -/
theorem moveAssign_source_capacity {T : Type} (A B : Vector T) (hB : B.Valid)
    (hc : 0 < B.capacity_) :
    (B.moveAssign A).2.Capacity ≠ (B.moveAssign A).2.data_.Capacity := by
  have := hB.2.1
  simp only [Vector.moveAssign, RawMemory.moveAssign, Vector.Capacity, RawMemory.Capacity]
  omega

/-! ## Lemmas: the fixtures are reachable -/

theorem reachable_vec1 : Reachable intEnv vec1 :=
  Reachable.call Vector.empty vec1 (Call.PushBack 1) Reachable.empty (by decide) (by decide)
    (by decide)

theorem reachable_vec7 : Reachable intEnv vec7 :=
  Reachable.call Vector.empty vec7 (Call.PushBack 7) Reachable.empty (by decide) (by decide)
    (by decide)

theorem reachable_vec123 : Reachable intEnv vec123 :=
  Reachable.call vec12 vec123 (Call.PushBack 3)
    (Reachable.call vec1 vec12 (Call.PushBack 2) reachable_vec1 (by decide) (by decide)
      (by decide))
    (by decide) (by decide) (by decide)

theorem reachable_vecFull : Reachable throwingEnv vecFull :=
  Reachable.call vec5 vecFull (Call.EmplaceBack (Init.args (some 13)))
    (Reachable.call Vector.empty vec5 (Call.PushBack 5) Reachable.empty (by decide) (by decide)
      (by decide))
    (by decide) (by decide) (by decide)

/-- The members of `vec123` are those left by three `PushBack` calls on an
empty vector. -/
theorem reachable_fields123 : Fields.Reachable Int fields123 :=
  Fields.Reachable.call ⟨2, 2⟩ ⟨4, 3⟩ (Call.PushBack 3)
    (Fields.Reachable.call ⟨1, 1⟩ ⟨2, 2⟩ (Call.PushBack 2)
      (Fields.Reachable.call Fields.empty ⟨1, 1⟩ (Call.PushBack 1) Fields.Reachable.empty
        (by decide) (by decide) (by decide))
      (by decide) (by decide) (by decide))
    (by decide) (by decide) (by decide)

/-! ## Claims -/

/-- C3: for every vector holding `es` and every index `i < es.length`,
`Erase(begin() + i)` (move assignment not throwing) returns the position at
index `i` and leaves the vector holding `es` without its `i`-th element, of
size `es.length - 1`; the capacity and the block are kept (nothing is
allocated or released). -/
theorem erase_removes_index {T : Type} (E : Env T) (v : Vector T) (es : List T) (i : Nat)
    (hv : v.Valid) (hh : v.Holds es) (hi : i < es.length)
    (hnt : ∀ y ∈ es, E.moveAssignThrows y = false) :
    ∃ w : Vector T, v.Erase E (v.begin + i) = .ok w (v.begin + i) [] ∧
      w.Holds (es.take i ++ es.drop (i + 1)) ∧ w.Size = es.length - 1 ∧
      w.Capacity = v.Capacity ∧ w.data_.Capacity = v.data_.Capacity ∧
      w.data_.buffer_.length = v.data_.buffer_.length ∧ w.Valid := by
  have hsplit : es = es.take i ++ es[i] :: es.drop (i + 1) := by
    rw [← List.drop_eq_getElem_cons hi, List.take_append_drop]
  have hlen : (es.take i).length = i := by simp; omega
  have hh2 : v.Holds (es.take i ++ es[i] :: es.drop (i + 1)) := by rw [← hsplit]; exact hh
  obtain ⟨w, h1, h2, h3, h4, h5⟩ := Erase_split E v (es.take i) (es.drop (i + 1)) es[i] hv hh2
    (fun y hy => hnt y (List.mem_of_mem_drop hy))
  rw [hlen] at h1
  have hs := h2.1
  simp only [List.length_append, List.length_take, List.length_drop] at hs
  refine ⟨w, h1, h2, ?_, h3, h4, h5, ?_, ?_, ?_⟩
  · simp only [Vector.Size, hs]; omega
  · have := hv.1; have := hh.1; omega
  · have := hv.2.1; omega
  · have := hv.2.2; omega

/-- Witness for C3: erasing index `1` of the vector `[1, 2, 3]` of capacity `4`. -/
theorem erase_removes_index_witness :
    ∃ w : Vector Int, vec123.Erase intEnv (vec123.begin + 1) = .ok w (vec123.begin + 1) [] ∧
      w.Holds ([1, 2, 3].take 1 ++ [1, 2, 3].drop (1 + 1)) ∧ w.Size = [1, 2, 3].length - 1 ∧
      w.Capacity = vec123.Capacity ∧ w.data_.Capacity = vec123.data_.Capacity ∧
      w.data_.buffer_.length = vec123.data_.buffer_.length ∧ w.Valid :=
  erase_removes_index intEnv vec123 [1, 2, 3] 1 (by decide) (by decide) (by decide)
    (by intro y _; rfl)

/-- C5: moving `A` into `B`, by move construction or by move assignment,
gives `B` the block of `A` with its slots (hence the elements of `A`, in
order), the size and the capacity of `A`, and leaves `A` with size `0` and
capacity `0`. -/
theorem move_transfers_state {T : Type} (A B : Vector T) :
    ((Vector.moveCtor A).1.data_ = A.data_ ∧ (Vector.moveCtor A).1.Size = A.Size ∧
      (Vector.moveCtor A).1.Capacity = A.Capacity ∧
      (∀ es, A.Holds es ↔ (Vector.moveCtor A).1.Holds es) ∧
      (Vector.moveCtor A).2.Size = 0 ∧ (Vector.moveCtor A).2.Capacity = 0) ∧
    ((B.moveAssign A).1.data_ = A.data_ ∧ (B.moveAssign A).1.Size = A.Size ∧
      (B.moveAssign A).1.Capacity = A.Capacity ∧
      (∀ es, A.Holds es ↔ (B.moveAssign A).1.Holds es) ∧
      (B.moveAssign A).2.Size = 0 ∧ (B.moveAssign A).2.Capacity = 0) := by
  refine ⟨⟨rfl, rfl, rfl, fun es => Iff.rfl, rfl, rfl⟩, ⟨rfl, rfl, rfl, fun es => Iff.rfl, rfl, rfl⟩⟩

/-- C10: `Reserve(newCap)` changes nothing when `newCap <= capacity`.
Otherwise, when the byte count `newCap * sizeof(T)` of line 78 fits `size_t`
(`newCap * sizeof(T) < 2^64`), `operator new` does not throw for it and the
relocation of the elements does not throw, the capacity becomes exactly
`newCap`, the size is unchanged and the vector holds the same sequence, each
element at the same index. -/
theorem reserve_keeps_elements {T : Type} (E : Env T) (v : Vector T) (es : List T) (n : Nat)
    (hv : v.Valid) (hh : v.Holds es) :
    (n ≤ v.Capacity → v.Reserve E n = .ok v () []) ∧
    (v.Capacity < n → n * E.sizeof_T < 2 ^ 64 → E.newThrows (n * E.sizeof_T) = false →
      (∀ y ∈ es, E.relocateThrows y = false) →
      ∃ (w : Vector T) (fr : List (Buf T)), v.Reserve E n = .ok w () fr ∧
        w.Capacity = n ∧ w.Size = v.Size ∧ w.Holds es ∧ w.Valid) := by
  refine ⟨fun hn => Reserve_noop E v n hn, fun hn hfit hnew hrel => ?_⟩
  obtain ⟨w, fr, h1, h2, h3, h4, h5⟩ := Reserve_grow E v es n hv hh hn
    (allocFails_of_fits hfit hnew) hrel
  exact ⟨w, fr, h1, h4, h5, h3, h2⟩

/-- Witness for C10: on the vector `[1, 2, 3]` of capacity `4` of 4-byte
elements, `Reserve(2)` changes nothing and `Reserve(6)`, a request of 24
bytes, gives capacity `6` with the same elements. -/
theorem reserve_keeps_elements_witness :
    vec123.Reserve intEnv 2 = .ok vec123 () [] ∧
      ∃ (w : Vector Int) (fr : List (Buf Int)), vec123.Reserve intEnv 6 = .ok w () fr ∧
        w.Capacity = 6 ∧ w.Size = vec123.Size ∧ w.Holds [1, 2, 3] ∧ w.Valid :=
  ⟨(reserve_keeps_elements intEnv vec123 [1, 2, 3] 2 (by decide) (by decide)).1 (by decide),
   (reserve_keeps_elements intEnv vec123 [1, 2, 3] 6 (by decide) (by decide)).2 (by decide)
     (by decide) rfl (by intro y _; rfl)⟩

/-- C6: after `N >= 1` consecutive appends (any mix of the two `PushBack`
overloads and `EmplaceBack`, none of them throwing) to a default-constructed
vector, the size is `N` and the capacity is the smallest power of two that is
`>= N`. That no call throws is asked of the allocations of fewer than `2 * N`
elements only: their byte counts fit `size_t` and `operator new` returns. -/
theorem growth_law {T : Type} (E : Env T) (calls : List (Append T)) (hN : 1 ≤ calls.length)
    (hal : ∀ n, n < 2 * calls.length → E.allocFails n = false)
    (hrel : ∀ x, E.relocateThrows x = false)
    (hct : ∀ a ∈ calls, (E.construct a.init).isSome = true) :
    ∃ (v : Vector T) (k : Nat), Vector.appendAll E Vector.empty calls = some v ∧
      v.Size = calls.length ∧ v.Capacity = 2 ^ k ∧ calls.length ≤ 2 ^ k ∧
      ∀ j, calls.length ≤ 2 ^ j → 2 ^ k ≤ 2 ^ j := by
  obtain ⟨w, es, h1, -, h3, h4, h5⟩ := appendAll_grows E (2 * calls.length) hal hrel calls
    Vector.empty [] ⟨Nat.le_refl _, Nat.le_refl _, rfl⟩ ⟨rfl, rfl⟩ (Or.inl ⟨rfl, rfl⟩)
    (by simp) hct
  simp only [List.length_nil, Nat.zero_add] at h4
  rw [h4] at h5
  rcases h5 with ⟨h0, -⟩ | ⟨k, hk1, hk2, hk3⟩
  · omega
  · exact ⟨w, k, h1, by rw [Vector.Size, h3.1, h4], hk1, hk2, hk3⟩

/-- Witness for C6: `PushBack(1)`, `PushBack(2)` (rvalue), `EmplaceBack(3)`. -/
theorem growth_law_witness :
    ∃ (v : Vector Int) (k : Nat),
      Vector.appendAll intEnv Vector.empty
        [Append.PushBack 1, Append.PushBack_rv 2, Append.EmplaceBack (Init.args (some 3))] = some v ∧
      v.Size = [Append.PushBack (1 : Int), Append.PushBack_rv 2,
        Append.EmplaceBack (Init.args (some 3))].length ∧ v.Capacity = 2 ^ k ∧
      [Append.PushBack (1 : Int), Append.PushBack_rv 2,
        Append.EmplaceBack (Init.args (some 3))].length ≤ 2 ^ k ∧
      ∀ j, [Append.PushBack (1 : Int), Append.PushBack_rv 2,
        Append.EmplaceBack (Init.args (some 3))].length ≤ 2 ^ j → 2 ^ k ≤ 2 ^ j :=
  growth_law intEnv _ (by decide) (by decide) (fun _ => rfl) (by decide)

/-- C7: for an element type relocated by copy (copy-constructible, its move
constructor may throw), whenever a growth operation that has to reallocate
(`Reserve` above the capacity; `PushBack`, `EmplaceBack`, `Emplace` or `Insert`
on a full vector) leaves by an exception (`std::bad_alloc` of the new block, a
throwing constructor of the new element, a throwing copy of the transfer),
the vector is exactly in its state before the call. -/
theorem failed_growth_keeps_state {T : Type} (E : Env T)
    (hm : E.is_nothrow_move_constructible = false) (hc : E.is_copy_constructible = true)
    (v : Vector T) (c : Call T) (hg : c.mustGrow v) (e : Exc) (s : Vector T)
    (fr : List (Buf T)) (h : v.call E c = .throw e s fr) : s = v := by
  have hE : ∀ a pos, v.size_ = v.capacity_ → v.Emplace E pos a = .throw e s fr → s = v := by
    intro a pos hfull h
    unfold Vector.Emplace at h
    split at h
    · exact EmplaceBack_throw_state E hm hc v s a e fr h
    · rw [if_pos (by omega)] at h
      exact emplaceGrow_throw_state E hm hc v s _ a e fr h
  cases c with
  | Reserve n => exact Reserve_throw_state E hm hc v s n e fr h
  | Resize n => exact absurd hg (by simp [Call.mustGrow])
  | PushBack x =>
    simp only [Vector.call, PushBack_eq] at h
    exact EmplaceBack_throw_state E hm hc v s _ e fr (void_throw _ e s fr h)
  | PushBack_rv x =>
    simp only [Vector.call, PushBack_rv_eq] at h
    exact EmplaceBack_throw_state E hm hc v s _ e fr (void_throw _ e s fr h)
  | PopBack => exact absurd hg (by simp [Call.mustGrow])
  | EmplaceBack a => exact EmplaceBack_throw_state E hm hc v s _ e fr (void_throw _ e s fr h)
  | Emplace pos a => exact hE a pos hg.1 (void_throw _ e s fr h)
  | Insert pos x => exact hE _ pos hg.1 (void_throw _ e s fr h)
  | Insert_rv pos x => exact hE _ pos hg.1 (void_throw _ e s fr h)
  | Erase pos => exact absurd hg (by simp [Call.mustGrow])

/-- Witness for C7 on the full vector `[5, 13]` whose element `13` cannot be
copied: `Reserve(101)` fails in `operator new`, `EmplaceBack` fails in the
constructor of the new element, `PushBack(1)` and `Insert(begin() + 1, 4)` fail
in the copy of `13`; each time the vector is left as it was. -/
theorem failed_growth_keeps_state_witness :
    (∃ s fr, vecFull.call throwingEnv (Call.Reserve 101) = .throw .bad_alloc s fr ∧
      s = vecFull) ∧
    (∃ s fr, vecFull.call throwingEnv (Call.EmplaceBack (Init.args none)) = .throw .element s fr ∧
      s = vecFull) ∧
    (∃ s fr, vecFull.call throwingEnv (Call.PushBack 1) = .throw .element s fr ∧ s = vecFull) ∧
    (∃ s fr, vecFull.call throwingEnv (Call.Insert (vecFull.begin + 1) 4) = .throw .element s fr ∧
      s = vecFull) :=
  ⟨⟨vecFull, [], by decide,
      failed_growth_keeps_state throwingEnv rfl rfl vecFull (Call.Reserve 101) (by decide)
        .bad_alloc vecFull [] (by decide)⟩,
   ⟨vecFull, [[.raw, .raw, .raw, .raw]], by decide,
      failed_growth_keeps_state throwingEnv rfl rfl vecFull (Call.EmplaceBack (Init.args none))
        (by decide) .element vecFull [[.raw, .raw, .raw, .raw]] (by decide)⟩,
   ⟨vecFull, [[.raw, .raw, .live 1, .raw]], by decide,
      failed_growth_keeps_state throwingEnv rfl rfl vecFull (Call.PushBack 1) (by decide)
        .element vecFull [[.raw, .raw, .live 1, .raw]] (by decide)⟩,
   ⟨vecFull, [[.live 5, .live 4, .raw, .raw]], by decide,
      failed_growth_keeps_state throwingEnv rfl rfl vecFull (Call.Insert (vecFull.begin + 1) 4)
        (by decide) .element vecFull [[.live 5, .live 4, .raw, .raw]]
        (by decide)⟩⟩

/-- C1 (defect): on the vector `[1, 2, 3]` of capacity `4` built by three
`PushBack` calls, `Insert(begin() + 1, 99)` (both overloads) and
`Emplace(begin() + 1, 99)` do not produce `[1, 99, 2, 3]`: they read the
uninitialised slot `3`. -/
theorem insert_with_spare_room_faults :
    Vector.appendAll intEnv Vector.empty
        [Append.PushBack 1, Append.PushBack 2, Append.PushBack 3] = some vec123 ∧
      vec123.Insert intEnv (vec123.begin + 1) 99 = .ub (.notLive 3) ∧
      vec123.Insert_rv intEnv (vec123.begin + 1) 99 = .ub (.notLive 3) ∧
      vec123.Emplace intEnv (vec123.begin + 1) (Init.args (some 99)) = .ub (.notLive 3) := by
  decide

/-- C2 (defect): the scenario holds up to the three `PushBack` calls (size `3`,
capacity `4`, sequence `[1, 2, 3]`), then `Insert(begin() + 1, 99)` reads the
uninitialised slot `3` instead of producing `[1, 99, 2, 3]`. -/
theorem scenario_stops_at_insert :
    (Vector.empty : Vector Int).PushBack intEnv 1 = .ok vec1 () [[]] ∧
      vec1.PushBack intEnv 2
        = .ok { data_ := { buffer_ := [.live 1, .live 2], capacity_ := 2 },
                capacity_ := 2, size_ := 2 } () [[.raw]] ∧
      Vector.PushBack intEnv { data_ := { buffer_ := [.live 1, .live 2], capacity_ := 2 },
                               capacity_ := 2, size_ := 2 } 3
        = .ok vec123 () [[.raw, .raw]] ∧
      vec123.Size = 3 ∧ vec123.Capacity = 4 ∧ vec123.Holds [1, 2, 3] ∧
      vec123.Insert intEnv (vec123.begin + 1) 99 = .ub (.notLive 3) := by
  decide

/-- C4 (defect): `B` is empty with capacity `1` (after `Reserve(1)`), `A` holds
`[7]`; the copy assignment `B = A` runs in place and copy-constructs the slot
`0` of `B` from that same uninitialised slot of `B` (line 129) instead of from
`A`. -/
theorem copy_assign_reads_own_raw_slot :
    (Vector.empty : Vector Int).Reserve intEnv 1 = .ok vecReserved1 () [[]] ∧
      (Vector.empty : Vector Int).PushBack intEnv 7 = .ok vec7 () [[]] ∧
      vecReserved1.copyAssign intEnv vec7 = .ub (.notLive 0) := by
  decide

/-- C9 (defect): `B` holds `[1]`, `A` is empty; after `B = std::move(A)` the
vector `A` has size `0` while slot `0` of the block it now owns still holds the
live element `1` of `B`. -/
theorem moved_from_vector_owns_live_slot :
    Reachable intEnv (vec1.moveAssign Vector.empty).2 ∧
      (vec1.moveAssign Vector.empty).2.Size = 0 ∧
      (vec1.moveAssign Vector.empty).2.data_.buffer_ = [Slot.live 1] ∧
      ¬ (vec1.moveAssign Vector.empty).2.LiveExactly := by
  refine ⟨?_, rfl, rfl, ?_⟩
  · exact Reachable.moveAssign_src vec1 Vector.empty
      (Reachable.call Vector.empty vec1 (Call.PushBack 1) Reachable.empty (by decide) (by decide)
        (by decide))
      Reachable.empty
  · intro h
    have := h.2 0 (Nat.le_refl 0) (by decide)
    exact absurd this (by decide)

/-- C8: `0 <= size <= capacity` holds for every value the members `size_` and
`capacity_` can take: for the values left by each constructor (default, sized,
copy, move) and for those left by every public operation (copy and move
assignment, `Swap`, `Reserve`, `Resize`, `PushBack`, `EmplaceBack`, `PopBack`,
`Insert`, `Emplace`, `Erase`) called within its precondition, whether it
returns or is left by an exception. The paths that read an uninitialised slot
are among them (`Insert` and `Emplace` before `end()` with spare room, the copy
assignment that grows in place). The arithmetic is that of `size_t`; the one
condition on the calls is that doubling the capacity does not exceed `size_t`,
which it does only for a vector of `2^63` or more elements. -/
theorem size_le_capacity_of_reachable {T : Type} (f : Fields)
    (h : Fields.Reachable T f) : 0 ≤ f.size_ ∧ f.size_ ≤ f.capacity_ :=
  ⟨Nat.zero_le _, (Fields.Reachable.ok f h).1⟩

/-- Witness for C8, on two paths that read an uninitialised slot.
`Insert(begin() + 1, 99)` on the vector `[1, 2, 3]` of capacity `4` takes the
branch that keeps the block and leaves `capacity_ = 4`, `size_ = 4`. The copy
assignment `B = A` with `B` empty of capacity `2` (after `Reserve(2)`) and `A`
holding one element (after one `PushBack`) takes the branch that keeps the
block and leaves `capacity_ = 2`, `size_ = 1`. -/
theorem size_le_capacity_of_reachable_witness :
    ((fields123.call (Call.Insert 1 (99 : Int))).returned = { capacity_ := 4, size_ := 4 } ∧
      Fields.Reachable Int { capacity_ := 4, size_ := 4 } ∧
      (0 ≤ ({ capacity_ := 4, size_ := 4 } : Fields).size_ ∧
        ({ capacity_ := 4, size_ := 4 } : Fields).size_
          ≤ ({ capacity_ := 4, size_ := 4 } : Fields).capacity_)) ∧
    ((Fields.copyAssign { capacity_ := 2, size_ := 0 } { capacity_ := 1, size_ := 1 }).returned
        = { capacity_ := 2, size_ := 1 } ∧
      Fields.Reachable Int { capacity_ := 2, size_ := 1 } ∧
      (0 ≤ ({ capacity_ := 2, size_ := 1 } : Fields).size_ ∧
        ({ capacity_ := 2, size_ := 1 } : Fields).size_
          ≤ ({ capacity_ := 2, size_ := 1 } : Fields).capacity_)) :=
  ⟨(fun hr => ⟨by decide, hr, size_le_capacity_of_reachable _ hr⟩)
    (Fields.Reachable.call fields123 ⟨4, 4⟩ (Call.Insert 1 (99 : Int)) reachable_fields123
      (by decide) (by decide) (by decide)),
   (fun hr => ⟨by decide, hr, size_le_capacity_of_reachable _ hr⟩)
    (Fields.Reachable.copyAssign ⟨2, 0⟩ ⟨1, 1⟩ ⟨2, 1⟩
      (Fields.Reachable.call Fields.empty ⟨2, 0⟩ (Call.Reserve 2) Fields.Reachable.empty
        (by decide) (by decide) (by decide))
      (Fields.Reachable.call Fields.empty ⟨1, 1⟩ (Call.PushBack (7 : Int))
        Fields.Reachable.empty (by decide) (by decide) (by decide))
      (by decide))⟩

/-- C11: for every vector holding `es` (size `s`, capacity `c`) and every `n`,
`Resize(n)` (nothing throwing; when `n > c`, the byte count `n * sizeof(T)` of
the new block fits `size_t`, `n * sizeof(T) < 2^64`, and `operator new` does
not throw for it) leaves a vector of size `n` whose first `min(s, n)` elements
are those it had; when `n > s` the elements at the indices `[s, n)` are
value-initialised elements and the capacity is `max(c, n)`; when `n <= s` the
capacity is unchanged. -/
theorem resize_sets_size {T : Type} (E : Env T) (v : Vector T) (es : List T) (n : Nat) (d : T)
    (hv : v.Valid) (hh : v.Holds es)
    (hd : v.Size < n → E.valueInit = some d)
    (hal : v.Capacity < n → n * E.sizeof_T < 2 ^ 64 ∧ E.newThrows (n * E.sizeof_T) = false)
    (hrel : v.Capacity < n → ∀ y ∈ es, E.relocateThrows y = false) :
    ∃ (w : Vector T) (fr : List (Buf T)), v.Resize E n = .ok w () fr ∧ w.Size = n ∧
      w.Holds (es.take n ++ List.replicate (n - v.Size) d) ∧
      (∀ i, i < min v.Size n → w.at i = v.at i) ∧
      (∀ i, v.Size ≤ i → i < n → w.at i = .ok d) ∧
      (v.Size < n → w.Capacity = max v.Capacity n) ∧
      (n ≤ v.Size → w.Capacity = v.Capacity) ∧ w.Valid := by
  simp only [Vector.Size, Vector.Capacity] at hd hal hrel ⊢
  have hs : v.size_ = es.length := hh.1
  have key : ∃ (w : Vector T) (fr : List (Buf T)), v.Resize E n = .ok w () fr ∧ w.Valid ∧
      w.Holds (es.take n ++ List.replicate (n - v.size_) d) ∧
      (v.size_ < n → w.capacity_ = max v.capacity_ n) ∧
      (n ≤ v.size_ → w.capacity_ = v.capacity_) := by
    rcases Nat.lt_trichotomy n v.size_ with hlt | heq | hgt
    · obtain ⟨w, h1, h2, h3, h4⟩ := Resize_shrink E v es n hv hh hlt
      refine ⟨w, [], h1, h2, ?_, fun h => by omega, fun _ => h4⟩
      have : n - v.size_ = 0 := by omega
      rw [this]; simpa using h3
    · refine ⟨v, [], by simp [Vector.Resize, heq], hv, ?_, fun h => by omega, fun _ => rfl⟩
      have h0 : n - v.size_ = 0 := by omega
      have h1 : es.take n = es := List.take_of_length_le (by omega)
      rw [h0, h1]; simpa using hh
    · have htake : es.take n = es := List.take_of_length_le (by omega)
      rw [htake, hs]
      by_cases hc : n ≤ v.capacity_
      · obtain ⟨w, h1, h2, h3, h4⟩ := Resize_after_Reserve E v v [] es n d
          (Reserve_noop E v n hc) hv hh rfl hgt hc (hd hgt)
        exact ⟨w, [], h1, h2, h3, fun _ => by rw [h4]; omega, fun h => by omega⟩
      · have hc1 : v.capacity_ < n := by omega
        obtain ⟨s, fr, g1, g2, g3, g4, g5⟩ := Reserve_grow E v es n hv hh hc1
          (allocFails_of_fits (hal hc1).1 (hal hc1).2) (hrel hc1)
        obtain ⟨w, h1, h2, h3, h4⟩ := Resize_after_Reserve E v s fr es n d g1 g2 g3 g5 hgt
          (by omega) (hd hgt)
        exact ⟨w, fr, h1, h2, h3, fun _ => by rw [h4, g4]; omega, fun h => by omega⟩
  obtain ⟨w, fr, h1, h2, h3, h4, h5⟩ := key
  have hlen : (es.take n ++ List.replicate (n - v.size_) d).length = n := by
    simp only [List.length_append, List.length_take, List.length_replicate]; omega
  refine ⟨w, fr, h1, by rw [h3.1, hlen], h3, ?_, ?_, h4, h5, h2⟩
  · intro i hi
    have hi1 : i < es.length := by omega
    have hi2 : i < (es.take n ++ List.replicate (n - v.size_) d).length := by omega
    rw [h3.at_eq h2 i hi2, hh.at_eq hv i hi1]
    congr 1
    rw [List.getElem_append_left (by simp; omega)]
    simp
  · intro i hi1 hi2
    have hi3 : i < (es.take n ++ List.replicate (n - v.size_) d).length := by omega
    rw [h3.at_eq h2 i hi3]
    congr 1
    rw [List.getElem_append_right (by simp; omega)]
    simp

/-- Witness for C11: on the vector `[1, 2, 3]` of capacity `4`, `Resize(6)` gives
`[1, 2, 3, 0, 0, 0]` with capacity `6` and `Resize(1)` gives `[1]` with capacity `4`. -/
theorem resize_sets_size_witness :
    (∃ (w : Vector Int) (fr : List (Buf Int)), vec123.Resize intEnv 6 = .ok w () fr ∧
      w.Size = 6 ∧ w.Holds ([1, 2, 3].take 6 ++ List.replicate (6 - vec123.Size) 0) ∧
      (∀ i, i < min vec123.Size 6 → w.at i = vec123.at i) ∧
      (∀ i, vec123.Size ≤ i → i < 6 → w.at i = .ok 0) ∧
      (vec123.Size < 6 → w.Capacity = max vec123.Capacity 6) ∧
      (6 ≤ vec123.Size → w.Capacity = vec123.Capacity) ∧ w.Valid) ∧
    (∃ (w : Vector Int) (fr : List (Buf Int)), vec123.Resize intEnv 1 = .ok w () fr ∧
      w.Size = 1 ∧ w.Holds ([1, 2, 3].take 1 ++ List.replicate (1 - vec123.Size) 0) ∧
      (∀ i, i < min vec123.Size 1 → w.at i = vec123.at i) ∧
      (∀ i, vec123.Size ≤ i → i < 1 → w.at i = .ok 0) ∧
      (vec123.Size < 1 → w.Capacity = max vec123.Capacity 1) ∧
      (1 ≤ vec123.Size → w.Capacity = vec123.Capacity) ∧ w.Valid) :=
  ⟨resize_sets_size intEnv vec123 [1, 2, 3] 6 0 (by decide) (by decide) (fun _ => rfl)
     (fun _ => ⟨by decide, rfl⟩) (fun _ _ _ => rfl),
   resize_sets_size intEnv vec123 [1, 2, 3] 1 0 (by decide) (by decide) (fun _ => rfl)
     (fun _ => ⟨by decide, rfl⟩) (fun _ _ _ => rfl)⟩

/-- C12: for every vector holding `es` (size `s`, capacity `c`) and every append
call (either `PushBack` overload or `EmplaceBack`) whose constructor builds `x`
(nothing throwing), the call leaves the vector holding `es` followed by `x`, of
size `s + 1`; the capacity stays `c` when `s < c` and becomes `max(1, 2 * s)`
when `s == c`; `EmplaceBack` returns the slot at index `s`, which holds `x`. For
a call that copies or moves a value, `x` is that value. -/
theorem append_extends_sequence {T : Type} (E : Env T) (v : Vector T) (es : List T)
    (a : Append T) (x : T) (hv : v.Valid) (hh : v.Holds es)
    (hx : E.construct a.init = some x)
    (halloc : v.Size = v.Capacity → E.allocFails (max 1 (2 * v.Size)) = false)
    (hrel : v.Size = v.Capacity → ∀ y ∈ es, E.relocateThrows y = false) :
    ∃ (w : Vector T) (fr : List (Buf T)),
      v.append E a = .ok w () fr ∧
      v.EmplaceBack E a.init = .ok w (w.begin + v.Size) fr ∧
      w.Holds (es ++ [x]) ∧ w.Size = v.Size + 1 ∧
      (v.Size < v.Capacity → w.Capacity = v.Capacity) ∧
      (v.Size = v.Capacity → w.Capacity = max 1 (2 * v.Size)) ∧
      w.at v.Size = .ok x ∧ w.Valid ∧
      (∀ value, a.init = .copy value ∨ a.init = .move value → x = value) := by
  simp only [Vector.Size, Vector.Capacity, ← growth_eq_max] at halloc hrel ⊢
  obtain ⟨w, fr, he, hwv, hwh, hwc⟩ := EmplaceBack_ok E v es a.init x hv hh hx halloc hrel
  have hs : v.size_ = es.length := hh.1
  have hat := hwh.at_eq hwv es.length (by simp)
  refine ⟨w, fr, ?_, ?_, hwh, ?_, ?_, ?_, ?_, hwv, fun value => construct_value E _ x value hx⟩
  · rw [append_eq, he]; rfl
  · rw [he, hs]; simp [Vector.begin, RawMemory.GetAddress]
  · rw [hwh.1, hs]; simp
  · intro hlt; rw [hwc, if_neg (by omega)]
  · intro heq; rw [hwc, if_pos heq]
  · rw [hs, hat]; simp

/-- Witness for C12: `PushBack(4)` on `[1, 2, 3]` of capacity `4` (room left) and
`EmplaceBack(7)` on the full vector `[5, 13]` (reallocation). -/
theorem append_extends_sequence_witness :
    (∃ (w : Vector Int) (fr : List (Buf Int)),
      vec123.append intEnv (Append.PushBack 4) = .ok w () fr ∧
      vec123.EmplaceBack intEnv (Append.PushBack 4).init = .ok w (w.begin + vec123.Size) fr ∧
      w.Holds ([1, 2, 3] ++ [4]) ∧ w.Size = vec123.Size + 1 ∧
      (vec123.Size < vec123.Capacity → w.Capacity = vec123.Capacity) ∧
      (vec123.Size = vec123.Capacity → w.Capacity = max 1 (2 * vec123.Size)) ∧
      w.at vec123.Size = .ok 4 ∧ w.Valid ∧
      (∀ value, (Append.PushBack (4 : Int)).init = .copy value ∨
        (Append.PushBack (4 : Int)).init = .move value → 4 = value)) ∧
    (∃ (w : Vector Int) (fr : List (Buf Int)),
      vecFull.append intEnv (Append.EmplaceBack (Init.args (some 7))) = .ok w () fr ∧
      vecFull.EmplaceBack intEnv (Append.EmplaceBack (Init.args (some 7))).init
        = .ok w (w.begin + vecFull.Size) fr ∧
      w.Holds ([5, 13] ++ [7]) ∧ w.Size = vecFull.Size + 1 ∧
      (vecFull.Size < vecFull.Capacity → w.Capacity = vecFull.Capacity) ∧
      (vecFull.Size = vecFull.Capacity → w.Capacity = max 1 (2 * vecFull.Size)) ∧
      w.at vecFull.Size = .ok 7 ∧ w.Valid ∧
      (∀ value, (Append.EmplaceBack (Init.args (some (7 : Int)))).init = .copy value ∨
        (Append.EmplaceBack (Init.args (some (7 : Int)))).init = .move value → 7 = value)) :=
  ⟨append_extends_sequence intEnv vec123 [1, 2, 3] (Append.PushBack 4) 4 (by decide) (by decide)
     rfl (fun _ => rfl) (fun _ _ _ => rfl),
   append_extends_sequence intEnv vecFull [5, 13] (Append.EmplaceBack (Init.args (some 7))) 7
     (by decide) (by decide) rfl (fun _ => rfl) (fun _ _ _ => rfl)⟩

/-- C13: for every vector `A` holding `es`, the copy constructor (nothing
throwing) builds a vector `B` in a block that `operator new` provides for it:
`B` has the size of `A`, capacity and block size equal to the size of `A`, and
`B[i] == A[i]` for every `i < A.size`; `A` is unchanged. The block of `B` is
not the block of `A`: whatever a later member call on `B` does, and whatever
is written to the slots of the block of `B`, `A` denotes the same vector; and
the same for `B` when `A` is changed. -/
theorem copy_is_deep_and_independent {T : Type} (E : Env T) (st : Store T) (a : VectorRef)
    (es : List T) (ha : ∀ p, a.buffer_ = some p → p < st.length)
    (hv : (st.view a).Valid) (hh : (st.view a).Holds es)
    (hal : E.allocFails (st.view a).Size = false)
    (hct : ∀ y ∈ es, E.copyThrows y = false) :
    ∃ (st1 : Store T) (b : VectorRef), Store.copy E st a = some (st1, b) ∧
      Vector.copy E (st.view a) = .ok () (st1.view b) [] ∧
      (st1.view b).Size = (st.view a).Size ∧ (st1.view b).Capacity = (st.view a).Size ∧
      (st1.view b).data_.Capacity = (st.view a).Size ∧
      (st1.view b).data_.buffer_.length = (st.view a).Size ∧
      (∀ i, i < (st.view a).Size → (st1.view b).at i = (st.view a).at i) ∧
      (st1.view b).Holds es ∧ (st1.view b).Valid ∧
      st1.view a = st.view a ∧
      (∀ c st2 b2, Store.call E st1 b c = some (st2, b2) → st2.view a = st.view a) ∧
      (∀ c st2 a2, Store.call E st1 a c = some (st2, a2) → st2.view b = st1.view b) ∧
      (∀ p blk, b.buffer_ = some p → Store.view (st1.set p blk) a = st.view a) ∧
      (∀ p blk, a.buffer_ = some p → Store.view (st1.set p blk) b = st1.view b) := by
  have hs : (st.view a).size_ = es.length := hh.1
  have hcopy := copy_ok E (st.view a) es hh hal hct
  have hsz : a.size_ = es.length := hs
  -- the copy as a value
  obtain ⟨B, hB⟩ : ∃ B : Vector T, B = ⟨⟨es.map Slot.live, es.length⟩, es.length, es.length⟩ :=
    ⟨_, rfl⟩
  have hBv : B.Valid := by subst hB; simp [Vector.Valid]
  have hBh : B.Holds es := by subst hB; exact holds_of_append es [] rfl (by simp)
  have hat : ∀ i, i < (st.view a).Size → B.at i = (st.view a).at i := by
    intro i hi
    have hi1 : i < es.length := by simp only [Vector.Size] at hi; omega
    rw [hBh.at_eq hBv i hi1, hh.at_eq hv i hi1]
  rw [← hB] at hcopy
  by_cases h0 : a.size_ ≠ 0
  · -- a block is allocated, at the address `st.length`
    have hview : Store.view (st ++ [B.data_.buffer_])
        { buffer_ := some st.length, data_capacity_ := B.data_.capacity_,
          capacity_ := B.capacity_, size_ := B.size_ } = B := by
      simp [Store.view, Store.block, List.getD_eq_getElem?_getD]
    have hva : Store.view (st ++ [B.data_.buffer_]) a = st.view a := by
      simp only [Store.view, Store.block_append st _ a.buffer_ ha]
    refine ⟨st ++ [B.data_.buffer_], ⟨some st.length, B.data_.capacity_, B.capacity_, B.size_⟩,
      by simp only [Store.copy, hcopy, if_pos h0], ?_⟩
    rw [hview]
    have hab : ∀ p, a.buffer_ = some p → p ≠ st.length := fun p hp => by
      have := ha p hp
      omega
    refine ⟨hcopy, ?_, ?_, ?_, ?_, hat, hBh, hBv, hva, ?_, ?_, ?_, ?_⟩
    · rw [hB]; exact hs.symm
    · rw [hB]; exact hs.symm
    · rw [hB]; exact hs.symm
    · rw [hB]; simp [Vector.Size, hs]
    rotate_left 2
    · intro p blk hp
      have hp1 : p = st.length := (Option.some.inj hp).symm
      subst hp1
      rw [Store.view_set_ne _ blk _ a (fun h => hab _ h rfl), hva]
    · intro p blk hp
      rw [Store.view_set_ne _ blk p _ (fun h => hab p hp (Option.some.inj h).symm), hview]
    · intro c st2 b2 hc
      rw [Store.call_frame E _ st2 _ b2 a c
        (fun p hp => by have := ha p hp; simp; omega)
        (by
          cases hp : a.buffer_ with
          | none => exact Or.inl rfl
          | some p =>
            right
            have := ha p hp
            simp only [ne_eq, Option.some.injEq]
            omega) hc, hva]
    · intro c st2 a2 hc
      have := Store.call_frame E _ st2 _ a2
        { buffer_ := some st.length, data_capacity_ := B.data_.capacity_,
          capacity_ := B.capacity_, size_ := B.size_ } c
        (fun p hp => by simp at hp; subst hp; simp)
        (by
          right
          cases hp : a.buffer_ with
          | none => simp
          | some p =>
            have := ha p hp
            simp only [ne_eq, Option.some.injEq]
            omega) hc
      rw [this, hview]
  · -- nothing is allocated: the new object holds `nullptr`
    have h0 : a.size_ = 0 := by omega
    have hes : es = [] := List.length_eq_zero.mp (by omega)
    have hview : ∀ st0 : Store T, Store.view st0
        { buffer_ := none, data_capacity_ := B.data_.capacity_,
          capacity_ := B.capacity_, size_ := B.size_ } = B := by
      intro st0
      subst hB hes
      simp [Store.view, Store.block]
    refine ⟨st, ⟨none, B.data_.capacity_, B.capacity_, B.size_⟩,
      by simp [Store.copy, hcopy, h0], ?_⟩
    rw [hview]
    refine ⟨hcopy, ?_, ?_, ?_, ?_, hat, hBh, hBv, rfl, ?_, ?_, ?_, ?_⟩
    · rw [hB]; exact hs.symm
    · rw [hB]; exact hs.symm
    · rw [hB]; exact hs.symm
    · rw [hB]; simp [Vector.Size, hs]
    rotate_left 2
    · intro p blk hp
      exact absurd hp (by simp)
    · intro p blk _
      rw [hview]
    · intro c st2 b2 hc
      simp only [Store.call] at hc
      cases hr : ((Store.view st
          { buffer_ := none, data_capacity_ := B.data_.capacity_,
            capacity_ := B.capacity_, size_ := B.size_ }).call E c).after with
      | none => simp [hr] at hc
      | some s =>
        simp only [hr, Option.some.injEq, Prod.mk.injEq] at hc
        obtain ⟨hc, -⟩ := hc
        subst hc
        simp only [Store.view, Store.block_append st _ a.buffer_ ha]
    · intro c st2 a2 hc
      have := Store.call_frame E _ st2 _ a2
        { buffer_ := none, data_capacity_ := B.data_.capacity_,
          capacity_ := B.capacity_, size_ := B.size_ } c
        (fun p hp => by simp at hp) (Or.inl rfl) hc
      rw [this, hview]

/-- Witness for C13: copying the vector `[1, 2, 3]` of capacity `4` whose block
is at address `0`. -/
theorem copy_is_deep_and_independent_witness :
    ∃ (st1 : Store Int) (b : VectorRef), Store.copy intEnv store123 ref123 = some (st1, b) ∧
      Vector.copy intEnv (store123.view ref123) = .ok () (st1.view b) [] ∧
      (st1.view b).Size = (store123.view ref123).Size ∧
      (st1.view b).Capacity = (store123.view ref123).Size ∧
      (st1.view b).data_.Capacity = (store123.view ref123).Size ∧
      (st1.view b).data_.buffer_.length = (store123.view ref123).Size ∧
      (∀ i, i < (store123.view ref123).Size →
        (st1.view b).at i = (store123.view ref123).at i) ∧
      (st1.view b).Holds [1, 2, 3] ∧ (st1.view b).Valid ∧
      st1.view ref123 = store123.view ref123 ∧
      (∀ c st2 b2, Store.call intEnv st1 b c = some (st2, b2) →
        st2.view ref123 = store123.view ref123) ∧
      (∀ c st2 a2, Store.call intEnv st1 ref123 c = some (st2, a2) →
        st2.view b = st1.view b) ∧
      (∀ p blk, b.buffer_ = some p → Store.view (st1.set p blk) ref123 = store123.view ref123) ∧
      (∀ p blk, ref123.buffer_ = some p → Store.view (st1.set p blk) b = st1.view b) :=
  copy_is_deep_and_independent intEnv store123 ref123 [1, 2, 3]
    (fun p hp => by cases hp; decide) (by decide) (by decide) rfl (fun _ _ => rfl)

/-- C14 (counterexample): `B` holds `[5, 13]` with capacity `2`, `A` holds `[1]`
with capacity `4` (after `Reserve(4)`, `PushBack(1)`). The size of `A` does not
exceed the capacity of `B`, yet `B = A` replaces the block of `B` (the old
block is released) and the capacity of `B` becomes `1`. -/
theorem copy_assign_swaps_though_size_fits :
    (Vector.empty : Vector Int).Reserve intEnv 4 = .ok vecReserved4 () [[]] ∧
      vecReserved4.PushBack intEnv 1 = .ok vec1of4 () [] ∧
      vec1of4.Size ≤ vecFull.Capacity ∧
      vecFull.copyAssign intEnv vec1of4 = .ok vec1 () [[.raw, .raw]] ∧
      vec1.Capacity ≠ vecFull.Capacity := by
  decide

/-- C14 (amended): the copy assignment `B = A` compares the capacities (line
114). When the capacity of `A` exceeds that of `B` it copy-constructs `A` and
swaps (nothing throwing): the old block of `B` is released with its elements
destroyed and the capacity of `B` becomes the size of `A`. When the capacity
of `A` does not exceed that of `B` the assignment runs in the block of `B`:
no block is released and any state it leaves has the capacity `B` had; when
moreover `A` is not longer than `B` (no assignment throwing) it returns with
`B` holding the elements of `A`. -/
theorem copy_assign_branches {T : Type} (E : Env T) (A B : Vector T) (esA esB : List T)
    (hA : A.Valid) (hhA : A.Holds esA) (hB : B.Valid) (hhB : B.Holds esB) :
    (B.Capacity < A.Capacity → E.allocFails A.Size = false →
      (∀ y ∈ esA, E.copyThrows y = false) →
      ∃ (w : Vector T) (old : Buf T), B.copyAssign E A = .ok w () [old] ∧
        old.length = B.data_.buffer_.length ∧ (∀ s ∈ old.take B.Size, s = Slot.raw) ∧
        w.Holds esA ∧ w.Size = A.Size ∧ w.Capacity = A.Size ∧ w.data_.Capacity = A.Size ∧
        w.Valid) ∧
    (A.Capacity ≤ B.Capacity → ∀ s, (B.copyAssign E A).after = some s →
      s.Capacity = B.Capacity ∧ s.data_.Capacity = B.data_.Capacity ∧
        (B.copyAssign E A).released = []) ∧
    (A.Capacity ≤ B.Capacity → A.Size ≤ B.Size →
      (∀ y ∈ esA, E.copyAssignThrows y = false) →
      ∃ w : Vector T, B.copyAssign E A = .ok w () [] ∧ w.Holds esA ∧ w.Size = A.Size ∧
        w.Capacity = B.Capacity ∧ w.data_.Capacity = B.data_.Capacity ∧
        w.data_.buffer_.length = B.data_.buffer_.length ∧ w.Valid) := by
  simp only [Vector.Size, Vector.Capacity, RawMemory.Capacity]
  refine ⟨fun hlt hal hct => ?_, fun hle s h => ?_, fun hle hsz hnt => ?_⟩
  · obtain ⟨tail, hb, h⟩ := copyAssign_swap_ok E A B esA esB hhA hhB hlt hal hct
    refine ⟨_, _, h, ?_, ?_, holds_of_append esA [] rfl (by simp), hhA.1.symm, hhA.1.symm,
      hhA.1.symm, ?_⟩
    · rw [hb]; simp
    · intro s hs
      rw [hhB.1, List.take_append_of_le_length (by simp)] at hs
      exact List.eq_of_mem_replicate (List.mem_of_mem_take hs)
    · simp [Vector.Valid]
  · exact copyAssign_in_place_keeps_block E A B s (by omega) h
  · obtain ⟨tail, hlen, h⟩ := copyAssign_in_place_ok E A B esA esB hA hhA hB hhB (by omega)
      hsz hnt
    refine ⟨_, h, holds_of_append esA tail rfl rfl, hhA.1.symm, rfl, rfl, ?_, ?_⟩
    · simp; omega
    · obtain ⟨b1, b2, b3⟩ := hB
      have := hhA.1
      have := hhB.1
      simp only [Vector.Valid, List.length_append, List.length_map]
      omega

/-- Witness for C14: `B = A` with `B = [5, 13]` of capacity `2` and `A = [1]` of
capacity `4` swaps; with `B = [1, 2, 3]` of capacity `4` and `A = [7]` of
capacity `1` it runs in place. -/
theorem copy_assign_branches_witness :
    (∃ (w : Vector Int) (old : Buf Int), vecFull.copyAssign intEnv vec1of4 = .ok w () [old] ∧
      old.length = vecFull.data_.buffer_.length ∧
      (∀ s ∈ old.take vecFull.Size, s = Slot.raw) ∧
      w.Holds [1] ∧ w.Size = vec1of4.Size ∧ w.Capacity = vec1of4.Size ∧
      w.data_.Capacity = vec1of4.Size ∧ w.Valid) ∧
    (vec123.copyAssign intEnv vec7).released = [] ∧
    (∃ w : Vector Int, vec123.copyAssign intEnv vec7 = .ok w () [] ∧ w.Holds [7] ∧
      w.Size = vec7.Size ∧ w.Capacity = vec123.Capacity ∧
      w.data_.Capacity = vec123.data_.Capacity ∧
      w.data_.buffer_.length = vec123.data_.buffer_.length ∧ w.Valid) :=
  ⟨(copy_assign_branches intEnv vec1of4 vecFull [1] [5, 13] (by decide) (by decide) (by decide)
      (by decide)).1 (by decide) rfl (fun _ _ => rfl),
   ((copy_assign_branches intEnv vec7 vec123 [7] [1, 2, 3] (by decide) (by decide) (by decide)
      (by decide)).2.1 (by decide)
        { data_ := { buffer_ := [.live 7, .raw, .raw, .raw], capacity_ := 4 },
          capacity_ := 4, size_ := 1 } (by decide)).2.2,
   (copy_assign_branches intEnv vec7 vec123 [7] [1, 2, 3] (by decide) (by decide) (by decide)
      (by decide)).2.2 (by decide) (by decide) (fun _ _ => rfl)⟩

/-- C15 (defect): `B` holds `[1, 2, 3]` with capacity `4`, `A` holds `[7]`. After
`B = std::move(A)` the vector `A`, a reachable state, reports capacity `0`
while the block it owns is the old block of `B` with capacity `4` (not an
empty block). After a move construction the source does own an empty block. -/
theorem moved_from_source_keeps_block :
    Reachable intEnv (vec123.moveAssign vec7).2 ∧
      (Vector.moveCtor vec123).2 = Vector.empty ∧
      (vec123.moveAssign vec7).2.Size = 0 ∧ (vec123.moveAssign vec7).2.Capacity = 0 ∧
      (vec123.moveAssign vec7).2.data_.Capacity = 4 ∧
      (vec123.moveAssign vec7).2.data_.buffer_ = [.live 1, .live 2, .live 3, .raw] ∧
      (vec123.moveAssign vec7).2.Capacity ≠ (vec123.moveAssign vec7).2.data_.Capacity :=
  ⟨Reachable.moveAssign_src vec123 vec7 reachable_vec123 reachable_vec7,
    by decide, by decide, by decide, by decide, by decide, by decide⟩

/-- C16: for every full vector (size == capacity == `c >= 1`) holding `es`, every
index `idx < c` and every constructor call building `x` (nothing throwing),
`Emplace(begin() + idx, ...)` takes the reallocating branch and returns the
position `idx` of a vector of size `c + 1` and capacity `2 * c` in a new block
of `2 * c` slots: the elements `[0, idx)` keep their indices, `x` is at index
`idx`, the elements `[idx, c)` are one index further; the old block is
released with its elements destroyed. -/
theorem emplace_into_full_vector {T : Type} (E : Env T) (v : Vector T) (es : List T)
    (idx : Nat) (a : Init T) (x : T) (hv : v.Valid) (hh : v.Holds es)
    (hfull : v.Size = v.Capacity) (hc : 1 ≤ v.Capacity) (hidx : idx < es.length)
    (hx : E.construct a = some x) (hal : E.allocFails (2 * v.Capacity) = false)
    (hrel : ∀ y ∈ es, E.relocateThrows y = false) :
    ∃ (w : Vector T) (old : Buf T),
      v.Emplace E (v.begin + idx) a = v.emplaceGrow E idx a ∧
      v.Emplace E (v.begin + idx) a = .ok w (w.begin + idx) [old] ∧
      w.Holds (es.take idx ++ x :: es.drop idx) ∧
      (∀ i, i < idx → w.at i = v.at i) ∧ w.at idx = .ok x ∧
      (∀ i, idx ≤ i → i < es.length → w.at (i + 1) = v.at i) ∧
      w.Size = es.length + 1 ∧ w.Capacity = 2 * v.Capacity ∧
      w.data_.Capacity = 2 * v.Capacity ∧ w.Valid ∧
      old.length = v.data_.buffer_.length ∧ (∀ s ∈ old.take v.Size, s = Slot.raw) := by
  simp only [Vector.Size, Vector.Capacity, RawMemory.Capacity] at hfull hc hal ⊢
  have hs : v.size_ = es.length := hh.1
  have hsplit : es = es.take idx ++ es.drop idx := (List.take_append_drop idx es).symm
  have hlen : (es.take idx).length = idx := by simp; omega
  have hh2 : v.Holds (es.take idx ++ es.drop idx) := by rw [← hsplit]; exact hh
  have hcap : (if v.capacity_ = 0 then 1 else v.capacity_ * 2) = 2 * v.capacity_ := by
    split <;> omega
  obtain ⟨w, old, h1, h2, h3, h4, h5, h6, h7⟩ := emplaceGrow_ok E v (es.take idx)
    (es.drop idx) a x hv hh2 hfull hx (by rw [hcap]; exact hal)
    (by rw [← hsplit]; exact hrel)
  rw [hlen] at h1
  have hpath : v.Emplace E (v.begin + idx) a = v.emplaceGrow E idx a := by
    have hne : ¬ (0 + idx = 0 + v.size_) := by omega
    simp only [Vector.Emplace, Vector.begin, Vector.end, RawMemory.GetAddress]
    rw [if_neg hne, if_pos (by omega)]
    simp
  have hL : (es.take idx ++ x :: es.drop idx).length = es.length + 1 := by
    simp only [List.length_append, List.length_cons, List.length_take, List.length_drop]
    omega
  refine ⟨w, old, hpath, ?_, h3, ?_, ?_, ?_, ?_, ?_, ?_, h2, h6, h7⟩
  · rw [hpath, h1]; simp [Vector.begin, RawMemory.GetAddress]
  · intro i hi
    rw [h3.at_eq h2 i (by omega), hh.at_eq hv i (by omega)]
    congr 1
    rw [List.getElem_append_left (by omega)]
    simp
  · rw [h3.at_eq h2 idx (by omega)]
    congr 1
    rw [List.getElem_append_right (by omega)]
    simp [hlen]
  · intro i hi1 hi2
    rw [h3.at_eq h2 (i + 1) (by omega), hh.at_eq hv i hi2]
    congr 1
    rw [List.getElem_append_right (by omega)]
    have e : i + 1 - (es.take idx).length = (i - idx) + 1 := by omega
    simp only [e, List.getElem_cons_succ, List.getElem_drop]
    congr 1
    omega
  · rw [h3.1, hL]
  · rw [h4, hcap]
  · rw [h5, h4, hcap]

/-- Witness for C16: `Emplace(begin() + 1, 4)` on the full vector `[5, 13]`. -/
theorem emplace_into_full_vector_witness :
    ∃ (w : Vector Int) (old : Buf Int),
      vecFull.Emplace intEnv (vecFull.begin + 1) (Init.copy 4)
        = vecFull.emplaceGrow intEnv 1 (Init.copy 4) ∧
      vecFull.Emplace intEnv (vecFull.begin + 1) (Init.copy 4) = .ok w (w.begin + 1) [old] ∧
      w.Holds ([5, 13].take 1 ++ 4 :: [5, 13].drop 1) ∧
      (∀ i, i < 1 → w.at i = vecFull.at i) ∧ w.at 1 = .ok 4 ∧
      (∀ i, 1 ≤ i → i < [(5 : Int), 13].length → w.at (i + 1) = vecFull.at i) ∧
      w.Size = [(5 : Int), 13].length + 1 ∧ w.Capacity = 2 * vecFull.Capacity ∧
      w.data_.Capacity = 2 * vecFull.Capacity ∧ w.Valid ∧
      old.length = vecFull.data_.buffer_.length ∧
      (∀ s ∈ old.take vecFull.Size, s = Slot.raw) :=
  emplace_into_full_vector intEnv vecFull [5, 13] 1 (Init.copy 4) 4 (by decide) (by decide)
    (by decide) (by decide) (by decide) rfl rfl (fun _ _ => rfl)

/-- C17 (defect): the vector `[7]` of capacity `2` (after `Reserve(2)`,
`PushBack(7)`) has spare capacity; `Emplace(begin(), 5)` runs the branch that
keeps the block, whose first statement (line 208) reads `data_[size_]`, the
uninitialised slot `1`. The shift of line 209, run for `idx = 1` on a block
`[1, 2, 0, 3]` of size `3` whose last element was moved to slot `3`, starts at
slot `idx - 1`: it moves the slots `[0, 2)`, leaving slot `0` moved-from. -/
theorem emplace_in_place_reads_slot_past_end :
    (Vector.empty : Vector Int).Reserve intEnv 2 = .ok vecReserved2 () [[]] ∧
      vecReserved2.PushBack intEnv 7 = .ok vec7of2 () [] ∧
      vec7of2.Size < vec7of2.Capacity ∧
      vec7of2.data_.index vec7of2.Size = .ok 1 ∧
      vec7of2.data_.buffer_.read 1 = .error (.notLive 1) ∧
      vec7of2.Emplace intEnv (vec7of2.begin + 0) (Init.copy 5) = .ub (.notLive 1) ∧
      vec7of2.emplaceInPlace intEnv 0 (Init.copy 5) = .ub (.notLive 1) ∧
      move_backward movingEnv [.live 1, .live 2, .live 0, .live 3] (1 - 1) (3 - 1) 3
        = .done [.live 0, .live 1, .live 2, .live 3] :=
  ⟨by decide, by decide, by decide, rfl, rfl, by decide, by decide, by decide⟩

/-- C18 (defect): the element type is relocated by copy and the copy of `13`
throws. On the full vector `[5, 13]` the transfer fails at the second element:
`PushBack(1)` and `EmplaceBack(1)` release the new block with the new element
`1` still alive in slot `2`; `Emplace(begin() + 1, 4)` releases it with the
transferred first range `[5]` and the new element `4` still alive;
`Emplace(begin(), 4)` with `4` still alive. `Reserve(4)` releases its block
with no element left. -/
theorem failed_transfer_leaves_new_element_alive :
    Reachable throwingEnv vecFull ∧
      throwingEnv.is_nothrow_move_constructible = false ∧
      throwingEnv.is_copy_constructible = true ∧
      throwingEnv.copyThrows 13 = true ∧
      vecFull.PushBack throwingEnv 1
        = .throw .element vecFull [[.raw, .raw, .live 1, .raw]] ∧
      vecFull.PushBack_rv throwingEnv 1
        = .throw .element vecFull [[.raw, .raw, .live 1, .raw]] ∧
      vecFull.EmplaceBack throwingEnv (Init.args (some 1))
        = .throw .element vecFull [[.raw, .raw, .live 1, .raw]] ∧
      vecFull.Emplace throwingEnv (vecFull.begin + 1) (Init.args (some 4))
        = .throw .element vecFull [[.live 5, .live 4, .raw, .raw]] ∧
      vecFull.Emplace throwingEnv (vecFull.begin + 0) (Init.args (some 4))
        = .throw .element vecFull [[.live 4, .raw, .raw, .raw]] ∧
      vecFull.Reserve throwingEnv 4
        = .throw .element vecFull [[.raw, .raw, .raw, .raw]] :=
  ⟨reachable_vecFull, by decide⟩

/-- C19 (defect): `B` holds `[5, 13]`, `A` holds `[7]`. After `B = std::move(A)`
the elements `5` and `13` are still alive in the block now owned by `A`, whose
size is `0`; the destructor of `A` destroys no slot and releases the block with
both elements alive. -/
theorem move_assign_skips_destructors :
    vecFull.Holds [5, 13] ∧
      (vecFull.moveAssign vec7).1 = vec7 ∧
      (vecFull.moveAssign vec7).2.Size = 0 ∧
      (vecFull.moveAssign vec7).2.data_.buffer_ = [.live 5, .live 13] ∧
      (vecFull.moveAssign vec7).1.dtor = .ok [.raw] ∧
      (vecFull.moveAssign vec7).2.dtor = .ok [.live 5, .live 13] :=
  ⟨by decide, by decide, by decide, by decide, rfl, rfl⟩

/-- C20: `Insert(end(), x)` (both overloads) and `Emplace(end(), ...)` are
`EmplaceBack` with the same constructor call, and the `PushBack` overloads are
`EmplaceBack` with the returned reference dropped. For every vector holding
`es` and every `x` (nothing throwing), `Insert(end(), x)`, `Emplace(end(), x)`,
`EmplaceBack(x)` and `PushBack(x)`, by copy or by move, leave the same vector,
holding `es` followed by `x`; the position `Insert` and `Emplace` return is the
slot `EmplaceBack` returns, at index `size`. -/
theorem appending_calls_agree {T : Type} (E : Env T) (v : Vector T) (es : List T) (x : T)
    (hv : v.Valid) (hh : v.Holds es)
    (hcopy : E.construct (.copy x) = some x) (hmove : E.construct (.move x) = some x)
    (halloc : v.Size = v.Capacity → E.allocFails (max 1 (2 * v.Size)) = false)
    (hrel : v.Size = v.Capacity → ∀ y ∈ es, E.relocateThrows y = false) :
    (v.Insert E v.end x = v.EmplaceBack E (.copy x) ∧
      v.Insert_rv E v.end x = v.EmplaceBack E (.move x) ∧
      (∀ args, v.Emplace E v.end args = v.EmplaceBack E args) ∧
      v.PushBack E x = (v.EmplaceBack E (.copy x)).void ∧
      v.PushBack_rv E x = (v.EmplaceBack E (.move x)).void) ∧
    ∃ (w : Vector T) (fr : List (Buf T)),
      v.Insert E v.end x = .ok w (w.begin + v.Size) fr ∧
      v.Insert_rv E v.end x = .ok w (w.begin + v.Size) fr ∧
      v.Emplace E v.end (.copy x) = .ok w (w.begin + v.Size) fr ∧
      v.Emplace E v.end (.move x) = .ok w (w.begin + v.Size) fr ∧
      v.EmplaceBack E (.copy x) = .ok w (w.begin + v.Size) fr ∧
      v.EmplaceBack E (.move x) = .ok w (w.begin + v.Size) fr ∧
      v.PushBack E x = .ok w () fr ∧
      v.PushBack_rv E x = .ok w () fr ∧
      w.Holds (es ++ [x]) ∧ w.Size = v.Size + 1 ∧ w.at v.Size = .ok x := by
  refine ⟨⟨by rw [Vector.Insert, Emplace_end], by rw [Vector.Insert_rv, Emplace_end],
    fun args => Emplace_end E v args, PushBack_eq E v x, PushBack_rv_eq E v x⟩, ?_⟩
  simp only [Vector.Size, Vector.Capacity, ← growth_eq_max] at halloc hrel ⊢
  obtain ⟨w, fr, he, hwv, hwh, -⟩ := EmplaceBack_ok E v es (.copy x) x hv hh hcopy halloc hrel
  have hsame : v.EmplaceBack E (.move x) = v.EmplaceBack E (.copy x) := by
    unfold Vector.EmplaceBack
    rw [hcopy, hmove]
  have hs : v.size_ = es.length := hh.1
  have hat := hwh.at_eq hwv es.length (by simp)
  have hret : w.begin + v.size_ = es.length := by
    rw [hs]; simp [Vector.begin, RawMemory.GetAddress]
  rw [← hret] at he
  refine ⟨w, fr, ?_, ?_, ?_, ?_, he, ?_, ?_, ?_, hwh, ?_, ?_⟩
  · rw [Vector.Insert, Emplace_end, he]
  · rw [Vector.Insert_rv, Emplace_end, hsame, he]
  · rw [Emplace_end, he]
  · rw [Emplace_end, hsame, he]
  · rw [hsame, he]
  · rw [PushBack_eq, he]; rfl
  · rw [PushBack_rv_eq, hsame, he]; rfl
  · rw [hwh.1, hs]; simp
  · rw [hs, hat]; simp

/-- Witness for C20: appending `4` to the vector `[1, 2, 3]` of capacity `4`. -/
theorem appending_calls_agree_witness :
    (vec123.Insert intEnv vec123.end 4 = vec123.EmplaceBack intEnv (Init.copy 4) ∧
      vec123.Insert_rv intEnv vec123.end 4 = vec123.EmplaceBack intEnv (Init.move 4) ∧
      (∀ args, vec123.Emplace intEnv vec123.end args = vec123.EmplaceBack intEnv args) ∧
      vec123.PushBack intEnv 4 = (vec123.EmplaceBack intEnv (Init.copy 4)).void ∧
      vec123.PushBack_rv intEnv 4 = (vec123.EmplaceBack intEnv (Init.move 4)).void) ∧
    ∃ (w : Vector Int) (fr : List (Buf Int)),
      vec123.Insert intEnv vec123.end 4 = .ok w (w.begin + vec123.Size) fr ∧
      vec123.Insert_rv intEnv vec123.end 4 = .ok w (w.begin + vec123.Size) fr ∧
      vec123.Emplace intEnv vec123.end (Init.copy 4) = .ok w (w.begin + vec123.Size) fr ∧
      vec123.Emplace intEnv vec123.end (Init.move 4) = .ok w (w.begin + vec123.Size) fr ∧
      vec123.EmplaceBack intEnv (Init.copy 4) = .ok w (w.begin + vec123.Size) fr ∧
      vec123.EmplaceBack intEnv (Init.move 4) = .ok w (w.begin + vec123.Size) fr ∧
      vec123.PushBack intEnv 4 = .ok w () fr ∧
      vec123.PushBack_rv intEnv 4 = .ok w () fr ∧
      w.Holds ([1, 2, 3] ++ [4]) ∧ w.Size = vec123.Size + 1 ∧ w.at vec123.Size = .ok 4 :=
  appending_calls_agree intEnv vec123 [1, 2, 3] 4 (by decide) (by decide) rfl rfl
    (fun _ => rfl) (fun _ _ _ => rfl)

end AdvancedVector
